import Mathlib

/-!
# lvim-space file search: matcher and walker

A shallow embedding of `search.go` / `main.go` / `types.go`.

Conventions of the embedding

* A Go `string` is its sequence of bytes, `Str = List (Fin 256)`; `len`, indexing,
  `==`, `strings.HasPrefix` and `strings.Contains` all work on bytes.
* `strings.ToLower` belongs to the Go standard library (it maps Unicode code points and may
  change the byte length of non-ASCII text).  The matcher takes it as the argument `toLower`,
  so every statement holds for whatever that function does.  `asciiToLower` is the value it
  has on ASCII-only text and is used for concrete evaluations.
* `float64` scores are rationals.  Every value the program computes is an integer (or `1.0`),
  and `float64` arithmetic on integers is exact below `2^53`.
* Go `int` values are integers; the one place where 64-bit wrap-around can change a result,
  the product `time.Duration(maxTime) * time.Second`, wraps explicitly.
* The file system, the clock and the output stream are arguments: a tree `Entry`, and in `Env`
  the readings of the clock and the verdicts of the output stream.  `filepath.Walk` is
  embedded after the Go standard library (`path/filepath`), `sort.Slice` is an argument with
  the contract `SortsDescending`.
* A run-time panic is the value `none`.
-/

namespace LvimSpace

/-- A Go string: its bytes. -/
abbrev Str := List (Fin 256)

/-- Bytes of an ASCII literal. -/
def ascii (s : String) : Str :=
  s.toList.map (fun c => ⟨c.toNat % 256, Nat.mod_lt _ (by decide)⟩)

/-- The value of `strings.ToLower` on one ASCII byte: `A..Z` move to `a..z`. -/
def asciiLowerByte (b : Fin 256) : Fin 256 :=
  if 65 ≤ b.val ∧ b.val ≤ 90 then ⟨(b.val + 32) % 256, Nat.mod_lt _ (by decide)⟩ else b

/-- The value of `strings.ToLower` on ASCII-only text. -/
def asciiToLower (s : Str) : Str := s.map asciiLowerByte

/-- Go `strings.HasPrefix(s, prefix)`: `len(s) >= len(prefix) && s[:len(prefix)] == prefix`. -/
def hasPrefix (s pre : Str) : Bool :=
  decide (s.length ≥ pre.length) && decide (s.take pre.length = pre)

/-- Go `strings.Contains(s, substr)`: some position of `s` starts an occurrence of `substr`. -/
def contains : Str → Str → Bool
  | [], substr => hasPrefix [] substr
  | c :: s, substr => hasPrefix (c :: s) substr || contains s substr

/-- Go `max(a, b int) int` of `search.go`. -/
def max (a b : Int) : Int := if a > b then a else b

/-- The loop of `calculateFuzzyScore`.  `text` is `text[textIdx:]`, `pattern` is
`pattern[patternIdx:]`; the loop runs while both are non-empty.  It returns the values of
`patternIdx >= patternLen`, `matches` (here `nmatches`) and `score` at loop exit. -/
def fuzzyLoop : (text pattern : Str) → (nmatches consecutiveMatches : Int) → (score : ℚ) →
    Bool × Int × ℚ
  | _, [], nmatches, _, score => (true, nmatches, score)
  | [], _ :: _, nmatches, _, score => (false, nmatches, score)
  | t :: text, p :: pattern, nmatches, consecutiveMatches, score =>
    if t = p then
      fuzzyLoop text pattern (nmatches + 1) (consecutiveMatches + 1)
        (score + ((consecutiveMatches + 1 : Int) : ℚ) * 2)
    else
      fuzzyLoop text (p :: pattern) nmatches 0 score

/-- Go `calculateFuzzyScore(text, pattern string) float64`. -/
def calculateFuzzyScore (text pattern : Str) : ℚ :=
  if pattern.length = 0 then 0
  else
    let textLen : Int := text.length
    let patternLen : Int := pattern.length
    match fuzzyLoop text pattern 0 0 0 with
    | (true, nmatches, score) =>
      let lengthBonus : ℚ := ((max 0 (50 - textLen) : Int) : ℚ)
      let matchRatio : ℚ := (nmatches : ℚ) / (patternLen : ℚ)
      score + (lengthBonus + matchRatio * 100)
    | (false, _, _) => 0

/-- Go `calculateScore(fileName, relativePath, query string) float64`. -/
def calculateScore (toLower : Str → Str) (fileName relativePath query : Str) : ℚ :=
  if query = [] then 1
  else
    let queryLower := toLower query
    let fileNameLower := toLower fileName
    let relativePathLower := toLower relativePath
    if fileNameLower = queryLower then 1000
    else if relativePathLower = queryLower then 900
    else if hasPrefix fileNameLower queryLower then 800
    else if hasPrefix relativePathLower queryLower then 700
    else if contains fileNameLower queryLower then 600
    else if contains relativePathLower queryLower then 500
    else
      let fuzzyScoreName := calculateFuzzyScore fileNameLower queryLower
      let fuzzyScorePath := calculateFuzzyScore relativePathLower queryLower
      if fuzzyScoreName > 0 then 300 + fuzzyScoreName
      else if fuzzyScorePath > 0 then 200 + fuzzyScorePath
      else 0

/-! ## Walker -/

/-- Go `FileResult` of `types.go`. -/
structure FileResult where
  Path : Str
  RelativePath : Str
  Name : Str
  Score : ℚ
deriving DecidableEq

/-- Go `SearchResponse` of `types.go`. -/
structure SearchResponse where
  Files : List FileResult
  Count : Int
  Partial : Bool
  Complete : Bool
  Error : String
deriving DecidableEq

/-- A directory tree as `filepath.Walk` meets it.  `file` is any entry whose `Lstat` succeeds
and is not a directory; `dir` lists its children in the order `readDirNames` returns them
(sorted), `readErr` says that reading the directory fails; `lstatErr` is an entry whose
`Lstat` fails. -/
inductive Entry where
  | file (name : Str)
  | dir (name : Str) (readErr : Bool) (children : List Entry)
  | lstatErr (name : Str)

/-- Base name of an entry, `info.Name()`. -/
def Entry.name : Entry → Str
  | .file name => name
  | .dir name _ _ => name
  | .lstatErr name => name

/-- Value of `info.IsDir()`. -/
def Entry.isDir : Entry → Bool
  | .dir _ _ _ => true
  | _ => false

/-- What the program takes from outside: standard-library functions it calls, the clock and the
output stream.  `sortSlice` is `sort.Slice` with the comparison `Score[i] > Score[j]`; what
the library promises of it is `SortsDescending` (stability is not promised).
`elapsed k` is the `k`-th reading of `time.Since(startTime)` in nanoseconds; `sink k` is the
result of the `k`-th call of `outputJSON` (`none` for success, else the error text). -/
structure Env where
  toLower : Str → Str
  join : Str → Str → Str
  rel : Str → Str → Option Str
  elapsed : Nat → Int
  sink : Nat → Option String
  sortSlice : List FileResult → List FileResult

/-- The contract of `sort.Slice` for the comparison `Score[i] > Score[j]`: the result holds the
same elements and no element is followed by one of strictly greater score. -/
def SortsDescending (sortSlice : List FileResult → List FileResult) : Prop :=
  ∀ l, (sortSlice l).Perm l ∧ (sortSlice l).Pairwise (fun a b => a.Score ≥ b.Score)

/-- The backward scan of `filepath.Ext`: the first argument holds the bytes not yet looked at,
last byte first, `acc` the bytes already passed.  The scan stops at a separator `/` with the
empty string and at a dot with the suffix that starts there. -/
def filepathExtScan : Str → Str → Str
  | [], _ => []
  | c :: rest, acc =>
    if c = 47 then []
    else if c = 46 then c :: acc
    else filepathExtScan rest (c :: acc)

/-- Go `filepath.Ext(path)` with `/` as separator: the suffix of the last path element that
starts at its last dot, empty when there is none. -/
def filepathExt (path : Str) : Str := filepathExtScan path.reverse []

/-- The built-in skip directories of `scanDirectory`. -/
def defaultSkipDirs : List Str :=
  [ascii ".git", ascii "node_modules", ascii ".svn", ascii ".hg", ascii "vendor",
   ascii "target", ascii "build", ascii "dist", ascii ".next", ascii ".nuxt",
   ascii "coverage", ascii ".nyc_output", ascii "__pycache__", ascii ".pytest_cache",
   ascii ".vscode", ascii ".idea"]

/-- The extensions `scanDirectory` leaves out. -/
def skipExtensions : List Str :=
  [ascii ".exe", ascii ".dll", ascii ".so", ascii ".dylib",
   ascii ".png", ascii ".jpg", ascii ".jpeg", ascii ".gif",
   ascii ".pdf", ascii ".zip", ascii ".tar", ascii ".gz",
   ascii ".mp4", ascii ".avi", ascii ".mov", ascii ".mp3",
   ascii ".obj", ascii ".bin", ascii ".out", ascii ".a"]

/-- Wrap-around of a 64-bit signed integer. -/
def wrapInt64 (x : Int) : Int := (x + 2 ^ 63) % 2 ^ 64 - 2 ^ 63

/-- The values the walk callback closes over and never changes. -/
structure Config where
  projectPath : Str
  query : Str
  skipSet : List Str
  maxDuration : Int
  maxResults : Int
  chunkSize : Int

/-- The variables the walk callback updates, and the responses handed to `outputJSON` so far
(oldest first). -/
structure ScanState where
  allFiles : List FileResult
  currentChunk : List FileResult
  totalCount : Int
  clockReads : Nat
  out : List SearchResponse

/-- What the walk callback returns besides `nil`. -/
inductive WalkErr where
  | skipDir
  | error (msg : String)
deriving DecidableEq

/-- Go `outputJSON(v)`: hands `v` to the output stream and returns the stream's verdict. -/
def outputJSON (env : Env) (st : ScanState) (v : SearchResponse) : ScanState × Option String :=
  ({ st with out := st.out ++ [v] }, env.sink st.out.length)

/-- The function literal `scanDirectory` passes to `filepath.Walk`; `err` says that Walk
reports an error for the entry. -/
def walkFn (env : Env) (cfg : Config) (path name : Str) (isDir err : Bool) (st : ScanState) :
    ScanState × Option WalkErr :=
  if err then (st, none)
  else
    let sinceStart := env.elapsed st.clockReads
    let st := { st with clockReads := st.clockReads + 1 }
    if sinceStart > cfg.maxDuration then
      (st, some (.error "search timeout exceeded"))
    else if st.totalCount ≥ cfg.maxResults then
      (st, some (.error "max results reached"))
    else if isDir then
      if name ∈ cfg.skipSet then (st, some .skipDir) else (st, none)
    else if hasPrefix name (ascii ".") then (st, none)
    else
      let ext := env.toLower (filepathExt path)
      if ext ∈ skipExtensions then (st, none)
      else
        let relPath := match env.rel cfg.projectPath path with
          | some r => r
          | none => path
        let score := calculateScore env.toLower name relPath cfg.query
        if cfg.query ≠ [] ∧ score = 0 then (st, none)
        else
          let fileResult : FileResult :=
            { Path := path, RelativePath := relPath, Name := name, Score := score }
          let st := { st with currentChunk := st.currentChunk ++ [fileResult],
                              totalCount := st.totalCount + 1 }
          if (st.currentChunk.length : Int) ≥ cfg.chunkSize then
            let allFiles := env.sortSlice (st.allFiles ++ st.currentChunk)
            let st := { st with allFiles := allFiles }
            let response : SearchResponse :=
              { Files := allFiles, Count := allFiles.length, Partial := true,
                Complete := false, Error := "" }
            match outputJSON env st response with
            | (st, some e) => (st, some (.error e))
            | (st, none) => ({ st with currentChunk := [] }, none)
          else (st, none)

mutual
/-- Go `filepath.walk(path, info, walkFn)`.  Go reaches it only for entries whose `Lstat`
succeeded; the `lstatErr` case is the call `fn(root, nil, err)` that `filepath.Walk` makes
for such a root. -/
def walk (env : Env) (cfg : Config) (path : Str) : Entry → ScanState → ScanState × Option WalkErr
  | .file name, st => walkFn env cfg path name false false st
  | .lstatErr name, st => walkFn env cfg path name false true st
  | .dir name readErr children, st =>
    let r1 := walkFn env cfg path name true readErr st
    if readErr = true ∨ r1.2 ≠ none then r1
    else walkNames env cfg path children r1.1
termination_by structural e => e
/-- The loop of `filepath.walk` over the names of a directory. -/
def walkNames (env : Env) (cfg : Config) (path : Str) :
    List Entry → ScanState → ScanState × Option WalkErr
  | [], st => (st, none)
  | .lstatErr name :: rest, st =>
    let r := walkFn env cfg (env.join path name) name false true st
    if r.2 ≠ none ∧ r.2 ≠ some .skipDir then r
    else walkNames env cfg path rest r.1
  | e :: rest, st =>
    let r := walk env cfg (env.join path e.name) e st
    if r.2 ≠ none ∧ (e.isDir = false ∨ r.2 ≠ some .skipDir) then r
    else walkNames env cfg path rest r.1
termination_by structural es => es
end

/-- Go `filepath.Walk(root, fn)`: `SkipDir` from the root ends the walk without error. -/
def filepathWalk (env : Env) (cfg : Config) (root : Entry) (st : ScanState) :
    ScanState × Option String :=
  match walk env cfg cfg.projectPath root st with
  | (st1, some (.error msg)) => (st1, some msg)
  | (st1, some .skipDir) => (st1, none)
  | (st1, none) => (st1, none)

/-- What one call of `scanDirectory` leaves behind: the responses handed to `outputJSON`, in
order, and the returned error (`none` for `nil`). -/
structure Outcome where
  out : List SearchResponse
  err : Option String
deriving DecidableEq

/-- The first part of `scanDirectory` (lines 13-55): the defaults for zero limits, the skip set
(built-in names and `skipDirs`) and the time budget `time.Duration(maxTime) * time.Second`. -/
def scanConfig (projectPath query : Str) (skipDirs : List Str)
    (maxTime maxResults chunkSize : Int) : Config :=
  let maxTime := if maxTime = 0 then 10 else maxTime
  let maxResults := if maxResults = 0 then 1000 else maxResults
  let chunkSize := if chunkSize = 0 then 200 else chunkSize
  { projectPath := projectPath, query := query, skipSet := defaultSkipDirs ++ skipDirs,
    maxDuration := wrapInt64 (maxTime * 1000000000), maxResults := maxResults,
    chunkSize := chunkSize }

/-- The variables of `scanDirectory` before the walk. -/
def initState : ScanState :=
  { allFiles := [], currentChunk := [], totalCount := 0, clockReads := 0, out := [] }

/-- The last part of `scanDirectory` (lines 151-173): the rest of the chunk is merged, the
whole list sorted and the final response sent, with the error of the walk if there is one. -/
def finishScan (env : Env) (st : ScanState) (err : Option String) : Outcome :=
  let allFiles :=
    if st.currentChunk.length > 0 then st.allFiles ++ st.currentChunk else st.allFiles
  let allFiles := env.sortSlice allFiles
  let finalResponse : SearchResponse :=
    { Files := allFiles, Count := allFiles.length, Partial := false, Complete := true,
      Error := match err with
        | some msg => msg
        | none => "" }
  let r := outputJSON env { st with allFiles := allFiles } finalResponse
  { out := r.1.out, err := r.2 }

/-- Size in bytes of one `FileResult` on a 64-bit platform: three string headers of 16 bytes
(`Path`, `Name`, `RelativePath`) and one `float64` (`Score`). -/
def fileResultSize : Int := 56

/-- Go runtime `maxAlloc` on a 64-bit platform: the largest allocation `makeslice` accepts. -/
def maxAlloc : Int := 2 ^ 48

/-- Go `make([]FileResult, 0, cap)` (runtime `makeslice`) panics: the capacity is negative, or
`cap` elements take more than `maxAlloc` bytes, that is `cap ≥ 5026338869834`. -/
def makePanics (cap : Int) : Prop := cap < 0 ∨ maxAlloc < cap * fileResultSize

instance (cap : Int) : Decidable (makePanics cap) := by
  unfold makePanics; exact inferInstance

/-- The largest capacity `make([]FileResult, 0, cap)` accepts on a 64-bit platform: the integer
part of `maxAlloc / fileResultSize`. -/
def maxCap : Int := 5026338869833

/-- Go `scanDirectory(projectPath, query, skipDirs, maxTime, maxResults, chunkSize)` run on the
tree `root` found at `projectPath`.  `none` is a run-time panic: `make([]FileResult, 0,
chunkSize)` at its start panics when `chunkSize` is negative or above the allocation limit
(64-bit platform).  (Running out of memory below that limit is outside the model.) -/
def scanDirectory (env : Env) (root : Entry) (projectPath query : Str) (skipDirs : List Str)
    (maxTime maxResults chunkSize : Int) : Option Outcome :=
  let cfg := scanConfig projectPath query skipDirs maxTime maxResults chunkSize
  if makePanics cfg.chunkSize then none
  else
    let w := filepathWalk env cfg root initState
    some (finishScan env w.1 w.2)

/-- Go `handleScan(request)`: the responses written for one request.  When `scanDirectory`
returns an error one more response reports it.  `none` is the panic of `scanDirectory`. -/
def handleScan (env : Env) (root : Entry) (projectPath query : Str) (skipDirs : List Str)
    (maxTime maxResults chunkSize : Int) : Option (List SearchResponse) :=
  match scanDirectory env root projectPath query skipDirs maxTime maxResults chunkSize with
  | none => none
  | some { out := out, err := none } => some out
  | some { out := out, err := some msg } =>
    some (out ++ [{ Files := [], Count := 0, Partial := false, Complete := true, Error := msg }])

/-! ## A concrete environment -/

/-- Insertion of one result into a list in descending score order, before the first entry
with a strictly smaller score. -/
def insertDesc (x : FileResult) : List FileResult → List FileResult
  | [] => [x]
  | y :: ys => if x.Score ≥ y.Score then x :: y :: ys else y :: insertDesc x ys

/-- An insertion sort into descending score order. -/
def sortDesc : List FileResult → List FileResult
  | [] => []
  | x :: xs => insertDesc x (sortDesc xs)

/-- Value of `filepath.Join(dir, name)` for a clean `dir` and a plain name. -/
def plainJoin (dir name : Str) : Str := dir ++ ascii "/" ++ name

/-- Value of `filepath.Rel(base, path)` for clean paths with `path` below `base`. -/
def plainRel (base path : Str) : Option Str :=
  if path = base then some (ascii ".")
  else if hasPrefix path (base ++ ascii "/") then some (path.drop (base.length + 1))
  else none

/-- An environment for concrete runs: ASCII lower-casing, plain paths, an insertion sort, a
clock given by `elapsed` and an output stream given by `sink`. -/
def plainEnv (elapsed : Nat → Int) (sink : Nat → Option String) : Env :=
  { toLower := asciiToLower, join := plainJoin, rel := plainRel, elapsed := elapsed,
    sink := sink, sortSlice := sortDesc }

/-- The tree of the scenario of the specification: `foo.txt`, `bar/foo2.txt`,
`.git/secret.txt`. -/
def demoTree : Entry :=
  .dir (ascii "proj") false
    [.dir (ascii ".git") false [.file (ascii "secret.txt")],
     .dir (ascii "bar") false [.file (ascii "foo2.txt")],
     .file (ascii "foo.txt")]

/-- A run for concrete evaluations: the clock stands still and every write succeeds. -/
def demoEnv : Env := plainEnv (fun _ => 0) (fun _ => none)

/-- The result for `bar/foo2.txt` under the query `foo.`: a fuzzy match on the name. -/
def demoFoo2 : FileResult :=
  { Path := ascii "/proj/bar/foo2.txt", RelativePath := ascii "bar/foo2.txt",
    Name := ascii "foo2.txt", Score := 456 }

/-- The result for `foo.txt` under the query `foo.`: the name starts with the query. -/
def demoFoo : FileResult :=
  { Path := ascii "/proj/foo.txt", RelativePath := ascii "foo.txt",
    Name := ascii "foo.txt", Score := 800 }

/-- The first response of the demo run with chunk size 1. -/
def demoFirst : SearchResponse :=
  { Files := [demoFoo2], Count := 1, Partial := true, Complete := false, Error := "" }

/-- The second response of the demo run with chunk size 1. -/
def demoSecond : SearchResponse :=
  { Files := [demoFoo, demoFoo2], Count := 2, Partial := true, Complete := false, Error := "" }

/-- The final response of the demo run. -/
def demoFinal : SearchResponse :=
  { Files := [demoFoo, demoFoo2], Count := 2, Partial := false, Complete := true, Error := "" }

/-- What `scanDirectory` leaves for `demoTree` at `/proj`, query `foo.`, chunk size 1. -/
def demoOutcome : Outcome :=
  { out := [demoFirst, demoSecond, demoFinal], err := none }

/-- An output stream whose first write fails and whose later writes succeed. -/
def failFirstSink (k : Nat) : Option String :=
  if k = 0 then some "write failed" else none

/-- A project directory holding the single file `a.txt`. -/
def oneFileTree : Entry := .dir (ascii "proj") false [.file (ascii "a.txt")]

/-- The result for `a.txt` under the empty query. -/
def oneFile : FileResult :=
  { Path := ascii "/proj/a.txt", RelativePath := ascii "a.txt", Name := ascii "a.txt",
    Score := 1 }

/-! ## Reference definitions used by the statements -/

/-- The score the loop of `calculateFuzzyScore` adds from a state whose run counter
`consecutiveMatches` is `c`, as a natural number. -/
def runScore : Str → Str → Nat → Nat
  | _, [], _ => 0
  | [], _ :: _, _ => 0
  | t :: text, p :: pattern, c =>
    if t = p then 2 * (c + 1) + runScore text pattern (c + 1)
    else runScore text (p :: pattern) 0

/-- The tier table of the specification, on lower-cased operands: each rule with its score, in
priority order.  "Starts with" is list prefix, "contains" is contiguous sublist. -/
def tierRules (name path query : Str) : List (Bool × ℚ) :=
  [(decide (name = query), 1000),
   (decide (path = query), 900),
   (decide (query <+: name), 800),
   (decide (query <+: path), 700),
   (decide (query <:+: name), 600),
   (decide (query <:+: path), 500),
   (decide (calculateFuzzyScore name query > 0), 300 + calculateFuzzyScore name query),
   (decide (calculateFuzzyScore path query > 0), 200 + calculateFuzzyScore path query)]

/-- The score of the specification: `1.0` for the empty query, else the score of the first rule
of the tier table that applies, else `0`. -/
def tieredScore (toLower : Str → Str) (fileName relativePath query : Str) : ℚ :=
  if query = [] then 1
  else
    match (tierRules (toLower fileName) (toLower relativePath) (toLower query)).find?
        (fun rule => rule.1) with
    | some rule => rule.2
    | none => 0

mutual
/-- Every file of the tree `e` found at `path`, as its path and a flag: the flag says that the
file lies below a directory, other than the root of the tree, whose base name is in `skip`
(`under` is the flag inherited from above). -/
def filesBelow (join : Str → Str → Str) (skip : List Str) (path : Str) (under : Bool) :
    Entry → List (Str × Bool)
  | .file _ => [(path, under)]
  | .lstatErr _ => []
  | .dir _ _ children => filesBelowList join skip path under children
termination_by structural e => e
/-- The files of the children of the directory at `path`. -/
def filesBelowList (join : Str → Str → Str) (skip : List Str) (path : Str) (under : Bool) :
    List Entry → List (Str × Bool)
  | [] => []
  | e :: rest =>
    filesBelow join skip (join path e.name) (under || (e.isDir && decide (e.name ∈ skip))) e
      ++ filesBelowList join skip path under rest
termination_by structural es => es
end

/-! ## Reference definitions for the walk -/

/-- The `FileResult` the callback builds for the file `name` at `path` (lines 99-118). -/
def fileResultOf (env : Env) (cfg : Config) (path name : Str) : FileResult :=
  { Path := path,
    RelativePath := match env.rel cfg.projectPath path with
      | some r => r
      | none => path,
    Name := name,
    Score := calculateScore env.toLower name
      (match env.rel cfg.projectPath path with
        | some r => r
        | none => path) cfg.query }

/-- The tests of the callback on a file (lines 80-111): the name is not hidden, the lower-cased
extension is not left out, and the score is not `0` for a non-empty query. -/
def eligibleFile (env : Env) (cfg : Config) (path name : Str) : Bool :=
  !(hasPrefix name (ascii ".")) &&
  !(decide (env.toLower (filepathExt path) ∈ skipExtensions)) &&
  !(decide (cfg.query ≠ [] ∧ (fileResultOf env cfg path name).Score = 0))

mutual
/-- The files of the tree `e` at `path` that the walk accepts when nothing stops it, in the
order in which it reaches them: the files that pass `eligibleFile`, outside directories that
are unreadable or named in the skip set (the root included). -/
def eligible (env : Env) (cfg : Config) (path : Str) : Entry → List FileResult
  | .file name => if eligibleFile env cfg path name then [fileResultOf env cfg path name] else []
  | .lstatErr _ => []
  | .dir name readErr children =>
    if readErr = true ∨ name ∈ cfg.skipSet then []
    else eligibleList env cfg path children
termination_by structural e => e
/-- The files accepted among the children of the directory at `path`. -/
def eligibleList (env : Env) (cfg : Config) (path : Str) : List Entry → List FileResult
  | [] => []
  | e :: rest => eligible env cfg (env.join path e.name) e ++ eligibleList env cfg path rest
termination_by structural es => es
end

/-- A project directory named `build` holding the single file `a.txt`. -/
def buildTree : Entry := .dir (ascii "build") false [.file (ascii "a.txt")]

/-- A project directory holding only `a.bin` and `a.txt`. -/
def binTxtTree : Entry := .dir (ascii "proj") false [.file (ascii "a.bin"), .file (ascii "a.txt")]

/-- The only response for `binTxtTree` under the empty query: `a.txt` with score `1.0`. -/
def binTxtFinal : SearchResponse :=
  { Files := [oneFile], Count := 1, Partial := false, Complete := true, Error := "" }

/-- A part of the walk that would accept the files `L` when nothing stops it, started in a state
that tracks the accepted files `A` (relation `T`), has ended with `res`: it accepted the first
`k` files of `L`, all of them if it ended without error, and if it ended with an error then
`Stop` says why. -/
def Advances (T : ScanState → List FileResult → Prop) (Stop : ScanState → String → Prop)
    (A L : List FileResult) (res : ScanState × Option WalkErr) : Prop :=
  ∃ k, k ≤ L.length ∧ T res.1 (A ++ L.take k) ∧
    ((res.2 = none ∨ res.2 = some .skipDir) → k = L.length) ∧
    ∀ msg, res.2 = some (.error msg) → Stop res.1 msg

/-- An environment with plain paths and ASCII lower-casing whose sort, clock and output stream
are left open. -/
def scenarioEnv (sortSlice : List FileResult → List FileResult) (elapsed : Nat → Int)
    (sink : Nat → Option String) : Env :=
  { toLower := asciiToLower, join := plainJoin, rel := plainRel, elapsed := elapsed,
    sink := sink, sortSlice := sortSlice }

/-- The result for `foo.txt` under the query `foo`: the name starts with the query. -/
def fooHit : FileResult :=
  { Path := ascii "/proj/foo.txt", RelativePath := ascii "foo.txt",
    Name := ascii "foo.txt", Score := 800 }

/-- The result for `bar/foo2.txt` under the query `foo`: the name `foo2.txt` starts with the
query as well. -/
def foo2Hit : FileResult :=
  { Path := ascii "/proj/bar/foo2.txt", RelativePath := ascii "bar/foo2.txt",
    Name := ascii "foo2.txt", Score := 800 }

/-- The state `st` holds the accepted files `A`: `totalCount` is their number, which the result
cap bounds; the two lists together are related to `A` by `J` (for instance: a permutation of
it); and every response sent so far is related by `J` to a prefix of `A`. -/
def Tracks (cfg : Config) (J : List FileResult → List FileResult → Prop) (st : ScanState)
    (A : List FileResult) : Prop :=
  st.totalCount = (A.length : Int) ∧ (A.length : Int) ≤ Max.max cfg.maxResults 0 ∧
    J (st.allFiles ++ st.currentChunk) A ∧
    ∀ r ∈ st.out, ∃ j, j ≤ A.length ∧ J r.Files (A.take j)

/-- Why the callback stops the walk when every write succeeds: the result cap is reached or the
time budget is exceeded. -/
def StopReason (env : Env) (cfg : Config) (st : ScanState) (msg : String) : Prop :=
  (msg = "max results reached" ∧ st.totalCount ≥ cfg.maxResults) ∨
    (msg = "search timeout exceeded" ∧ ∃ j, env.elapsed j > cfg.maxDuration)

/-- A project directory holding the two files `a.txt` and `b.txt`. -/
def twoFileTree : Entry := .dir (ascii "proj") false [.file (ascii "a.txt"), .file (ascii "b.txt")]

/-- The result for `b.txt` under the empty query. -/
def otherFile : FileResult :=
  { Path := ascii "/proj/b.txt", RelativePath := ascii "b.txt", Name := ascii "b.txt",
    Score := 1 }

/-! ## Go's `sort.Slice`

The library routine behind `sort.Slice(allFiles, less)` as of Go 1.19 (`sort/slice.go`,
`sort/zsortfunc.go`): pattern-defeating quicksort over the pair `Less`, `Swap`.  The slice is a
list; every loop is a recursion on the number of rounds that are left to it. -/

/-- The comparator of `scanDirectory` (search.go:128-130 and 157-159):
`allFiles[i].Score > allFiles[j].Score`.  The sort never passes an index outside the slice. -/
def Less (data : List FileResult) (i j : Nat) : Bool :=
  match data[i]?, data[j]? with
  | some x, some y => decide (x.Score > y.Score)
  | _, _ => false

/-- Go `data.Swap(i, j)`: the elements at `i` and `j` change places. -/
def Swap (data : List FileResult) (i j : Nat) : List FileResult :=
  match data[i]?, data[j]? with
  | some x, some y => (data.set i y).set j x
  | _, _ => data

/-- Inner loop of `insertionSort_func`: `for j := i; j > a && data.Less(j, j-1); j--`. -/
def insertionSortInner (a : Nat) : Nat → List FileResult → List FileResult
  | 0, data => data
  | j + 1, data =>
    if j + 1 > a ∧ Less data (j + 1) j = true then
      insertionSortInner a j (Swap data (j + 1) j)
    else data

/-- Outer loop of `insertionSort_func`: `for i := a + 1; i < b; i++`, with `n` rounds left. -/
def insertionSortOuter (a : Nat) : Nat → Nat → List FileResult → List FileResult
  | 0, _, data => data
  | n + 1, i, data => insertionSortOuter a n (i + 1) (insertionSortInner a i data)

/-- Go `insertionSort_func(data, a, b)`: sorts `data[a:b]` using insertion sort. -/
def insertionSort_func (data : List FileResult) (a b : Nat) : List FileResult :=
  insertionSortOuter a (b - (a + 1)) (a + 1) data

/-- The loop of `siftDown_func`; `root` grows in every round and stays below `hi`. -/
def siftDownLoop (hi first : Nat) : Nat → Nat → List FileResult → List FileResult
  | 0, _, data => data
  | n + 1, root, data =>
    let child := 2 * root + 1
    if child ≥ hi then data
    else
      let child :=
        if child + 1 < hi ∧ Less data (first + child) (first + child + 1) = true then child + 1
        else child
      if Less data (first + root) (first + child) = false then data
      else siftDownLoop hi first n child (Swap data (first + root) (first + child))

/-- Go `siftDown_func(data, lo, hi, first)`: the heap property on `data[lo:hi]`. -/
def siftDown_func (data : List FileResult) (lo hi first : Nat) : List FileResult :=
  siftDownLoop hi first hi lo data

/-- First loop of `heapSort_func`: `for i := (hi - 1) / 2; i >= 0; i--`, with `i + 1` rounds
left. -/
def heapSortBuild (hi first : Nat) : Nat → List FileResult → List FileResult
  | 0, data => data
  | i + 1, data => heapSortBuild hi first i (siftDown_func data i hi first)

/-- Second loop of `heapSort_func`: `for i := hi - 1; i >= 0; i--`, with `i + 1` rounds left. -/
def heapSortPop (first : Nat) : Nat → List FileResult → List FileResult
  | 0, data => data
  | i + 1, data => heapSortPop first i (siftDown_func (Swap data first (first + i)) 0 i first)

/-- Go `heapSort_func(data, a, b)`. -/
def heapSort_func (data : List FileResult) (a b : Nat) : List FileResult :=
  let first := a
  let hi := b - a
  heapSortPop first hi (heapSortBuild hi first ((hi - 1) / 2 + 1) data)

/-- Go `sortedHint`. -/
inductive sortedHint where
  | unknownHint
  | increasingHint
  | decreasingHint
deriving DecidableEq

/-- Go `order2_func(data, a, b, swaps)`: the two indices in order, and the new count. -/
def order2_func (data : List FileResult) (a b swaps : Nat) : Nat × Nat × Nat :=
  if Less data b a = true then (b, a, swaps + 1) else (a, b, swaps)

/-- Go `median_func(data, a, b, c, swaps)`: the index of the median, and the new count. -/
def median_func (data : List FileResult) (a b c swaps : Nat) : Nat × Nat :=
  let r1 := order2_func data a b swaps
  let r2 := order2_func data r1.2.1 c r1.2.2
  let r3 := order2_func data r1.1 r2.1 r2.2.2
  (r3.2.1, r3.2.2)

/-- Go `medianAdjacent_func(data, a, swaps)`. -/
def medianAdjacent_func (data : List FileResult) (a swaps : Nat) : Nat × Nat :=
  median_func data (a - 1) a (a + 1) swaps

/-- Go `choosePivot_func(data, a, b)`: the pivot and the hint. -/
def choosePivot_func (data : List FileResult) (a b : Nat) : Nat × sortedHint :=
  let l := b - a
  let i := a + l / 4 * 1
  let j := a + l / 4 * 2
  let k := a + l / 4 * 3
  let r : Nat × Nat :=
    if l ≥ 8 then
      if l ≥ 50 then
        let ri := medianAdjacent_func data i 0
        let rj := medianAdjacent_func data j ri.2
        let rk := medianAdjacent_func data k rj.2
        median_func data ri.1 rj.1 rk.1 rk.2
      else median_func data i j k 0
    else (j, 0)
  if r.2 = 0 then (r.1, .increasingHint)
  else if r.2 = 12 then (r.1, .decreasingHint)
  else (r.1, .unknownHint)

/-- The loop of `reverseRange_func`: `for i < j`. -/
def reverseRangeLoop : Nat → Nat → Nat → List FileResult → List FileResult
  | 0, _, _, data => data
  | n + 1, i, j, data =>
    if i < j then reverseRangeLoop n (i + 1) (j - 1) (Swap data i j) else data

/-- Go `reverseRange_func(data, a, b)`. -/
def reverseRange_func (data : List FileResult) (a b : Nat) : List FileResult :=
  reverseRangeLoop (b - a) a (b - 1) data

/-- In `partialInsertionSort_func`: `for i < b && !data.Less(i, i-1) { i++ }`, the value of `i`
after the loop. -/
def sortedRun (data : List FileResult) (b : Nat) : Nat → Nat → Nat
  | 0, i => i
  | n + 1, i => if i < b ∧ Less data i (i - 1) = false then sortedRun data b n (i + 1) else i

/-- In `partialInsertionSort_func`: `for j := i - 1; j >= 1; j--`, shifting the smaller one to
the left. -/
def shiftLeft : Nat → List FileResult → List FileResult
  | 0, data => data
  | j + 1, data => if Less data (j + 1) j = false then data else shiftLeft j (Swap data (j + 1) j)

/-- In `partialInsertionSort_func`: `for j := i + 1; j < b; j++`, shifting the greater one to
the right. -/
def shiftRight (b : Nat) : Nat → Nat → List FileResult → List FileResult
  | 0, _, data => data
  | n + 1, j, data =>
    if j < b then
      if Less data j (j - 1) = false then data else shiftRight b n (j + 1) (Swap data j (j - 1))
    else data

/-- The loop of `partialInsertionSort_func` with `steps` rounds left of `maxSteps = 5`. -/
def partialInsertionSortLoop (a b : Nat) : Nat → Nat → List FileResult → List FileResult × Bool
  | 0, _, data => (data, false)
  | steps + 1, i, data =>
    let i := sortedRun data b (b - i) i
    if i = b then (data, true)
    else if b - a < 50 then (data, false)
    else
      let data := Swap data i (i - 1)
      let data := if i - a ≥ 2 then shiftLeft (i - 1) data else data
      let data := if b - i ≥ 2 then shiftRight b (b - (i + 1)) (i + 1) data else data
      partialInsertionSortLoop a b steps i data

/-- Go `partialInsertionSort_func(data, a, b)`: the slice, and whether it is sorted at the
end. -/
def partialInsertionSort_func (data : List FileResult) (a b : Nat) : List FileResult × Bool :=
  partialInsertionSortLoop a b 5 (a + 1) data

/-- In `partition_func`: `for i <= j && data.Less(i, a) { i++ }`. -/
def partitionUp (data : List FileResult) (a j : Nat) : Nat → Nat → Nat
  | 0, i => i
  | n + 1, i => if i ≤ j ∧ Less data i a = true then partitionUp data a j n (i + 1) else i

/-- In `partition_func`: `for i <= j && !data.Less(j, a) { j-- }`. -/
def partitionDown (data : List FileResult) (a i : Nat) : Nat → Nat → Nat
  | 0, j => j
  | n + 1, j => if i ≤ j ∧ Less data j a = false then partitionDown data a i n (j - 1) else j

/-- The endless loop of `partition_func`; it is left with `i > j`. -/
def partitionLoop (a : Nat) : Nat → Nat → Nat → List FileResult → Nat × List FileResult
  | 0, _, j, data => (j, data)
  | n + 1, i, j, data =>
    let i := partitionUp data a j (j + 1 - i) i
    let j := partitionDown data a i (j + 1 - i) j
    if i > j then (j, data)
    else partitionLoop a n (i + 1) (j - 1) (Swap data i j)

/-- Go `partition_func(data, a, b, pivot)`: the new place of the pivot, whether the slice was
already partitioned, and the slice. -/
def partition_func (data : List FileResult) (a b pivot : Nat) :
    Nat × Bool × List FileResult :=
  let data := Swap data a pivot
  let i := a + 1
  let j := b - 1
  let i := partitionUp data a j (j + 1 - i) i
  let j := partitionDown data a i (j + 1 - i) j
  if i > j then (j, true, Swap data j a)
  else
    let r := partitionLoop a (b - a) (i + 1) (j - 1) (Swap data i j)
    (r.1, false, Swap r.2 r.1 a)

/-- In `partitionEqual_func`: `for i <= j && !data.Less(a, i) { i++ }`. -/
def partitionEqualUp (data : List FileResult) (a j : Nat) : Nat → Nat → Nat
  | 0, i => i
  | n + 1, i => if i ≤ j ∧ Less data a i = false then partitionEqualUp data a j n (i + 1) else i

/-- In `partitionEqual_func`: `for i <= j && data.Less(a, j) { j-- }`. -/
def partitionEqualDown (data : List FileResult) (a i : Nat) : Nat → Nat → Nat
  | 0, j => j
  | n + 1, j => if i ≤ j ∧ Less data a j = true then partitionEqualDown data a i n (j - 1) else j

/-- The endless loop of `partitionEqual_func`; it is left with `i > j` and yields `i`. -/
def partitionEqualLoop (a : Nat) : Nat → Nat → Nat → List FileResult → Nat × List FileResult
  | 0, i, _, data => (i, data)
  | n + 1, i, j, data =>
    let i := partitionEqualUp data a j (j + 1 - i) i
    let j := partitionEqualDown data a i (j + 1 - i) j
    if i > j then (i, data)
    else partitionEqualLoop a n (i + 1) (j - 1) (Swap data i j)

/-- Go `partitionEqual_func(data, a, b, pivot)`: the new start, and the slice. -/
def partitionEqual_func (data : List FileResult) (a b pivot : Nat) : Nat × List FileResult :=
  partitionEqualLoop a (b - a + 1) (a + 1) (b - 1) (Swap data a pivot)

/-- Go `bits.Len(x)`: the number of bits needed to write `x`. -/
def bitsLen (x : Nat) : Nat := if x = 0 then 0 else Nat.log2 x + 1

/-- Go `(*xorshift).Next` on a 64-bit word. -/
def xorshiftNext (r : Nat) : Nat :=
  let r := r ^^^ ((r <<< 13) % 2 ^ 64)
  let r := r ^^^ (r >>> 7)
  r ^^^ ((r <<< 17) % 2 ^ 64)

/-- The loop of `breakPatterns_func`: `for i := 0; i < 3; i++`, with `n` rounds left. -/
def breakPatternsLoop (a length modulus idx : Nat) :
    Nat → Nat → Nat → List FileResult → List FileResult
  | 0, _, _, data => data
  | n + 1, i, random, data =>
    let random := xorshiftNext random
    let other := random &&& (modulus - 1)
    let other := if other ≥ length then other - length else other
    breakPatternsLoop a length modulus idx n (i + 1) random (Swap data (idx - 1 + i) (a + other))

/-- Go `breakPatterns_func(data, a, b)`. -/
def breakPatterns_func (data : List FileResult) (a b : Nat) : List FileResult :=
  let length := b - a
  if length ≥ 8 then
    breakPatternsLoop a length (2 ^ bitsLen length) (a + length / 4 * 2 - 1) 3 0 length data
  else data

/-- Go `pdqsort_func(data, a, b, limit)`.  The two flags are the local variables `wasBalanced`
and `wasPartitioned`, both `true` at the call.  Every round of the loop and every call inside
it works on a shorter part of the slice, so `b - a + 1` rounds are enough for the first
argument. -/
def pdqsort_func : Nat → List FileResult → Nat → Nat → Nat → Bool → Bool → List FileResult
  | 0, data, _, _, _, _, _ => data
  | n + 1, data, a, b, limit, wasBalanced, wasPartitioned =>
    let length := b - a
    if length ≤ 12 then insertionSort_func data a b
    else if limit = 0 then heapSort_func data a b
    else
      let data := if wasBalanced = false then breakPatterns_func data a b else data
      let limit := if wasBalanced = false then limit - 1 else limit
      let ph := choosePivot_func data a b
      let data := if ph.2 = .decreasingHint then reverseRange_func data a b else data
      let pivot := if ph.2 = .decreasingHint then (b - 1) - (ph.1 - a) else ph.1
      let hint := if ph.2 = .decreasingHint then sortedHint.increasingHint else ph.2
      let ps :=
        if wasBalanced = true ∧ wasPartitioned = true ∧ hint = .increasingHint then
          partialInsertionSort_func data a b
        else (data, false)
      if ps.2 = true then ps.1
      else if a > 0 ∧ Less ps.1 (a - 1) pivot = false then
        let pe := partitionEqual_func ps.1 a b pivot
        pdqsort_func n pe.2 pe.1 b limit wasBalanced wasPartitioned
      else
        let pt := partition_func ps.1 a b pivot
        let mid := pt.1
        let leftLen := mid - a
        let rightLen := b - mid
        let balanceThreshold := length / 8
        if leftLen < rightLen then
          pdqsort_func n (pdqsort_func n pt.2.2 a mid limit true true) (mid + 1) b limit
            (decide (leftLen ≥ balanceThreshold)) pt.2.1
        else
          pdqsort_func n (pdqsort_func n pt.2.2 (mid + 1) b limit true true) a mid limit
            (decide (rightLen ≥ balanceThreshold)) pt.2.1

/-- Go `sort.Slice(allFiles, less)` with the comparator of `scanDirectory`:
`pdqsort_func(lessSwap, 0, length, bits.Len(uint(length)))`. -/
def sort_Slice (data : List FileResult) : List FileResult :=
  pdqsort_func (data.length + 1) data 0 data.length (bitsLen data.length) true true

/-- What the tie order of `scanDirectory` rests on in `sort.Slice`: it permutes the slice; it
is stable on slices of at most twelve elements, which it sorts by insertion; and it leaves a
slice alone whose elements all have the same score.  (`sort_Slice` has the three properties;
`sort.Slice` is not stable on longer slices.) -/
def SortsLikeSlice (sortSlice : List FileResult → List FileResult) : Prop :=
  (∀ l, (sortSlice l).Perm l) ∧
  (∀ l, l.length ≤ 12 → ∀ q : ℚ,
    (sortSlice l).filter (fun f => decide (f.Score = q))
      = l.filter (fun f => decide (f.Score = q))) ∧
  (∀ l, (∀ f ∈ l, ∀ g ∈ l, f.Score = g.Score) → sortSlice l = l)

/-- A run with Go's `sort.Slice`: the clock stands still and every write succeeds. -/
def sliceEnv : Env := scenarioEnv sort_Slice (fun _ => 0) (fun _ => none)

/-- A project directory holding the thirteen files `a.txt`, `b.txt`, ..., `l.txt`, `x.txt`. -/
def tieTree : Entry :=
  .dir (ascii "proj") false
    [.file (ascii "a.txt"), .file (ascii "b.txt"), .file (ascii "c.txt"), .file (ascii "d.txt"),
     .file (ascii "e.txt"), .file (ascii "f.txt"), .file (ascii "g.txt"), .file (ascii "h.txt"),
     .file (ascii "i.txt"), .file (ascii "j.txt"), .file (ascii "k.txt"), .file (ascii "l.txt"),
     .file (ascii "x.txt")]

/-- The result for the file `name` of `tieTree` with the score `score`. -/
def tieHit (name : String) (score : ℚ) : FileResult :=
  { Path := ascii "/proj/" ++ ascii name, RelativePath := ascii name, Name := ascii name,
    Score := score }

/-- The files of `tieTree` in the order of the walk, with the scores of the query `x`: `600`
for the twelve names that contain `x`, `800` for `x.txt`, which starts with it. -/
def tieWalk : List FileResult :=
  [tieHit "a.txt" 600, tieHit "b.txt" 600, tieHit "c.txt" 600, tieHit "d.txt" 600,
   tieHit "e.txt" 600, tieHit "f.txt" 600, tieHit "g.txt" 600, tieHit "h.txt" 600,
   tieHit "i.txt" 600, tieHit "j.txt" 600, tieHit "k.txt" 600, tieHit "l.txt" 600,
   tieHit "x.txt" 800]

/-- The files of `tieTree` as `sort.Slice` leaves them for the query `x`. -/
def tieSorted : List FileResult :=
  [tieHit "x.txt" 800, tieHit "g.txt" 600, tieHit "c.txt" 600, tieHit "d.txt" 600,
   tieHit "e.txt" 600, tieHit "f.txt" 600, tieHit "a.txt" 600, tieHit "h.txt" 600,
   tieHit "i.txt" 600, tieHit "j.txt" 600, tieHit "k.txt" 600, tieHit "l.txt" 600,
   tieHit "b.txt" 600]

/-- The files of `tieTree` in the order of the walk, with the score of the empty query. -/
def tieWalkOne : List FileResult :=
  [tieHit "a.txt" 1, tieHit "b.txt" 1, tieHit "c.txt" 1, tieHit "d.txt" 1, tieHit "e.txt" 1,
   tieHit "f.txt" 1, tieHit "g.txt" 1, tieHit "h.txt" 1, tieHit "i.txt" 1, tieHit "j.txt" 1,
   tieHit "k.txt" 1, tieHit "l.txt" 1, tieHit "x.txt" 1]

/-! ## Theorems -/

/-- The panic of `make` in terms of the capacity alone: negative, or above `maxCap`. -/
theorem makePanics_iff (cap : Int) : makePanics cap ↔ cap < 0 ∨ maxCap < cap := by
  unfold makePanics maxAlloc fileResultSize maxCap
  constructor
  · rintro (h | h)
    · exact Or.inl h
    · exact Or.inr (by omega)
  · rintro (h | h)
    · exact Or.inl h
    · exact Or.inr (by omega)

/-- A requested chunk size between `0` and `maxCap` lets `make` succeed (`0` is replaced by the
default `200`). -/
theorem scanConfig_not_makePanics (projectPath query : Str) (skipDirs : List Str)
    (maxTime maxResults chunkSize : Int) (h0 : 0 ≤ chunkSize) (h1 : chunkSize ≤ maxCap) :
    ¬ makePanics (scanConfig projectPath query skipDirs maxTime maxResults chunkSize).chunkSize := by
  rw [makePanics_iff]
  unfold scanConfig maxCap at *
  simp only []
  split <;> omega

theorem insertDesc_perm (x : FileResult) (l : List FileResult) :
    (insertDesc x l).Perm (x :: l) := by
  induction l with
  | nil => exact List.Perm.refl _
  | cons y ys ih =>
    unfold insertDesc
    split
    · exact List.Perm.refl _
    · exact (List.Perm.cons y ih).trans (List.Perm.swap x y ys)

theorem sortDesc_perm (l : List FileResult) : (sortDesc l).Perm l := by
  induction l with
  | nil => exact List.Perm.refl _
  | cons x xs ih => exact (insertDesc_perm x _).trans (List.Perm.cons x ih)

theorem insertDesc_sorted (x : FileResult) (l : List FileResult)
    (h : l.Pairwise (fun a b => a.Score ≥ b.Score)) :
    (insertDesc x l).Pairwise (fun a b => a.Score ≥ b.Score) := by
  induction l with
  | nil => simp [insertDesc]
  | cons y ys ih =>
    unfold insertDesc
    rw [List.pairwise_cons] at h
    split
    · rename_i hxy
      refine List.Pairwise.cons ?_ (List.Pairwise.cons h.1 h.2)
      intro b hb
      rcases List.mem_cons.1 hb with rfl | hb
      · exact hxy
      · exact le_trans (h.1 b hb) hxy
    · rename_i hxy
      refine List.Pairwise.cons ?_ (ih h.2)
      intro b hb
      rcases List.mem_cons.1 ((insertDesc_perm x ys).subset hb) with rfl | hb
      · exact le_of_lt (not_le.1 hxy)
      · exact h.1 b hb

theorem sortDesc_sorted (l : List FileResult) :
    (sortDesc l).Pairwise (fun a b => a.Score ≥ b.Score) := by
  induction l with
  | nil => simp [sortDesc]
  | cons x xs ih => exact insertDesc_sorted x _ ih


/-! ### Library functions -/

theorem hasPrefix_iff (s pre : Str) : hasPrefix s pre = true ↔ pre <+: s := by
  unfold hasPrefix
  rw [Bool.and_eq_true, decide_eq_true_iff, decide_eq_true_iff]
  constructor
  · rintro ⟨_, h⟩
    exact h ▸ List.take_prefix _ _
  · intro h
    exact ⟨h.length_le, List.prefix_iff_eq_take.1 h |>.symm⟩

theorem contains_iff (s sub : Str) : contains s sub = true ↔ sub <:+: s := by
  induction s with
  | nil =>
    rw [contains, hasPrefix_iff]
    constructor
    · intro h
      exact h.isInfix
    · intro h
      rw [List.eq_nil_of_infix_nil h]
  | cons c s ih =>
    rw [contains, Bool.or_eq_true, hasPrefix_iff, ih, List.infix_cons_iff]

theorem max_eq (a b : Int) : max a b = Max.max a b := by
  unfold max
  split <;> omega

/-! ### The loop of the fuzzy score -/

theorem fuzzyLoop_ok (text pattern : Str) (k c : Int) (s : ℚ) :
    (fuzzyLoop text pattern k c s).1 = true ↔ pattern.Sublist text := by
  induction text generalizing pattern k c s with
  | nil =>
    cases pattern with
    | nil => simp [fuzzyLoop]
    | cons p ps => simp [fuzzyLoop]
  | cons t ts ih =>
    cases pattern with
    | nil => simp [fuzzyLoop]
    | cons p ps =>
      unfold fuzzyLoop
      split
      · rename_i h
        subst h
        rw [ih, List.cons_sublist_cons]
      · rename_i h
        rw [ih]
        constructor
        · intro hs
          exact List.Sublist.cons _ hs
        · intro hs
          cases hs with
          | cons _ h' => exact h'
          | cons₂ _ h' => exact absurd rfl h

theorem fuzzyLoop_matches (text pattern : Str) (k c : Int) (s : ℚ)
    (h : (fuzzyLoop text pattern k c s).1 = true) :
    (fuzzyLoop text pattern k c s).2.1 = k + pattern.length := by
  induction text generalizing pattern k c s with
  | nil =>
    cases pattern with
    | nil => simp [fuzzyLoop]
    | cons p ps => simp [fuzzyLoop] at h
  | cons t ts ih =>
    cases pattern with
    | nil => simp [fuzzyLoop]
    | cons p ps =>
      unfold fuzzyLoop at h ⊢
      split
      · rename_i heq
        rw [if_pos heq] at h
        rw [ih _ _ _ _ h]
        simp only [List.length_cons]
        push_cast
        ring
      · rename_i hne
        rw [if_neg hne] at h
        rw [ih _ _ _ _ h]

theorem fuzzyLoop_score (text pattern : Str) (k : Int) (c : Nat) (s : ℚ) :
    (fuzzyLoop text pattern k (c : Int) s).2.2 = s + (runScore text pattern c : ℚ) := by
  induction text generalizing pattern k c s with
  | nil =>
    cases pattern with
    | nil => simp [fuzzyLoop, runScore]
    | cons p ps => simp [fuzzyLoop, runScore]
  | cons t ts ih =>
    cases pattern with
    | nil => simp [fuzzyLoop, runScore]
    | cons p ps =>
      unfold fuzzyLoop runScore
      split
      · have h := ih ps (k + 1) (c + 1) (s + (((c : Int) + 1 : Int) : ℚ) * 2)
        push_cast at h ⊢
        rw [h]
        ring
      · have h := ih (p :: ps) k 0 s
        simpa using h

/-- A successful fuzzy match scores the run bonuses, the length bonus and the constant `100`. -/
theorem calculateFuzzyScore_of_sublist (text pattern : Str) (hne : pattern ≠ [])
    (hsub : pattern.Sublist text) :
    calculateFuzzyScore text pattern =
      (runScore text pattern 0 : ℚ) + ((Max.max 0 (50 - (text.length : Int)) : Int) : ℚ) + 100 := by
  have hlen : pattern.length ≠ 0 := by
    simpa [List.length_eq_zero] using hne
  have hok := (fuzzyLoop_ok text pattern 0 0 0).2 hsub
  have hm := fuzzyLoop_matches text pattern 0 0 0 hok
  have hs : (fuzzyLoop text pattern 0 0 0).2.2 = (runScore text pattern 0 : ℚ) := by
    simpa using fuzzyLoop_score text pattern 0 0 0
  unfold calculateFuzzyScore
  rw [if_neg hlen]
  rcases hfl : fuzzyLoop text pattern 0 0 0 with ⟨ok, m, sc⟩
  rw [hfl] at hok hm hs
  simp only at hok hm hs
  subst hok
  have hq : ((pattern.length : Int) : ℚ) ≠ 0 := by
    exact_mod_cast hlen
  simp only [hm, hs, max_eq, zero_add, div_self hq]
  ring

/-- A failed fuzzy match, or an empty pattern, scores `0`. -/
theorem calculateFuzzyScore_of_not (text pattern : Str)
    (h : pattern = [] ∨ ¬ pattern.Sublist text) : calculateFuzzyScore text pattern = 0 := by
  unfold calculateFuzzyScore
  split
  · rfl
  · rename_i hlen
    have hne : pattern ≠ [] := by
      intro h0
      exact hlen (by simp [h0])
    have hns : ¬ pattern.Sublist text := h.resolve_left hne
    have hok : (fuzzyLoop text pattern 0 0 0).1 ≠ true :=
      fun hk => hns ((fuzzyLoop_ok text pattern 0 0 0).1 hk)
    rcases hfl : fuzzyLoop text pattern 0 0 0 with ⟨ok, m, sc⟩
    rw [hfl] at hok
    cases ok with
    | true => exact absurd rfl hok
    | false => rfl

theorem calculateFuzzyScore_pos_iff (text pattern : Str) :
    calculateFuzzyScore text pattern > 0 ↔ (pattern ≠ [] ∧ pattern.Sublist text) := by
  constructor
  · intro hpos
    by_contra hcon
    have : pattern = [] ∨ ¬ pattern.Sublist text := by
      by_cases h : pattern = []
      · exact Or.inl h
      · exact Or.inr (fun hs => hcon ⟨h, hs⟩)
    rw [calculateFuzzyScore_of_not text pattern this] at hpos
    exact lt_irrefl _ hpos
  · rintro ⟨hne, hsub⟩
    rw [calculateFuzzyScore_of_sublist text pattern hne hsub]
    have h1 : (0 : ℚ) ≤ (runScore text pattern 0 : ℚ) := Nat.cast_nonneg _
    have h2 : (0 : ℚ) ≤ ((Max.max 0 (50 - (text.length : Int)) : Int) : ℚ) := by
      exact_mod_cast le_max_left (0 : Int) _
    linarith


/-! ### Bounds on the run bonus -/

theorem runScore_of_isPrefix (pattern rest : Str) (c : Nat) :
    runScore (pattern ++ rest) pattern c
      = pattern.length * (pattern.length + 1) + 2 * c * pattern.length := by
  induction pattern generalizing c with
  | nil => cases rest <;> simp [runScore]
  | cons p ps ih =>
    rw [List.cons_append, runScore, if_pos rfl, ih (c + 1)]
    simp only [List.length_cons]
    ring

/-- However the matches fall, the run bonus is at most that of one unbroken run. -/
theorem runScore_le (text pattern : Str) (c : Nat) :
    runScore text pattern c ≤ pattern.length * (pattern.length + 1) + 2 * c * pattern.length := by
  induction text generalizing pattern c with
  | nil => cases pattern <;> simp [runScore]
  | cons t ts ih =>
    cases pattern with
    | nil => simp [runScore]
    | cons p ps =>
      unfold runScore
      split
      · have h := ih ps (c + 1)
        simp only [List.length_cons]
        nlinarith
      · have h := ih (p :: ps) 0
        simp only [List.length_cons] at h ⊢
        nlinarith

/-- Inside a run (`c ≥ 1`), when the rest of the pattern does not continue the run at once. -/
theorem runScore_le_of_not_isPrefix (text : Str) (p : Fin 256) (ps : Str) (c : Nat) (hc : 1 ≤ c)
    (hpre : ¬ (p :: ps) <+: text) :
    runScore text (p :: ps) c ≤ ps.length * (ps.length + 1 + 2 * c) + 2 := by
  induction text generalizing p ps c with
  | nil => simp [runScore]
  | cons t ts ih =>
    unfold runScore
    split
    · rename_i heq
      subst heq
      cases ps with
      | nil => exact absurd (List.prefix_iff_eq_append.2 rfl) hpre
      | cons q qs =>
        have hpre2 : ¬ (q :: qs) <+: ts := fun h => hpre ((List.prefix_cons_inj t).2 h)
        have h := ih q qs (c + 1) (by omega) hpre2
        simp only [List.length_cons]
        nlinarith
    · have h := runScore_le ts (p :: ps) 0
      simp only [List.length_cons] at h
      nlinarith

/-- From the start of the scan, when the pattern is no contiguous part of the text. -/
theorem runScore_le_of_not_infix (text : Str) (p : Fin 256) (ps : Str)
    (hinf : ¬ (p :: ps) <:+: text) :
    runScore text (p :: ps) 0 ≤ ps.length * (ps.length + 1) + 2 := by
  induction text with
  | nil => simp [runScore]
  | cons t ts ih =>
    unfold runScore
    split
    · rename_i heq
      subst heq
      cases ps with
      | nil => exact absurd (List.prefix_iff_eq_append.2 rfl : [t] <+: t :: ts).isInfix hinf
      | cons q qs =>
        have hpre2 : ¬ (q :: qs) <+: ts :=
          fun h => hinf ((List.prefix_cons_inj t).2 h).isInfix
        have h := runScore_le_of_not_isPrefix ts q qs 1 (le_refl 1) hpre2
        simp only [List.length_cons]
        nlinarith
    · exact ih (fun h => hinf (List.infix_cons h))

/-- A fuzzy match of a pattern of `m` bytes that is no contiguous part of the text scores at
most `(m - 1) * m + 2` in run bonuses, which keeps the score below `200` for `m ≤ 8`. -/
theorem calculateFuzzyScore_lt_of_not_infix (text pattern : Str) (hlen : pattern.length ≤ 8)
    (hinf : ¬ pattern <:+: text) : calculateFuzzyScore text pattern < 200 := by
  by_cases h : pattern ≠ [] ∧ pattern.Sublist text
  · obtain ⟨hne, hsub⟩ := h
    rw [calculateFuzzyScore_of_sublist text pattern hne hsub]
    cases pattern with
    | nil => exact absurd rfl hne
    | cons p ps =>
      have hrun := runScore_le_of_not_infix text p ps hinf
      have hlt : (p :: ps).length < text.length := by
        rcases Nat.lt_or_ge (p :: ps).length text.length with h | h
        · exact h
        · exact absurd (hsub.eq_of_length_le h ▸ List.infix_refl _) hinf
      simp only [List.length_cons] at hlen hlt
      have hmax : Max.max (0 : Int) (50 - (text.length : Int)) ≤ 48 - (ps.length : Int) := by
        apply max_le <;> omega
      have hrun2 : runScore text (p :: ps) 0 + 2 * ps.length ≤ ps.length * ps.length + 3 * ps.length + 2 := by
        nlinarith
      have hq2 : ((Max.max (0 : Int) (50 - (text.length : Int)) : Int) : ℚ)
          ≤ 48 - (ps.length : ℚ) := by
        exact_mod_cast hmax
      have hq3 : (runScore text (p :: ps) 0 : ℚ) + 2 * (ps.length : ℚ)
          ≤ (ps.length : ℚ) * (ps.length : ℚ) + 3 * (ps.length : ℚ) + 2 := by
        exact_mod_cast hrun2
      have hl7 : (ps.length : ℚ) ≤ 7 := by
        exact_mod_cast (by omega : ps.length ≤ 7)
      have hl0 : (0 : ℚ) ≤ (ps.length : ℚ) := Nat.cast_nonneg _
      nlinarith
  · have h0 : pattern = [] ∨ ¬ pattern.Sublist text := by
      by_cases hp : pattern = []
      · exact Or.inl hp
      · exact Or.inr (fun hs => h ⟨hp, hs⟩)
    rw [calculateFuzzyScore_of_not text pattern h0]
    norm_num


/-! ### Claims on the matcher -/

/-- C1: `calculateScore` equals the tiered reference definition of the specification for every
file name, relative path and query: `1.0` for the empty query, else the score of the first
rule that applies to the lower-cased strings, else `0`. -/
theorem calculateScore_eq_tieredScore (toLower : Str → Str)
    (fileName relativePath query : Str) :
    calculateScore toLower fileName relativePath query
      = tieredScore toLower fileName relativePath query := by
  unfold calculateScore tieredScore tierRules
  by_cases hq : query = []
  · rw [if_pos hq, if_pos hq]
  · rw [if_neg hq, if_neg hq]
    simp only [List.find?, ← hasPrefix_iff, ← contains_iff, Bool.decide_eq_true]
    by_cases h1 : toLower fileName = toLower query
    · simp [h1]
    by_cases h2 : toLower relativePath = toLower query
    · simp [h1, h2]
    by_cases h3 : hasPrefix (toLower fileName) (toLower query) = true
    · simp [h1, h2, h3]
    by_cases h4 : hasPrefix (toLower relativePath) (toLower query) = true
    · simp [h1, h2, h3, h4]
    by_cases h5 : contains (toLower fileName) (toLower query) = true
    · simp [h1, h2, h3, h4, h5]
    by_cases h6 : contains (toLower relativePath) (toLower query) = true
    · simp [h1, h2, h3, h4, h5, h6]
    by_cases h7 : calculateFuzzyScore (toLower fileName) (toLower query) > 0
    · simp [h1, h2, h3, h4, h5, h6, h7]
    by_cases h8 : calculateFuzzyScore (toLower relativePath) (toLower query) > 0
    · simp [h1, h2, h3, h4, h5, h6, h7, h8]
    · simp [h1, h2, h3, h4, h5, h6, h7, h8]

/-- C3: `calculateFuzzyScore text pattern` is `0` exactly when the pattern is empty or is not
an in-order subsequence of the bytes of the text, and it is strictly positive in every other
case. -/
theorem calculateFuzzyScore_zero_iff (text pattern : Str) :
    (calculateFuzzyScore text pattern = 0 ↔ (pattern = [] ∨ ¬ pattern.Sublist text)) ∧
    (calculateFuzzyScore text pattern > 0 ↔ ¬ (pattern = [] ∨ ¬ pattern.Sublist text)) := by
  have hpos := calculateFuzzyScore_pos_iff text pattern
  constructor
  · constructor
    · intro h0
      by_contra hcon
      have hp : pattern ≠ [] ∧ pattern.Sublist text := by
        constructor
        · exact fun h => hcon (Or.inl h)
        · by_contra hs
          exact hcon (Or.inr hs)
      have := hpos.2 hp
      rw [h0] at this
      exact lt_irrefl _ this
    · exact calculateFuzzyScore_of_not text pattern
  · rw [hpos]
    constructor
    · rintro ⟨hne, hsub⟩ h
      rcases h with h | h
      · exact hne h
      · exact h hsub
    · intro h
      constructor
      · exact fun h0 => h (Or.inl h0)
      · by_contra hs
        exact h (Or.inr hs)

/-- C4: `calculateScore` is `0` exactly when the query is non-empty and the lower-cased query
is a subsequence of neither the lower-cased file name nor the lower-cased relative path; so an
empty query never scores `0`. -/
theorem calculateScore_zero_iff (toLower : Str → Str) (fileName relativePath query : Str) :
    calculateScore toLower fileName relativePath query = 0 ↔
      (query ≠ [] ∧ ¬ (toLower query).Sublist (toLower fileName)
        ∧ ¬ (toLower query).Sublist (toLower relativePath)) := by
  unfold calculateScore
  by_cases hq : query = []
  · simp [hq]
  rw [if_neg hq]
  by_cases h1 : toLower fileName = toLower query
  · simp [h1]
  rw [if_neg h1]
  by_cases h2 : toLower relativePath = toLower query
  · simp [h2]
  rw [if_neg h2]
  by_cases h3 : hasPrefix (toLower fileName) (toLower query) = true
  · have := ((hasPrefix_iff _ _).1 h3).sublist
    simp [h3, this]
  rw [if_neg h3]
  by_cases h4 : hasPrefix (toLower relativePath) (toLower query) = true
  · have := ((hasPrefix_iff _ _).1 h4).sublist
    simp [h4, this]
  rw [if_neg h4]
  by_cases h5 : contains (toLower fileName) (toLower query) = true
  · have := ((contains_iff _ _).1 h5).sublist
    simp [h5, this]
  rw [if_neg h5]
  by_cases h6 : contains (toLower relativePath) (toLower query) = true
  · have := ((contains_iff _ _).1 h6).sublist
    simp [h6, this]
  rw [if_neg h6]
  have hne : toLower query ≠ [] := by
    intro h0
    apply h3
    rw [hasPrefix_iff, h0]
    exact List.nil_prefix
  have hn := calculateFuzzyScore_pos_iff (toLower fileName) (toLower query)
  have hp := calculateFuzzyScore_pos_iff (toLower relativePath) (toLower query)
  simp only []
  by_cases h7 : calculateFuzzyScore (toLower fileName) (toLower query) > 0
  · rw [if_pos h7]
    have hs := (hn.1 h7).2
    constructor
    · intro h
      linarith
    · intro h
      exact absurd hs h.2.1
  rw [if_neg h7]
  have hs7 : ¬ (toLower query).Sublist (toLower fileName) := fun hs => h7 (hn.2 ⟨hne, hs⟩)
  by_cases h8 : calculateFuzzyScore (toLower relativePath) (toLower query) > 0
  · rw [if_pos h8]
    have hs := (hp.1 h8).2
    constructor
    · intro h
      linarith
    · intro h
      exact absurd hs h.2.2
  rw [if_neg h8]
  have hs8 : ¬ (toLower query).Sublist (toLower relativePath) := fun hs => h8 (hp.2 ⟨hne, hs⟩)
  simp [hq, hs7, hs8]

/-- C5: for a non-empty pattern of `m` bytes and a text of `n` bytes that starts with the
pattern, `calculateFuzzyScore` is `m * (m + 1) + max(0, 50 - n) + 100`: the run of `m` matches
gives `2 + 4 + ... + 2m` and the ratio term is exactly `100`. -/
theorem calculateFuzzyScore_of_isPrefix (text pattern : Str) (hne : pattern ≠ [])
    (hpre : pattern <+: text) :
    calculateFuzzyScore text pattern
      = ((pattern.length * (pattern.length + 1) : Nat) : ℚ)
        + ((Max.max 0 (50 - (text.length : Int)) : Int) : ℚ) + 100 := by
  rw [calculateFuzzyScore_of_sublist text pattern hne hpre.sublist]
  obtain ⟨rest, rfl⟩ := hpre
  rw [runScore_of_isPrefix]
  simp

/-- Witness of C5: text `abc`, pattern `abc` gives `12 + 47 + 100 = 159`. -/
theorem calculateFuzzyScore_of_isPrefix_witness :
    ascii "abc" ≠ [] ∧ ascii "abc" <+: ascii "abc" ∧
      calculateFuzzyScore (ascii "abc") (ascii "abc") = 159 :=
  ⟨by decide, by decide,
    (calculateFuzzyScore_of_isPrefix (ascii "abc") (ascii "abc") (by decide) (by decide)).trans
      (by decide!)⟩

/-- C2, as stated, fails: for the file `app/user_controller.rb` and the query `usercontroller`
none of rules 1-6 applies, yet the fuzzy bonus of the name is `262` and the tier-7 score is
`562`, above the tier-6 score `500`. -/
theorem fuzzy_bonus_reaches_200 :
    (ascii "user_controller.rb").length ≤ 255 ∧
    (ascii "app/user_controller.rb").length ≤ 255 ∧
    ascii "usercontroller" ≠ [] ∧
    ((tierRules (asciiToLower (ascii "user_controller.rb"))
        (asciiToLower (ascii "app/user_controller.rb"))
        (asciiToLower (ascii "usercontroller"))).take 6).all (fun rule => !rule.1) = true ∧
    calculateFuzzyScore (asciiToLower (ascii "user_controller.rb"))
      (asciiToLower (ascii "usercontroller")) = 262 ∧
    calculateScore asciiToLower (ascii "user_controller.rb") (ascii "app/user_controller.rb")
      (ascii "usercontroller") = 562 := by
  refine ⟨by decide, by decide, by decide, by decide!, by decide!, by decide!⟩

/-- C2, amended: for every file name, relative path and non-empty query whose lower-cased form
has at most 8 bytes and is a contiguous part of neither the lower-cased name nor the
lower-cased path (so none of rules 1-6 applies), both fuzzy bonuses are strictly less than
`200` and `calculateScore` is strictly less than `500`. -/
theorem tier7_lt_tier6_of_short_query (toLower : Str → Str) (fileName relativePath query : Str)
    (hq : query ≠ []) (hlen : (toLower query).length ≤ 8)
    (hname : ¬ toLower query <:+: toLower fileName)
    (hpath : ¬ toLower query <:+: toLower relativePath) :
    calculateFuzzyScore (toLower fileName) (toLower query) < 200 ∧
    calculateFuzzyScore (toLower relativePath) (toLower query) < 200 ∧
    calculateScore toLower fileName relativePath query < 500 := by
  have hn := calculateFuzzyScore_lt_of_not_infix _ _ hlen hname
  have hp := calculateFuzzyScore_lt_of_not_infix _ _ hlen hpath
  refine ⟨hn, hp, ?_⟩
  have h1 : toLower fileName ≠ toLower query := fun h => hname (h ▸ List.infix_refl _)
  have h2 : toLower relativePath ≠ toLower query := fun h => hpath (h ▸ List.infix_refl _)
  have h3 : ¬ hasPrefix (toLower fileName) (toLower query) = true :=
    fun h => hname ((hasPrefix_iff _ _).1 h).isInfix
  have h4 : ¬ hasPrefix (toLower relativePath) (toLower query) = true :=
    fun h => hpath ((hasPrefix_iff _ _).1 h).isInfix
  have h5 : ¬ contains (toLower fileName) (toLower query) = true :=
    fun h => hname ((contains_iff _ _).1 h)
  have h6 : ¬ contains (toLower relativePath) (toLower query) = true :=
    fun h => hpath ((contains_iff _ _).1 h)
  unfold calculateScore
  rw [if_neg hq, if_neg h1, if_neg h2, if_neg h3, if_neg h4, if_neg h5, if_neg h6]
  simp only []
  split
  · linarith
  · split
    · linarith
    · norm_num

/-- Witness of the amended C2: name `a_bcdefgh`, query `abcdefgh` (8 bytes). -/
theorem tier7_lt_tier6_of_short_query_witness :
    calculateFuzzyScore (asciiToLower (ascii "a_bcdefgh")) (asciiToLower (ascii "abcdefgh"))
      < 200 ∧
    calculateFuzzyScore (asciiToLower (ascii "a_bcdefgh")) (asciiToLower (ascii "abcdefgh"))
      < 200 ∧
    calculateScore asciiToLower (ascii "a_bcdefgh") (ascii "a_bcdefgh") (ascii "abcdefgh")
      < 500 :=
  tier7_lt_tier6_of_short_query asciiToLower (ascii "a_bcdefgh") (ascii "a_bcdefgh")
    (ascii "abcdefgh") (by decide) (by decide) (by decide) (by decide)


/-! ### Invariants of the walk -/

/-- The callback asked about a directory in the skip set never lets the walk descend. -/
theorem walkFn_skip_dir (env : Env) (cfg : Config) (path name : Str) (st : ScanState)
    (hskip : name ∈ cfg.skipSet) : (walkFn env cfg path name true false st).2 ≠ none := by
  unfold walkFn
  simp only [Bool.false_eq_true, if_false, if_true, if_pos hskip]
  split
  · simp
  · split <;> simp

mutual
/-- A state property kept by every call of the callback is kept by the walk.  `Good` is what
is known of the path of every file the walk may bring to the callback. -/
theorem walk_inv (env : Env) (cfg : Config) (Inv : ScanState → Prop) (Good : Str → Prop)
    (hstep : ∀ p n d err st, (d = true ∨ err = true ∨ Good p) → Inv st →
      Inv (walkFn env cfg p n d err st).1) :
    ∀ (e : Entry) (path : Str) (st : ScanState),
      (∀ p, (p, false) ∈ filesBelow env.join cfg.skipSet path false e → Good p) →
      Inv st → Inv (walk env cfg path e st).1
  | .file name, path, st, hgood, hinv => by
    rw [walk]
    exact hstep _ _ _ _ _ (Or.inr (Or.inr (hgood path (by simp [filesBelow])))) hinv
  | .lstatErr name, path, st, _, hinv => by
    rw [walk]
    exact hstep _ _ _ _ _ (Or.inr (Or.inl rfl)) hinv
  | .dir name readErr children, path, st, hgood, hinv => by
    rw [walk]
    have h1 := hstep path name true readErr st (Or.inl rfl) hinv
    split
    · exact h1
    · exact walkNames_inv env cfg Inv Good hstep children path _
        (fun p hp => hgood p (by simpa [filesBelow] using hp)) h1
termination_by structural e => e
/-- The loop over the children of a directory keeps such a state property. -/
theorem walkNames_inv (env : Env) (cfg : Config) (Inv : ScanState → Prop) (Good : Str → Prop)
    (hstep : ∀ p n d err st, (d = true ∨ err = true ∨ Good p) → Inv st →
      Inv (walkFn env cfg p n d err st).1) :
    ∀ (es : List Entry) (path : Str) (st : ScanState),
      (∀ p, (p, false) ∈ filesBelowList env.join cfg.skipSet path false es → Good p) →
      Inv st → Inv (walkNames env cfg path es st).1
  | [], path, st, _, hinv => by
    rw [walkNames]
    exact hinv
  | .lstatErr name :: rest, path, st, hgood, hinv => by
    rw [walkNames]
    have h1 := hstep (env.join path name) name false true st (Or.inr (Or.inl rfl)) hinv
    split
    · exact h1
    · exact walkNames_inv env cfg Inv Good hstep rest path _
        (fun p hp => hgood p (by simp [filesBelowList, hp])) h1
  | .file name :: rest, path, st, hgood, hinv => by
    rw [walkNames]
    case x_2 => exact fun _ h => Entry.noConfusion h
    have h1 := walk_inv env cfg Inv Good hstep (.file name) (env.join path name) st
      (fun p hp => hgood p (by
        simp only [filesBelow, List.mem_singleton] at hp
        simp [filesBelowList, filesBelow, Entry.name, Entry.isDir, hp])) hinv
    simp only [Entry.name] at h1 ⊢
    split
    · exact h1
    · exact walkNames_inv env cfg Inv Good hstep rest path _
        (fun p hp => hgood p (by simp [filesBelowList, hp])) h1
  | .dir name readErr children :: rest, path, st, hgood, hinv => by
    rw [walkNames]
    case x_2 => exact fun _ h => Entry.noConfusion h
    have h1 : Inv (walk env cfg (env.join path name) (.dir name readErr children) st).1 := by
      by_cases hskip : name ∈ cfg.skipSet
      · rw [walk]
        have h0 := hstep (env.join path name) name true readErr st (Or.inl rfl) hinv
        split
        · exact h0
        · rename_i hcon
          exfalso
          apply hcon
          by_cases hr : readErr = true
          · exact Or.inl hr
          · right
            have hr2 : readErr = false := by simpa using hr
            rw [hr2]
            exact walkFn_skip_dir env cfg _ name st hskip
      · exact walk_inv env cfg Inv Good hstep (.dir name readErr children) (env.join path name)
          st (fun p hp => hgood p (by
            simp [filesBelowList, Entry.name, Entry.isDir, hskip, hp])) hinv
    simp only [Entry.name] at h1 ⊢
    split
    · exact h1
    · exact walkNames_inv env cfg Inv Good hstep rest path _
        (fun p hp => hgood p (by simp [filesBelowList, hp])) h1
termination_by structural es => es
end

/-- What one call of the callback does to the lists: either it leaves them alone, or it accepts
one file `f` for its path, scored by `calculateScore` and not `0` for a non-empty query, and
adds it to the chunk; when the chunk is full the sorted accumulation is sent as a partial
response, after which the chunk is emptied unless the write failed. -/
theorem walkFn_cases (env : Env) (cfg : Config) (p n : Str) (d err : Bool) (st : ScanState) :
    ((walkFn env cfg p n d err st).1.allFiles = st.allFiles ∧
      (walkFn env cfg p n d err st).1.currentChunk = st.currentChunk ∧
      (walkFn env cfg p n d err st).1.out = st.out) ∨
    (d = false ∧ err = false ∧ ∃ f : FileResult, f.Path = p ∧ f.Name = n ∧
      f.Score = calculateScore env.toLower n f.RelativePath cfg.query ∧
      ¬ (cfg.query ≠ [] ∧ f.Score = 0) ∧
      (((walkFn env cfg p n d err st).1.allFiles = st.allFiles ∧
        (walkFn env cfg p n d err st).1.currentChunk = st.currentChunk ++ [f] ∧
        (walkFn env cfg p n d err st).1.out = st.out) ∨
       ((walkFn env cfg p n d err st).1.allFiles
            = env.sortSlice (st.allFiles ++ (st.currentChunk ++ [f])) ∧
        (walkFn env cfg p n d err st).1.out = st.out ++
          [{ Files := env.sortSlice (st.allFiles ++ (st.currentChunk ++ [f])),
             Count := (env.sortSlice (st.allFiles ++ (st.currentChunk ++ [f]))).length,
             Partial := true, Complete := false, Error := "" }] ∧
        (((walkFn env cfg p n d err st).1.currentChunk = [] ∧
            env.sink st.out.length = none) ∨
         ((walkFn env cfg p n d err st).1.currentChunk = st.currentChunk ++ [f] ∧
            env.sink st.out.length ≠ none))))) := by
  unfold walkFn
  cases err with
  | true => simp
  | false =>
  simp only [Bool.false_eq_true, if_false]
  split
  · simp
  split
  · simp
  cases d with
  | true =>
    rw [if_pos rfl]
    split <;> simp
  | false =>
  rw [if_neg (by simp)]
  split
  · simp
  split
  · simp
  split
  · simp
  rename_i hacc
  right
  refine ⟨rfl, trivial, ?_⟩
  split
  · rename_i hfull
    unfold outputJSON
    cases hsink : env.sink st.out.length with
    | none =>
      refine ⟨_, rfl, rfl, rfl, hacc, Or.inr ⟨rfl, rfl, Or.inl ⟨rfl, rfl⟩⟩⟩
    | some e =>
      refine ⟨_, rfl, rfl, rfl, hacc, Or.inr ⟨rfl, rfl, Or.inr ⟨rfl, by simp⟩⟩⟩
  · exact ⟨_, rfl, rfl, rfl, hacc, Or.inl ⟨rfl, rfl, rfl⟩⟩


/-- The state property behind the statements on responses.  `Pl` is a property of lists of
accepted files that holds of the empty list and of one accepted file and is kept by appending
and by sorting; `Pr` is what sorting such a list yields.  The callback keeps: both lists
satisfy `Pl`, and every response sent so far is a partial one that counts its files, with files
satisfying `Pr`. -/
theorem walkFn_keeps (env : Env) (cfg : Config) (Pl Pr : List FileResult → Prop)
    (Good : Str → Prop) (hnil : Pl [])
    (hone : ∀ f : FileResult, Good f.Path →
      f.Score = calculateScore env.toLower f.Name f.RelativePath cfg.query →
      ¬ (cfg.query ≠ [] ∧ f.Score = 0) → Pl [f])
    (happ : ∀ a b, Pl a → Pl b → Pl (a ++ b))
    (hsorts : ∀ l, Pl l → Pl (env.sortSlice l) ∧ Pr (env.sortSlice l))
    (p n : Str) (d err : Bool) (st : ScanState) (hgood : d = true ∨ err = true ∨ Good p)
    (hinv : Pl st.allFiles ∧ Pl st.currentChunk ∧
      ∀ r ∈ st.out, r.Partial = true ∧ r.Complete = false ∧ r.Error = "" ∧
        Pr r.Files ∧ r.Count = r.Files.length) :
    Pl (walkFn env cfg p n d err st).1.allFiles ∧
    Pl (walkFn env cfg p n d err st).1.currentChunk ∧
      ∀ r ∈ (walkFn env cfg p n d err st).1.out,
        r.Partial = true ∧ r.Complete = false ∧ r.Error = "" ∧
        Pr r.Files ∧ r.Count = r.Files.length := by
  obtain ⟨hall, hchunk, hout⟩ := hinv
  rcases walkFn_cases env cfg p n d err st with ⟨h1, h2, h3⟩ | ⟨hd, he, f, hp, hn, hs, hacc, hrest⟩
  · rw [h1, h2, h3]
    exact ⟨hall, hchunk, hout⟩
  · have hPf : Pl [f] := by
      apply hone f _ (by rw [hs, hn]) hacc
      rcases hgood with h | h | h
      · rw [hd] at h
        exact absurd h (by simp)
      · rw [he] at h
        exact absurd h (by simp)
      · rw [hp]
        exact h
    have hnew : Pl (st.currentChunk ++ [f]) := happ _ _ hchunk hPf
    rcases hrest with ⟨h1, h2, h3⟩ | ⟨h1, h3, h2⟩
    · rw [h1, h2, h3]
      exact ⟨hall, hnew, hout⟩
    · have hsorted := hsorts _ (happ _ _ hall hnew)
      rw [h1, h3]
      refine ⟨hsorted.1, ?_, ?_⟩
      · rcases h2 with ⟨h2, _⟩ | ⟨h2, _⟩
        · rw [h2]
          exact hnil
        · rw [h2]
          exact hnew
      · intro r hr
        rcases List.mem_append.1 hr with hr | hr
        · exact hout r hr
        · rw [List.mem_singleton.1 hr]
          exact ⟨rfl, rfl, rfl, hsorted.2, rfl⟩


/-- The responses of one run of `scanDirectory`: partial responses, with no error text, followed
by one final response; every response counts its files and its files satisfy `Pr`; the
returned error is the verdict of the output stream on the final response.  `Pl` and `Pr` are
as in `walkFn_keeps`; the files accepted are files of the tree outside skipped directories,
scored by `calculateScore` and not `0` for a non-empty query. -/
theorem scanDirectory_out (env : Env) (root : Entry)
    (projectPath query : Str) (skipDirs : List Str) (maxTime maxResults chunkSize : Int)
    (Pl Pr : List FileResult → Prop) (hnil : Pl [])
    (hone : ∀ f : FileResult,
      (f.Path, false) ∈ filesBelow env.join (defaultSkipDirs ++ skipDirs) projectPath false root →
      f.Score = calculateScore env.toLower f.Name f.RelativePath query →
      ¬ (query ≠ [] ∧ f.Score = 0) → Pl [f])
    (happ : ∀ a b, Pl a → Pl b → Pl (a ++ b))
    (hsorts : ∀ l, Pl l → Pl (env.sortSlice l) ∧ Pr (env.sortSlice l))
    (o : Outcome)
    (ho : scanDirectory env root projectPath query skipDirs maxTime maxResults chunkSize
      = some o) :
    ∃ (init : List SearchResponse) (final : SearchResponse),
      o.out = init ++ [final] ∧ final.Complete = true ∧ final.Partial = false ∧
      (∀ r ∈ init, r.Partial = true ∧ r.Complete = false ∧ r.Error = "") ∧
      (∀ r ∈ o.out, Pr r.Files ∧ r.Count = r.Files.length) ∧
      o.err = env.sink init.length := by
  unfold scanDirectory at ho
  simp only [] at ho
  split at ho
  · exact absurd ho (by simp)
  · simp only [Option.some.injEq] at ho
    subst ho
    generalize hcfg : scanConfig projectPath query skipDirs maxTime maxResults chunkSize = cfg
    have hq : cfg.query = query := by rw [← hcfg]; rfl
    have hsk : cfg.skipSet = defaultSkipDirs ++ skipDirs := by rw [← hcfg]; rfl
    have hpp : cfg.projectPath = projectPath := by rw [← hcfg]; rfl
    have hwalk := walk_inv env cfg
      (fun st => Pl st.allFiles ∧ Pl st.currentChunk ∧
        ∀ r ∈ st.out, r.Partial = true ∧ r.Complete = false ∧ r.Error = "" ∧
          Pr r.Files ∧ r.Count = r.Files.length)
      (fun p => (p, false) ∈ filesBelow env.join (defaultSkipDirs ++ skipDirs) projectPath
        false root)
      (fun p n d err st hg hi => walkFn_keeps env cfg Pl Pr
        (fun p => (p, false) ∈ filesBelow env.join (defaultSkipDirs ++ skipDirs) projectPath
          false root)
        hnil
        (fun f hf hs ha => hone f hf (by rw [hs, hq]) (by rw [hq] at ha; exact ha))
        happ hsorts p n d err st hg hi)
      root cfg.projectPath initState
      (fun p hp => by rw [hsk, hpp] at hp; exact hp)
      ⟨hnil, hnil, by simp [initState]⟩
    unfold filepathWalk
    generalize walk env cfg cfg.projectPath root initState = res at hwalk
    obtain ⟨st, werr⟩ := res
    obtain ⟨hall, hchunk2, hout⟩ := hwalk
    simp only at hall hchunk2 hout
    have hmerged : Pr (env.sortSlice
        (if st.currentChunk.length > 0 then st.allFiles ++ st.currentChunk
          else st.allFiles)) := by
      apply (hsorts _ _).2
      split
      · exact happ _ _ hall hchunk2
      · exact hall
    have hinit : ∀ r ∈ st.out, r.Partial = true ∧ r.Complete = false ∧ r.Error = "" :=
      fun r hr => ⟨(hout r hr).1, (hout r hr).2.1, (hout r hr).2.2.1⟩
    have hfin : ∀ e : Option String,
        ∃ (init : List SearchResponse) (final : SearchResponse),
          (finishScan env st e).out = init ++ [final] ∧ final.Complete = true ∧
          final.Partial = false ∧
          (∀ r ∈ init, r.Partial = true ∧ r.Complete = false ∧ r.Error = "") ∧
          (∀ r ∈ (finishScan env st e).out, Pr r.Files ∧ r.Count = r.Files.length) ∧
          (finishScan env st e).err = env.sink init.length := by
      intro e
      refine ⟨st.out, _, rfl, rfl, rfl, hinit, ?_, rfl⟩
      intro r hr
      simp only [finishScan, outputJSON] at hr
      rcases List.mem_append.1 hr with hr | hr
      · obtain ⟨_, _, _, h4, h5⟩ := hout r hr
        exact ⟨h4, h5⟩
      · rw [List.mem_singleton.1 hr]
        exact ⟨hmerged, rfl⟩
    rcases werr with _ | werr
    · exact hfin none
    · cases werr with
      | skipDir => exact hfin none
      | error msg => exact hfin (some msg)

/-- Scores are never negative. -/
theorem calculateScore_nonneg (toLower : Str → Str) (fileName relativePath query : Str) :
    0 ≤ calculateScore toLower fileName relativePath query := by
  unfold calculateScore
  simp only []
  split
  · norm_num
  split
  · norm_num
  split
  · norm_num
  split
  · norm_num
  split
  · norm_num
  split
  · norm_num
  split
  · norm_num
  split
  · linarith
  split
  · linarith
  · norm_num


theorem sortDesc_sortsDescending : SortsDescending sortDesc :=
  fun l => ⟨sortDesc_perm l, sortDesc_sorted l⟩

/-! ### Claims on the walker -/

/-- C6: in every response handed out by `scanDirectory`, partial or final, the files are in
descending score order: whenever one file stands before another, its score is at least the
other's. -/
theorem scanDirectory_files_sorted (env : Env) (hsort : SortsDescending env.sortSlice)
    (root : Entry) (projectPath query : Str) (skipDirs : List Str)
    (maxTime maxResults chunkSize : Int) (o : Outcome)
    (ho : scanDirectory env root projectPath query skipDirs maxTime maxResults chunkSize
      = some o)
    (r : SearchResponse) (hr : r ∈ o.out) :
    r.Files.Pairwise (fun a b => a.Score ≥ b.Score) := by
  obtain ⟨init, final, _, _, _, _, hall, _⟩ :=
    scanDirectory_out env root projectPath query skipDirs maxTime maxResults chunkSize
      (fun _ => True) (fun l => l.Pairwise (fun a b => a.Score ≥ b.Score)) trivial
      (fun _ _ _ _ => trivial) (fun _ _ _ _ => trivial)
      (fun l _ => ⟨trivial, (hsort l).2⟩) o ho
  exact (hall r hr).1

/-- Witness of C6: the second partial response of the demo run. -/
theorem scanDirectory_files_sorted_witness :
    demoSecond ∈ demoOutcome.out ∧
      demoSecond.Files.Pairwise (fun a b => a.Score ≥ b.Score) :=
  ⟨by decide,
    scanDirectory_files_sorted demoEnv sortDesc_sortsDescending demoTree (ascii "/proj")
      (ascii "foo.") [] 0 0 1 demoOutcome (by decide!) demoSecond (by decide)⟩

/-- C7 fails on the code for a chunk size above the allocation limit of `make`: with
`chunk_size = 10000000000000` the scan panics at `make([]FileResult, 0, chunkSize)` before the
walk, so no response is written at all, although the chunk size is not negative and no write
fails. -/
theorem handleScan_panics_on_huge_chunkSize :
    (0 : Int) ≤ 10000000000000 ∧ (∀ k, demoEnv.sink k = none) ∧
    scanDirectory demoEnv demoTree (ascii "/proj") (ascii "foo") [] 0 0 10000000000000 = none ∧
    handleScan demoEnv demoTree (ascii "/proj") (ascii "foo") [] 0 0 10000000000000 = none := by
  refine ⟨by decide, fun _ => rfl, ?_, ?_⟩
  · decide
  · decide

/-- The response protocol away from that panic: for `0 ≤ chunkSize ≤ maxCap` and an output
stream that accepts every write, one scan writes a non-empty sequence of responses; the last
has `complete = true` and `partial = false`; every earlier one has `partial = true`,
`complete = false` and no error text. -/
theorem handleScan_protocol (env : Env) (hsink : ∀ k, env.sink k = none)
    (root : Entry) (projectPath query : Str) (skipDirs : List Str)
    (maxTime maxResults chunkSize : Int) (hchunk : 0 ≤ chunkSize) (hmake : chunkSize ≤ maxCap) :
    ∃ (init : List SearchResponse) (final : SearchResponse),
      handleScan env root projectPath query skipDirs maxTime maxResults chunkSize
        = some (init ++ [final]) ∧
      final.Complete = true ∧ final.Partial = false ∧
      ∀ r ∈ init, r.Partial = true ∧ r.Complete = false ∧ r.Error = "" := by
  have hsome : ∃ o, scanDirectory env root projectPath query skipDirs maxTime maxResults
      chunkSize = some o := by
    unfold scanDirectory
    simp only []
    rw [if_neg (scanConfig_not_makePanics projectPath query skipDirs maxTime maxResults
      chunkSize hchunk hmake)]
    exact ⟨_, rfl⟩
  obtain ⟨o, ho⟩ := hsome
  obtain ⟨init, final, hout, hc, hp, hinit, _, herr⟩ :=
    scanDirectory_out env root projectPath query skipDirs maxTime maxResults chunkSize
      (fun _ => True) (fun _ => True) trivial
      (fun _ _ _ _ => trivial) (fun _ _ _ _ => trivial)
      (fun _ _ => ⟨trivial, trivial⟩) o ho
  refine ⟨init, final, ?_, hc, hp, hinit⟩
  unfold handleScan
  rw [ho]
  obtain ⟨out, err⟩ := o
  simp only at hout herr
  rw [hsink] at herr
  subst herr
  rw [hout]

/-- The protocol on the demo run: two partial responses and the final one. -/
theorem handleScan_protocol_witness :
    ∃ (init : List SearchResponse) (final : SearchResponse),
      handleScan demoEnv demoTree (ascii "/proj") (ascii "foo.") [] 0 0 1
        = some (init ++ [final]) ∧
      final.Complete = true ∧ final.Partial = false ∧
      ∀ r ∈ init, r.Partial = true ∧ r.Complete = false ∧ r.Error = "" :=
  handleScan_protocol demoEnv (fun _ => rfl) demoTree (ascii "/proj") (ascii "foo.") [] 0 0 1
    (by decide) (by decide)

/-- C8 fails on the code when a write fails: with chunk size 1, one accepted file `a.txt` and an
output stream whose first write fails, the chunk is not emptied before the walk stops, so the
final response lists the file twice with count 2. -/
theorem scanDirectory_duplicates_after_failed_write :
    scanDirectory (plainEnv (fun _ => 0) failFirstSink) oneFileTree (ascii "/proj") [] [] 0 0 1
      = some
        { out :=
            [{ Files := [oneFile], Count := 1, Partial := true, Complete := false, Error := "" },
             { Files := [oneFile, oneFile], Count := 2, Partial := false, Complete := true,
               Error := "write failed" }],
          err := none } := by
  decide!

/-- C9: every file in every response handed out by `scanDirectory` has a score above `0` when
the query is non-empty and the score `1.0` when the query is empty. -/
theorem scanDirectory_scores (env : Env) (hsort : SortsDescending env.sortSlice)
    (root : Entry) (projectPath query : Str) (skipDirs : List Str)
    (maxTime maxResults chunkSize : Int) (o : Outcome)
    (ho : scanDirectory env root projectPath query skipDirs maxTime maxResults chunkSize
      = some o)
    (r : SearchResponse) (hr : r ∈ o.out) (f : FileResult) (hf : f ∈ r.Files) :
    (query ≠ [] → f.Score > 0) ∧ (query = [] → f.Score = 1) := by
  obtain ⟨init, final, _, _, _, _, hall, _⟩ :=
    scanDirectory_out env root projectPath query skipDirs maxTime maxResults chunkSize
      (fun l => ∀ g ∈ l, (query ≠ [] → g.Score > 0) ∧ (query = [] → g.Score = 1))
      (fun l => ∀ g ∈ l, (query ≠ [] → g.Score > 0) ∧ (query = [] → g.Score = 1))
      (fun g hg => absurd hg (List.not_mem_nil g))
      (fun g _ hs hacc h hh => by
        rw [List.mem_singleton.1 hh]
        constructor
        · intro hq
          have h0 := calculateScore_nonneg env.toLower g.Name g.RelativePath query
          rw [← hs] at h0
          exact lt_of_le_of_ne h0 (fun h1 => hacc ⟨hq, h1.symm⟩)
        · intro hq
          rw [hs]
          unfold calculateScore
          rw [if_pos hq])
      (fun a b ha hb g hg => by
        rcases List.mem_append.1 hg with h | h
        · exact ha g h
        · exact hb g h)
      (fun l hl => ⟨fun g hg => hl g ((hsort l).1.subset hg),
        fun g hg => hl g ((hsort l).1.subset hg)⟩) o ho
  exact (hall r hr).1 f hf

/-- Witness of C9: the fuzzy match `foo2.txt` in the final response of the demo run. -/
theorem scanDirectory_scores_witness :
    (ascii "foo." ≠ [] → demoFoo2.Score > 0) ∧ (ascii "foo." = [] → demoFoo2.Score = 1) :=
  scanDirectory_scores demoEnv sortDesc_sortsDescending demoTree (ascii "/proj")
    (ascii "foo.") [] 0 0 1 demoOutcome (by decide!) demoFinal (by decide) demoFoo2 (by decide)

/-- C10: no response handed out by `scanDirectory` holds a file lying below a directory, at any
depth below the root, whose base name is in the built-in skip set or in `skipDirs`; the
paths of the files of the tree are taken to be distinct, as they are in a file system. -/
theorem scanDirectory_prunes (env : Env) (hsort : SortsDescending env.sortSlice)
    (root : Entry) (projectPath query : Str) (skipDirs : List Str)
    (maxTime maxResults chunkSize : Int)
    (hnodup : ((filesBelow env.join (defaultSkipDirs ++ skipDirs) projectPath false root).map
      Prod.fst).Nodup)
    (o : Outcome)
    (ho : scanDirectory env root projectPath query skipDirs maxTime maxResults chunkSize
      = some o)
    (p : Str)
    (hp : (p, true) ∈ filesBelow env.join (defaultSkipDirs ++ skipDirs) projectPath false root)
    (r : SearchResponse) (hr : r ∈ o.out) (f : FileResult) (hf : f ∈ r.Files) :
    f.Path ≠ p := by
  obtain ⟨init, final, _, _, _, _, hall, _⟩ :=
    scanDirectory_out env root projectPath query skipDirs maxTime maxResults chunkSize
      (fun l => ∀ g ∈ l, (g.Path, false) ∈
        filesBelow env.join (defaultSkipDirs ++ skipDirs) projectPath false root)
      (fun l => ∀ g ∈ l, (g.Path, false) ∈
        filesBelow env.join (defaultSkipDirs ++ skipDirs) projectPath false root)
      (fun g hg => absurd hg (List.not_mem_nil g))
      (fun g hg _ _ h hh => by
        rw [List.mem_singleton.1 hh]
        exact hg)
      (fun a b ha hb g hg => by
        rcases List.mem_append.1 hg with h | h
        · exact ha g h
        · exact hb g h)
      (fun l hl => ⟨fun g hg => hl g ((hsort l).1.subset hg),
        fun g hg => hl g ((hsort l).1.subset hg)⟩) o ho
  intro heq
  have hfalse := (hall r hr).1 f hf
  rw [heq] at hfalse
  have := List.inj_on_of_nodup_map hnodup hp hfalse rfl
  simp at this

/-- Witness of C10: `.git/secret.txt` is not the file `foo.txt` of the final response of the demo
run. -/
theorem scanDirectory_prunes_witness :
    (ascii "/proj/.git/secret.txt", true)
        ∈ filesBelow demoEnv.join (defaultSkipDirs ++ []) (ascii "/proj") false demoTree ∧
      demoFoo.Path ≠ ascii "/proj/.git/secret.txt" :=
  ⟨by decide,
    scanDirectory_prunes demoEnv sortDesc_sortsDescending demoTree (ascii "/proj")
      (ascii "foo.") [] 0 0 1 (by decide) demoOutcome (by decide!)
      (ascii "/proj/.git/secret.txt") (by decide) demoFinal (by decide) demoFoo (by decide)⟩

/-! ### The callback, step by step -/

/-- The callback as one case distinction: an entry with an error is passed over; then the
time budget and the result cap are checked; a directory is skipped or entered; a file that
fails `eligibleFile` is passed over; an accepted file joins the chunk, and when the chunk has
reached `chunkSize` the sorted accumulation is sent and, if the write succeeds, the chunk is
emptied. -/
theorem walkFn_eq (env : Env) (cfg : Config) (p n : Str) (d err : Bool) (st : ScanState) :
    walkFn env cfg p n d err st =
      if err = true then (st, none)
      else if env.elapsed st.clockReads > cfg.maxDuration then
        ({ st with clockReads := st.clockReads + 1 }, some (.error "search timeout exceeded"))
      else if st.totalCount ≥ cfg.maxResults then
        ({ st with clockReads := st.clockReads + 1 }, some (.error "max results reached"))
      else if d = true then
        ({ st with clockReads := st.clockReads + 1 },
          if n ∈ cfg.skipSet then some .skipDir else none)
      else if eligibleFile env cfg p n = false then
        ({ st with clockReads := st.clockReads + 1 }, none)
      else if ((st.currentChunk ++ [fileResultOf env cfg p n]).length : Int) < cfg.chunkSize then
        ({ st with currentChunk := st.currentChunk ++ [fileResultOf env cfg p n],
                   totalCount := st.totalCount + 1, clockReads := st.clockReads + 1 }, none)
      else
        ({ allFiles :=
             env.sortSlice (st.allFiles ++ (st.currentChunk ++ [fileResultOf env cfg p n])),
           currentChunk :=
             if env.sink st.out.length = none then []
             else st.currentChunk ++ [fileResultOf env cfg p n],
           totalCount := st.totalCount + 1,
           clockReads := st.clockReads + 1,
           out := st.out ++
             [{ Files := env.sortSlice
                  (st.allFiles ++ (st.currentChunk ++ [fileResultOf env cfg p n])),
                Count := (env.sortSlice
                  (st.allFiles ++ (st.currentChunk ++ [fileResultOf env cfg p n]))).length,
                Partial := true, Complete := false, Error := "" }] },
          (env.sink st.out.length).map WalkErr.error) := by
  unfold walkFn
  cases err with
  | true => simp
  | false =>
  simp only [Bool.false_eq_true, if_false]
  split
  · rfl
  split
  · rfl
  cases d with
  | true =>
    rw [if_pos rfl, if_pos rfl]
    split <;> rfl
  | false =>
  simp only [Bool.false_eq_true, if_false]
  by_cases h1 : hasPrefix n (ascii ".") = true
  · have hel : eligibleFile env cfg p n = false := by simp [eligibleFile, h1]
    rw [if_pos h1, if_pos hel]
  rw [if_neg h1]
  by_cases h2 : env.toLower (filepathExt p) ∈ skipExtensions
  · have hel : eligibleFile env cfg p n = false := by simp [eligibleFile, h2]
    rw [if_pos h2, if_pos hel]
  rw [if_neg h2]
  by_cases h3 : cfg.query ≠ [] ∧ (fileResultOf env cfg p n).Score = 0
  · have hel : eligibleFile env cfg p n = false := by simp [eligibleFile, h3]
    rw [if_pos hel]
    unfold fileResultOf at h3
    rw [if_pos h3]
  have hel : ¬ eligibleFile env cfg p n = false := by
    have h1b : hasPrefix n (ascii ".") = false := by simpa using h1
    simp only [eligibleFile, h1b, h2, h3]
    simp
  rw [if_neg hel]
  unfold fileResultOf at h3 ⊢
  rw [if_neg h3]
  split
  · rename_i hfull
    rw [if_neg (not_lt.2 hfull)]
    unfold outputJSON
    cases hsink : env.sink st.out.length with
    | none => simp
    | some e => simp
  · rename_i hfull
    rw [if_pos (not_le.1 hfull)]

/-! ### Claims on limits, defaults and bounds -/

/-- C17: a scan with `maxTime = 0` leaves the same responses (and returns the same error) as
one with `maxTime = 10`, one with `maxResults = 0` the same as one with `maxResults = 1000`,
and one with `chunkSize = 0` the same as one with `chunkSize = 200`, the tree, the other
parameters, the clock readings and the output stream being the same. -/
theorem scanDirectory_defaults (env : Env) (root : Entry) (projectPath query : Str)
    (skipDirs : List Str) (maxTime maxResults chunkSize : Int) :
    scanDirectory env root projectPath query skipDirs 0 maxResults chunkSize
      = scanDirectory env root projectPath query skipDirs 10 maxResults chunkSize ∧
    scanDirectory env root projectPath query skipDirs maxTime 0 chunkSize
      = scanDirectory env root projectPath query skipDirs maxTime 1000 chunkSize ∧
    scanDirectory env root projectPath query skipDirs maxTime maxResults 0
      = scanDirectory env root projectPath query skipDirs maxTime maxResults 200 := by
  refine ⟨?_, ?_, ?_⟩ <;> simp [scanDirectory, scanConfig]

/-- Every match adds at least `2`, so a full match of `m` bytes adds at least `2 * m`. -/
theorem runScore_ge (text pattern : Str) (c : Nat) (hsub : pattern.Sublist text) :
    2 * pattern.length ≤ runScore text pattern c := by
  induction text generalizing pattern c with
  | nil =>
    cases pattern with
    | nil => simp [runScore]
    | cons p ps => exact absurd hsub (by simp)
  | cons t ts ih =>
    cases pattern with
    | nil => simp [runScore]
    | cons p ps =>
      unfold runScore
      split
      · rename_i heq
        subst heq
        have h := ih ps (c + 1) (List.cons_sublist_cons.1 hsub)
        simp only [List.length_cons]
        omega
      · rename_i hne
        have hs : (p :: ps).Sublist ts := by
          cases hsub with
          | cons _ h => exact h
          | cons₂ _ h => exact absurd rfl hne
        exact ih (p :: ps) 0 hs

/-- C19: for a text of `n` bytes and a non-empty pattern of `m` bytes that is a subsequence of
the text, `2 * m + 100 + max(0, 50 - n) ≤ calculateFuzzyScore text pattern
≤ m * (m + 1) + 100 + max(0, 50 - n)`; hence a non-zero result of `calculateScore` for a
non-empty query to which none of rules 1-6 applies is at least `302`. -/
theorem calculateFuzzyScore_bounds (text pattern : Str) (hne : pattern ≠ [])
    (hsub : pattern.Sublist text)
    (toLower : Str → Str) (fileName relativePath query : Str) (hq : query ≠ [])
    (hname : ¬ toLower query <:+: toLower fileName)
    (hpath : ¬ toLower query <:+: toLower relativePath)
    (hnz : calculateScore toLower fileName relativePath query ≠ 0) :
    ((2 * pattern.length : Nat) : ℚ) + 100 + ((Max.max 0 (50 - (text.length : Int)) : Int) : ℚ)
        ≤ calculateFuzzyScore text pattern ∧
    calculateFuzzyScore text pattern
        ≤ ((pattern.length * (pattern.length + 1) : Nat) : ℚ) + 100
          + ((Max.max 0 (50 - (text.length : Int)) : Int) : ℚ) ∧
    302 ≤ calculateScore toLower fileName relativePath query := by
  have hlow : ∀ t p : Str, p ≠ [] → p.Sublist t → (102 : ℚ) ≤ calculateFuzzyScore t p := by
    intro t p hp hs
    rw [calculateFuzzyScore_of_sublist t p hp hs]
    have h1 : (2 : ℚ) ≤ (runScore t p 0 : ℚ) := by
      have := runScore_ge t p 0 hs
      have hl : 1 ≤ p.length := List.length_pos.2 hp
      exact_mod_cast (by omega : 2 ≤ runScore t p 0)
    have h2 : (0 : ℚ) ≤ ((Max.max 0 (50 - (t.length : Int)) : Int) : ℚ) := by
      exact_mod_cast le_max_left (0 : Int) _
    linarith
  refine ⟨?_, ?_, ?_⟩
  · rw [calculateFuzzyScore_of_sublist text pattern hne hsub]
    have h := runScore_ge text pattern 0 hsub
    have hq1 : ((2 * pattern.length : Nat) : ℚ) ≤ (runScore text pattern 0 : ℚ) := by
      exact_mod_cast h
    linarith
  · rw [calculateFuzzyScore_of_sublist text pattern hne hsub]
    have h := runScore_le text pattern 0
    have hq1 : (runScore text pattern 0 : ℚ)
        ≤ ((pattern.length * (pattern.length + 1) : Nat) : ℚ) := by
      exact_mod_cast (by omega : runScore text pattern 0
        ≤ pattern.length * (pattern.length + 1))
    linarith
  · have h1 : toLower fileName ≠ toLower query := fun h => hname (h ▸ List.infix_refl _)
    have h2 : toLower relativePath ≠ toLower query := fun h => hpath (h ▸ List.infix_refl _)
    have h3 : ¬ hasPrefix (toLower fileName) (toLower query) = true :=
      fun h => hname ((hasPrefix_iff _ _).1 h).isInfix
    have h4 : ¬ hasPrefix (toLower relativePath) (toLower query) = true :=
      fun h => hpath ((hasPrefix_iff _ _).1 h).isInfix
    have h5 : ¬ contains (toLower fileName) (toLower query) = true :=
      fun h => hname ((contains_iff _ _).1 h)
    have h6 : ¬ contains (toLower relativePath) (toLower query) = true :=
      fun h => hpath ((contains_iff _ _).1 h)
    unfold calculateScore at hnz ⊢
    rw [if_neg hq, if_neg h1, if_neg h2, if_neg h3, if_neg h4, if_neg h5, if_neg h6] at hnz ⊢
    simp only [] at hnz ⊢
    split
    · rename_i hpos
      have := (calculateFuzzyScore_pos_iff _ _).1 hpos
      have := hlow _ _ this.1 this.2
      linarith
    · rename_i hnpos
      rw [if_neg hnpos] at hnz
      split
      · rename_i hpos
        have := (calculateFuzzyScore_pos_iff _ _).1 hpos
        have := hlow _ _ this.1 this.2
        linarith
      · rename_i hnpos2
        rw [if_neg hnpos2] at hnz
        exact absurd rfl hnz

/-- Witness of C19: the name `foo2.txt` and the query `foo.`, a fuzzy match that scores
`456`. -/
theorem calculateFuzzyScore_bounds_witness :
    ((2 * (ascii "foo.").length : Nat) : ℚ) + 100
        + ((Max.max 0 (50 - ((ascii "foo2.txt").length : Int)) : Int) : ℚ)
        ≤ calculateFuzzyScore (ascii "foo2.txt") (ascii "foo.") ∧
    calculateFuzzyScore (ascii "foo2.txt") (ascii "foo.")
        ≤ (((ascii "foo.").length * ((ascii "foo.").length + 1) : Nat) : ℚ) + 100
          + ((Max.max 0 (50 - ((ascii "foo2.txt").length : Int)) : Int) : ℚ) ∧
    302 ≤ calculateScore asciiToLower (ascii "foo2.txt") (ascii "bar/foo2.txt") (ascii "foo.") :=
  calculateFuzzyScore_bounds (ascii "foo2.txt") (ascii "foo.") (by decide) (by decide)
    asciiToLower (ascii "foo2.txt") (ascii "bar/foo2.txt") (ascii "foo.") (by decide)
    (by decide) (by decide) (by decide!)

/-- C16 fails on the code for a negative `chunkSize`: `make([]FileResult, 0, chunkSize)` panics
before the walk starts, so no response at all is written (here `chunkSize = -1`). -/
theorem scanDirectory_panics_on_negative_chunkSize :
    scanDirectory demoEnv demoTree (ascii "/proj") (ascii "foo") [] 0 0 (-1) = none := by
  decide

/-- Away from the panic of `make` the limits are taken as they come: for
`0 ≤ chunkSize ≤ maxCap` and any `maxTime` and `maxResults`, negative ones included,
`scanDirectory` returns and its responses are partial ones followed by exactly one final
response with `complete = true`. -/
theorem scanDirectory_returns (env : Env) (root : Entry) (projectPath query : Str)
    (skipDirs : List Str) (maxTime maxResults chunkSize : Int) (hchunk : 0 ≤ chunkSize)
    (hmake : chunkSize ≤ maxCap) :
    ∃ (o : Outcome) (init : List SearchResponse) (final : SearchResponse),
      scanDirectory env root projectPath query skipDirs maxTime maxResults chunkSize = some o ∧
      o.out = init ++ [final] ∧ final.Complete = true ∧ final.Partial = false ∧
      ∀ r ∈ init, r.Partial = true ∧ r.Complete = false := by
  have hsome : ∃ o, scanDirectory env root projectPath query skipDirs maxTime maxResults
      chunkSize = some o := by
    unfold scanDirectory
    simp only []
    rw [if_neg (scanConfig_not_makePanics projectPath query skipDirs maxTime maxResults
      chunkSize hchunk hmake)]
    exact ⟨_, rfl⟩
  obtain ⟨o, ho⟩ := hsome
  obtain ⟨init, final, hout, hc, hp, hinit, _, _⟩ :=
    scanDirectory_out env root projectPath query skipDirs maxTime maxResults chunkSize
      (fun _ => True) (fun _ => True) trivial
      (fun _ _ _ _ => trivial) (fun _ _ _ _ => trivial)
      (fun _ _ => ⟨trivial, trivial⟩) o ho
  exact ⟨o, init, final, ho, hout, hc, hp, fun r hr => ⟨(hinit r hr).1, (hinit r hr).2.1⟩⟩

/-! ### The skip rule at the root -/

/-- C20, as stated, fails: the checks of the time budget and of the result cap come before the
skip test, so for a project directory named `build` and `maxResults = -1` the single final
response carries the error `max results reached`. -/
theorem skipped_root_reports_cap :
    scanDirectory demoEnv buildTree (ascii "/work/build") [] [] 0 (-1) 0
      = some
        { out := [{ Files := [], Count := 0, Partial := false, Complete := true,
                    Error := "max results reached" }],
          err := none } := by
  decide

/-- C20, amended: when the project directory's own base name is in the skip set (built-in or
`skipDirs`), `maxResults` is not negative, `chunkSize` is between `0` and `maxCap` (so `make`
does not panic) and the time budget is not exceeded at the first reading of the clock,
`scanDirectory` hands out a single response, the final one, with no files, count `0`,
`complete = true` and no error, whatever the directory holds. -/
theorem scanDirectory_skipped_root (env : Env) (hsort : SortsDescending env.sortSlice)
    (name : Str) (readErr : Bool) (children : List Entry) (projectPath query : Str)
    (skipDirs : List Str) (maxTime maxResults chunkSize : Int)
    (hname : name ∈ defaultSkipDirs ++ skipDirs) (hres : 0 ≤ maxResults)
    (hchunk : 0 ≤ chunkSize) (hmake : chunkSize ≤ maxCap)
    (htime : env.elapsed 0
      ≤ (scanConfig projectPath query skipDirs maxTime maxResults chunkSize).maxDuration) :
    scanDirectory env (.dir name readErr children) projectPath query skipDirs maxTime
        maxResults chunkSize
      = some
        { out := [{ Files := [], Count := 0, Partial := false, Complete := true, Error := "" }],
          err := env.sink 0 } := by
  have hnil : env.sortSlice [] = [] := List.Perm.eq_nil (hsort []).1
  generalize hcfg : scanConfig projectPath query skipDirs maxTime maxResults chunkSize = cfg
    at htime
  have hsk : name ∈ cfg.skipSet := by rw [← hcfg]; exact hname
  have hmr : ¬ (0 : Int) ≥ cfg.maxResults := by
    rw [← hcfg]
    unfold scanConfig
    simp only []
    split <;> omega
  have hcs : ¬ makePanics cfg.chunkSize := by
    rw [← hcfg]
    exact scanConfig_not_makePanics projectPath query skipDirs maxTime maxResults chunkSize
      hchunk hmake
  unfold scanDirectory
  simp only []
  rw [hcfg, if_neg hcs]
  have hw : (filepathWalk env cfg (.dir name readErr children) initState).2 = none ∧
      (filepathWalk env cfg (.dir name readErr children) initState).1.allFiles = [] ∧
      (filepathWalk env cfg (.dir name readErr children) initState).1.currentChunk = [] ∧
      (filepathWalk env cfg (.dir name readErr children) initState).1.out = [] := by
    unfold filepathWalk
    rw [walk]
    rw [walkFn_eq]
    cases readErr with
    | true => simp [initState]
    | false =>
      simp only [Bool.false_eq_true, if_false, initState]
      rw [if_neg (not_lt.2 htime), if_neg hmr]
      simp [hsk]
  obtain ⟨h1, h2, h3, h4⟩ := hw
  simp [finishScan, outputJSON, h1, h2, h3, h4, hnil]

/-- Witness of the amended C20: a project directory named `build` with default limits. -/
theorem scanDirectory_skipped_root_witness :
    scanDirectory demoEnv buildTree (ascii "/work/build") [] [] 0 0 0
      = some
        { out := [{ Files := [], Count := 0, Partial := false, Complete := true, Error := "" }],
          err := demoEnv.sink 0 } :=
  scanDirectory_skipped_root demoEnv sortDesc_sortsDescending (ascii "build") false
    [.file (ascii "a.txt")] (ascii "/work/build") [] [] 0 0 0 (by decide) (by decide)
    (by decide) (by decide) (by decide)

/-! ### Files are filtered before they are scored -/

/-- The callback keeps: every file held or sent so far passed `eligibleFile` and is the
result `fileResultOf` builds for its path and name. -/
theorem walkFn_keeps_eligible (env : Env) (hsort : SortsDescending env.sortSlice)
    (cfg : Config) (p n : Str) (d err : Bool) (st : ScanState)
    (hinv : (∀ f ∈ st.allFiles, eligibleFile env cfg f.Path f.Name = true ∧
        f = fileResultOf env cfg f.Path f.Name) ∧
      (∀ f ∈ st.currentChunk, eligibleFile env cfg f.Path f.Name = true ∧
        f = fileResultOf env cfg f.Path f.Name) ∧
      ∀ r ∈ st.out, ∀ f ∈ r.Files, eligibleFile env cfg f.Path f.Name = true ∧
        f = fileResultOf env cfg f.Path f.Name) :
    (∀ f ∈ (walkFn env cfg p n d err st).1.allFiles,
        eligibleFile env cfg f.Path f.Name = true ∧ f = fileResultOf env cfg f.Path f.Name) ∧
      (∀ f ∈ (walkFn env cfg p n d err st).1.currentChunk,
        eligibleFile env cfg f.Path f.Name = true ∧ f = fileResultOf env cfg f.Path f.Name) ∧
      ∀ r ∈ (walkFn env cfg p n d err st).1.out, ∀ f ∈ r.Files,
        eligibleFile env cfg f.Path f.Name = true ∧ f = fileResultOf env cfg f.Path f.Name := by
  obtain ⟨hall, hchunk, hout⟩ := hinv
  rw [walkFn_eq]
  split
  · exact ⟨hall, hchunk, hout⟩
  split
  · exact ⟨hall, hchunk, hout⟩
  split
  · exact ⟨hall, hchunk, hout⟩
  split
  · exact ⟨hall, hchunk, hout⟩
  split
  · exact ⟨hall, hchunk, hout⟩
  rename_i hel
  have hnew : ∀ f ∈ st.currentChunk ++ [fileResultOf env cfg p n],
      eligibleFile env cfg f.Path f.Name = true ∧ f = fileResultOf env cfg f.Path f.Name := by
    intro f hf
    rcases List.mem_append.1 hf with h | h
    · exact hchunk f h
    · rw [List.mem_singleton.1 h]
      exact ⟨by simpa [fileResultOf] using hel, rfl⟩
  split
  · exact ⟨hall, hnew, hout⟩
  · have hsorted : ∀ f ∈ env.sortSlice
        (st.allFiles ++ (st.currentChunk ++ [fileResultOf env cfg p n])),
        eligibleFile env cfg f.Path f.Name = true ∧ f = fileResultOf env cfg f.Path f.Name := by
      intro f hf
      rcases List.mem_append.1 ((hsort _).1.subset hf) with h | h
      · exact hall f h
      · exact hnew f h
    refine ⟨hsorted, ?_, ?_⟩
    · simp only []
      split
      · intro f hf
        exact absurd hf (List.not_mem_nil f)
      · exact hnew
    · intro r hr
      rcases List.mem_append.1 hr with h | h
      · exact hout r h
      · rw [List.mem_singleton.1 h]
        exact hsorted

/-- Every file of every response of `scanDirectory` passed the tests of the callback and is the
result built for its path and name. -/
theorem scanDirectory_files_eligible (env : Env) (hsort : SortsDescending env.sortSlice)
    (root : Entry) (projectPath query : Str) (skipDirs : List Str)
    (maxTime maxResults chunkSize : Int) (o : Outcome)
    (ho : scanDirectory env root projectPath query skipDirs maxTime maxResults chunkSize
      = some o)
    (r : SearchResponse) (hr : r ∈ o.out) (f : FileResult) (hf : f ∈ r.Files) :
    eligibleFile env (scanConfig projectPath query skipDirs maxTime maxResults chunkSize)
        f.Path f.Name = true ∧
      f = fileResultOf env (scanConfig projectPath query skipDirs maxTime maxResults chunkSize)
        f.Path f.Name := by
  unfold scanDirectory at ho
  simp only [] at ho
  split at ho
  · exact absurd ho (by simp)
  · simp only [Option.some.injEq] at ho
    subst ho
    generalize scanConfig projectPath query skipDirs maxTime maxResults chunkSize = cfg at hr ⊢
    have hwalk := walk_inv env cfg
      (fun st => (∀ f ∈ st.allFiles, eligibleFile env cfg f.Path f.Name = true ∧
          f = fileResultOf env cfg f.Path f.Name) ∧
        (∀ f ∈ st.currentChunk, eligibleFile env cfg f.Path f.Name = true ∧
          f = fileResultOf env cfg f.Path f.Name) ∧
        ∀ r ∈ st.out, ∀ f ∈ r.Files, eligibleFile env cfg f.Path f.Name = true ∧
          f = fileResultOf env cfg f.Path f.Name)
      (fun _ => True)
      (fun p n d err st _ hi => walkFn_keeps_eligible env hsort cfg p n d err st hi)
      root cfg.projectPath initState (fun _ _ => trivial)
      ⟨by simp [initState], by simp [initState], by simp [initState]⟩
    unfold filepathWalk at hr
    generalize walk env cfg cfg.projectPath root initState = res at hwalk hr
    obtain ⟨st, werr⟩ := res
    obtain ⟨hall, hchunk, hout⟩ := hwalk
    simp only at hall hchunk hout
    have hmem : ∀ e : Option String, r ∈ (finishScan env st e).out →
        eligibleFile env cfg f.Path f.Name = true ∧ f = fileResultOf env cfg f.Path f.Name := by
      intro e hre
      simp only [finishScan, outputJSON] at hre
      rcases List.mem_append.1 hre with h | h
      · exact hout r h f hf
      · rw [List.mem_singleton.1 h] at hf
        simp only at hf
        have hf2 := (hsort _).1.subset hf
        split at hf2
        · rcases List.mem_append.1 hf2 with h' | h'
          · exact hall f h'
          · exact hchunk f h'
        · exact hall f hf2
    rcases werr with _ | werr
    · exact hmem none hr
    · cases werr with
      | skipDir => exact hmem none hr
      | error msg => exact hmem (some msg) hr

/-- C11: no response of `scanDirectory`, for any tree and any query, holds a file whose base
name starts with `.` or whose extension, lower-cased, is one of the extensions left out
(`.exe`, `.dll`, `.so`, `.dylib`, `.png`, `.jpg`, `.jpeg`, `.gif`, `.pdf`, `.zip`, `.tar`,
`.gz`, `.mp4`, `.avi`, `.mov`, `.mp3`, `.obj`, `.bin`, `.out`, `.a`). -/
theorem scanDirectory_excludes (env : Env) (hsort : SortsDescending env.sortSlice)
    (root : Entry) (projectPath query : Str) (skipDirs : List Str)
    (maxTime maxResults chunkSize : Int) (o : Outcome)
    (ho : scanDirectory env root projectPath query skipDirs maxTime maxResults chunkSize
      = some o)
    (r : SearchResponse) (hr : r ∈ o.out) (f : FileResult) (hf : f ∈ r.Files) :
    hasPrefix f.Name (ascii ".") = false ∧
      env.toLower (filepathExt f.Path) ∉
        [ascii ".exe", ascii ".dll", ascii ".so", ascii ".dylib", ascii ".png", ascii ".jpg",
         ascii ".jpeg", ascii ".gif", ascii ".pdf", ascii ".zip", ascii ".tar", ascii ".gz",
         ascii ".mp4", ascii ".avi", ascii ".mov", ascii ".mp3", ascii ".obj", ascii ".bin",
         ascii ".out", ascii ".a"] := by
  have h := (scanDirectory_files_eligible env hsort root projectPath query skipDirs maxTime
    maxResults chunkSize o ho r hr f hf).1
  unfold eligibleFile at h
  simp only [Bool.and_eq_true, Bool.not_eq_true', decide_eq_false_iff_not] at h
  exact ⟨h.1.1, h.1.2⟩

/-- Witness of C11: a root holding only `a.bin` and `a.txt`, empty query; the only response is
the final one and holds only `a.txt`, with score `1.0`. -/
theorem scanDirectory_excludes_witness :
    scanDirectory demoEnv binTxtTree (ascii "/proj") [] [] 0 0 0
        = some { out := [binTxtFinal], err := none } ∧
      binTxtFinal.Files = [oneFile] ∧ oneFile.Score = 1 ∧
      hasPrefix oneFile.Name (ascii ".") = false ∧
      demoEnv.toLower (filepathExt oneFile.Path) ∉
        [ascii ".exe", ascii ".dll", ascii ".so", ascii ".dylib", ascii ".png", ascii ".jpg",
         ascii ".jpeg", ascii ".gif", ascii ".pdf", ascii ".zip", ascii ".tar", ascii ".gz",
         ascii ".mp4", ascii ".avi", ascii ".mov", ascii ".mp3", ascii ".obj", ascii ".bin",
         ascii ".out", ascii ".a"] :=
  ⟨by decide!, rfl, rfl,
    scanDirectory_excludes demoEnv sortDesc_sortsDescending binTxtTree (ascii "/proj") [] [] 0 0
      0 { out := [binTxtFinal], err := none } (by decide!) binTxtFinal (by decide) oneFile
      (by decide)⟩

/-! ### The walk accepts a prefix of the eligible files -/

theorem walkFn_file_ne_skipDir (env : Env) (cfg : Config) (p n : Str) (err : Bool)
    (st : ScanState) : (walkFn env cfg p n false err st).2 ≠ some .skipDir := by
  rw [walkFn_eq]
  split
  · simp
  split
  · simp
  split
  · simp
  rw [if_neg (by simp)]
  split
  · simp
  split
  · simp
  · cases env.sink st.out.length <;> simp

theorem walkFn_dir_skipDir (env : Env) (cfg : Config) (p n : Str) (err : Bool)
    (st : ScanState) (h : (walkFn env cfg p n true err st).2 = some .skipDir) :
    n ∈ cfg.skipSet := by
  rw [walkFn_eq] at h
  split at h
  · simp at h
  split at h
  · simp at h
  split at h
  · simp at h
  rw [if_pos rfl] at h
  by_contra hn
  simp [hn] at h

theorem advances_stop (T : ScanState → List FileResult → Prop)
    (Stop : ScanState → String → Prop) (A L1 L2 : List FileResult)
    (res : ScanState × Option WalkErr) (h : Advances T Stop A L1 res)
    (herr : ∃ msg, res.2 = some (.error msg)) : Advances T Stop A (L1 ++ L2) res := by
  obtain ⟨k, hk, hT, _, hstop⟩ := h
  obtain ⟨msg, hmsg⟩ := herr
  refine ⟨k, ?_, ?_, ?_, hstop⟩
  · rw [List.length_append]
    omega
  · rw [List.take_append_of_le_length hk]
    exact hT
  · intro hc
    rw [hmsg] at hc
    rcases hc with hc | hc <;> simp at hc

theorem advances_seq (T : ScanState → List FileResult → Prop)
    (Stop : ScanState → String → Prop) (A L1 L2 : List FileResult)
    (res : ScanState × Option WalkErr)
    (h : Advances T Stop (A ++ L1) L2 res) : Advances T Stop A (L1 ++ L2) res := by
  obtain ⟨k, hk, hT, hcont, hstop⟩ := h
  refine ⟨L1.length + k, ?_, ?_, ?_, hstop⟩
  · rw [List.length_append]
    omega
  · rw [List.take_append, ← List.append_assoc]
    exact hT
  · intro hc
    rw [List.length_append, hcont hc]

mutual
/-- The walk of a tree accepts a prefix of its eligible files.  `T` and `Stop` are any
relations that the callback respects (`hdir`, `hfile`). -/
theorem walk_advances (env : Env) (cfg : Config) (T : ScanState → List FileResult → Prop)
    (Stop : ScanState → String → Prop)
    (hdir : ∀ p n err st A, T st A → T (walkFn env cfg p n true err st).1 A ∧
      ∀ msg, (walkFn env cfg p n true err st).2 = some (.error msg) →
        Stop (walkFn env cfg p n true err st).1 msg)
    (hfile : ∀ p n st A, T st A →
      Advances T Stop A (eligible env cfg p (.file n)) (walkFn env cfg p n false false st)) :
    ∀ (e : Entry) (path : Str) (st : ScanState) (A : List FileResult), T st A →
      Advances T Stop A (eligible env cfg path e) (walk env cfg path e st) ∧
        ((walk env cfg path e st).2 = some .skipDir → e.isDir = true)
  | .file name, path, st, A, hT => by
    rw [walk]
    exact ⟨hfile path name st A hT,
      fun h => absurd h (walkFn_file_ne_skipDir env cfg path name false st)⟩
  | .lstatErr name, path, st, A, hT => by
    rw [walk]
    refine ⟨?_, fun h => absurd h (walkFn_file_ne_skipDir env cfg path name true st)⟩
    rw [walkFn_eq, if_pos rfl]
    exact ⟨0, by simp [eligible], by simpa using hT, by simp [eligible], by simp⟩
  | .dir name readErr children, path, st, A, hT => by
    rw [walk]
    refine ⟨?_, fun _ => rfl⟩
    have h1 := hdir path name readErr st A hT
    split
    · rename_i hstop
      refine ⟨0, Nat.zero_le _, by simpa using h1.1, ?_, h1.2⟩
      intro hc
      have hnil : eligible env cfg path (.dir name readErr children) = [] := by
        rw [eligible]
        apply if_pos
        rcases hstop with hr | hr
        · exact Or.inl hr
        · rcases hc with hc | hc
          · exact absurd hc hr
          · exact Or.inr (walkFn_dir_skipDir env cfg path name readErr st hc)
      rw [hnil]
      rfl
    · rename_i hgo
      have hr : readErr = false := by
        cases readErr with
        | true => exact absurd (Or.inl rfl) hgo
        | false => rfl
      have hnone : (walkFn env cfg path name true readErr st).2 = none := by
        by_contra hcon
        exact hgo (Or.inr hcon)
      have hns : name ∉ cfg.skipSet := by
        intro hs
        rw [hr] at hnone
        exact walkFn_skip_dir env cfg path name st hs hnone
      have hel : eligible env cfg path (.dir name readErr children)
          = eligibleList env cfg path children := by
        rw [eligible]
        apply if_neg
        rintro (h | h)
        · rw [hr] at h
          exact absurd h (by simp)
        · exact hns h
      rw [hel]
      exact (walkNames_advances env cfg T Stop hdir hfile children path _ A h1.1).1
termination_by structural e => e
/-- The loop over the children of a directory accepts a prefix of their eligible files. -/
theorem walkNames_advances (env : Env) (cfg : Config)
    (T : ScanState → List FileResult → Prop) (Stop : ScanState → String → Prop)
    (hdir : ∀ p n err st A, T st A → T (walkFn env cfg p n true err st).1 A ∧
      ∀ msg, (walkFn env cfg p n true err st).2 = some (.error msg) →
        Stop (walkFn env cfg p n true err st).1 msg)
    (hfile : ∀ p n st A, T st A →
      Advances T Stop A (eligible env cfg p (.file n)) (walkFn env cfg p n false false st)) :
    ∀ (es : List Entry) (path : Str) (st : ScanState) (A : List FileResult), T st A →
      Advances T Stop A (eligibleList env cfg path es) (walkNames env cfg path es st) ∧
        (walkNames env cfg path es st).2 ≠ some .skipDir
  | [], path, st, A, hT => by
    rw [walkNames]
    exact ⟨⟨0, by simp [eligibleList], by simpa using hT, by simp [eligibleList], by simp⟩,
      by simp⟩
  | .lstatErr name :: rest, path, st, A, hT => by
    rw [walkNames]
    have hw : walkFn env cfg (env.join path name) name false true st = (st, none) := by
      rw [walkFn_eq, if_pos rfl]
    simp only [hw]
    rw [if_neg (by simp)]
    have ih := walkNames_advances env cfg T Stop hdir hfile rest path st A hT
    have hel : eligibleList env cfg path (.lstatErr name :: rest)
        = eligibleList env cfg path rest := by
      rw [eligibleList, eligible]
      rfl
    rw [hel]
    exact ih
  | .file name :: rest, path, st, A, hT => by
    rw [walkNames]
    case x_2 => exact fun _ h => Entry.noConfusion h
    have h1 := walk_advances env cfg T Stop hdir hfile (.file name) (env.join path name) st A hT
    simp only [Entry.name] at h1 ⊢
    rw [eligibleList]
    simp only [Entry.name]
    split
    · rename_i hstop
      have hne : (walk env cfg (env.join path name) (.file name) st).2 ≠ some .skipDir := by
        intro h
        have := h1.2 h
        simp [Entry.isDir] at this
      refine ⟨advances_stop T Stop A _ _ _ h1.1 ?_, hne⟩
      cases hres : (walk env cfg (env.join path name) (.file name) st).2 with
      | none => exact absurd hres hstop.1
      | some w =>
        cases w with
        | skipDir => exact absurd hres hne
        | error msg => exact ⟨msg, rfl⟩
    · rename_i hgo
      have hcont : (walk env cfg (env.join path name) (.file name) st).2 = none := by
        by_contra hcon
        exact hgo ⟨hcon, Or.inl rfl⟩
      obtain ⟨k, hk, hT1, hall, _⟩ := h1.1
      have hk2 := hall (Or.inl hcont)
      rw [hk2, List.take_length] at hT1
      have ih := walkNames_advances env cfg T Stop hdir hfile rest path _ _ hT1
      exact ⟨advances_seq T Stop A _ _ _ ih.1, ih.2⟩
  | .dir name readErr children :: rest, path, st, A, hT => by
    rw [walkNames]
    case x_2 => exact fun _ h => Entry.noConfusion h
    have h1 := walk_advances env cfg T Stop hdir hfile (.dir name readErr children)
      (env.join path name) st A hT
    simp only [Entry.name] at h1 ⊢
    rw [eligibleList]
    simp only [Entry.name]
    split
    · rename_i hstop
      have hne : (walk env cfg (env.join path name) (.dir name readErr children) st).2
          ≠ some .skipDir := by
        intro h
        rcases hstop.2 with h2 | h2
        · simp [Entry.isDir] at h2
        · exact h2 h
      refine ⟨advances_stop T Stop A _ _ _ h1.1 ?_, hne⟩
      cases hres : (walk env cfg (env.join path name) (.dir name readErr children) st).2 with
      | none => exact absurd hres hstop.1
      | some w =>
        cases w with
        | skipDir => exact absurd hres hne
        | error msg => exact ⟨msg, rfl⟩
    · rename_i hgo
      have hcont : (walk env cfg (env.join path name) (.dir name readErr children) st).2 = none
          ∨ (walk env cfg (env.join path name) (.dir name readErr children) st).2
            = some .skipDir := by
        by_contra hcon
        apply hgo
        constructor
        · exact fun h => hcon (Or.inl h)
        · exact Or.inr (fun h => hcon (Or.inr h))
      obtain ⟨k, hk, hT1, hall, _⟩ := h1.1
      have hk2 := hall hcont
      rw [hk2, List.take_length] at hT1
      have ih := walkNames_advances env cfg T Stop hdir hfile rest path _ _ hT1
      exact ⟨advances_seq T Stop A _ _ _ ih.1, ih.2⟩
termination_by structural es => es
end

/-! ### A scan that nothing stops -/

/-- When the time budget is never exceeded, the tree has fewer eligible files than the result
cap and than the chunk size, and the chunk size is within the allocation limit of `make`,
`scanDirectory` hands out exactly one response, the final one, holding the eligible files of
the tree, sorted, with no error. -/
theorem scanDirectory_small (env : Env) (root : Entry) (projectPath query : Str)
    (skipDirs : List Str) (maxTime maxResults chunkSize : Int)
    (hclock : ∀ j, env.elapsed j
      ≤ (scanConfig projectPath query skipDirs maxTime maxResults chunkSize).maxDuration)
    (hcap : ((eligible env (scanConfig projectPath query skipDirs maxTime maxResults chunkSize)
        projectPath root).length : Int)
      < (scanConfig projectPath query skipDirs maxTime maxResults chunkSize).maxResults)
    (hchunk : ((eligible env
        (scanConfig projectPath query skipDirs maxTime maxResults chunkSize)
        projectPath root).length : Int)
      < (scanConfig projectPath query skipDirs maxTime maxResults chunkSize).chunkSize)
    (hmake : (scanConfig projectPath query skipDirs maxTime maxResults chunkSize).chunkSize
      ≤ maxCap) :
    scanDirectory env root projectPath query skipDirs maxTime maxResults chunkSize
      = some
        { out := [{ Files := env.sortSlice (eligible env
                      (scanConfig projectPath query skipDirs maxTime maxResults chunkSize)
                      projectPath root),
                    Count := (env.sortSlice (eligible env
                      (scanConfig projectPath query skipDirs maxTime maxResults chunkSize)
                      projectPath root)).length,
                    Partial := false, Complete := true, Error := "" }],
          err := env.sink 0 } := by
  have hpp : (scanConfig projectPath query skipDirs maxTime maxResults chunkSize).projectPath
      = projectPath := rfl
  unfold scanDirectory
  simp only []
  generalize scanConfig projectPath query skipDirs maxTime maxResults chunkSize = cfg
    at hclock hcap hchunk hmake hpp ⊢
  rw [← hpp] at hcap hchunk ⊢
  generalize hE : eligible env cfg cfg.projectPath root = E at hcap hchunk ⊢
  have hcs : ¬ makePanics cfg.chunkSize := by
    rw [makePanics_iff]
    omega
  rw [if_neg hcs]
  have hadv := (walk_advances env cfg
    (fun st A => st.totalCount = (A.length : Int) ∧
      ((A.length : Int) < cfg.chunkSize →
        st.allFiles = [] ∧ st.out = [] ∧ st.currentChunk = A))
    (fun st _ => st.totalCount ≥ cfg.maxResults ∨ (∃ j, env.elapsed j > cfg.maxDuration) ∨
      st.totalCount ≥ cfg.chunkSize)
    (by
      intro p n err st A hT
      rw [walkFn_eq]
      split
      · exact ⟨hT, by simp⟩
      split
      · rename_i ht
        exact ⟨hT, fun _ _ => Or.inr (Or.inl ⟨_, ht⟩)⟩
      split
      · rename_i hc
        exact ⟨hT, fun _ _ => Or.inl hc⟩
      rw [if_pos rfl]
      refine ⟨hT, ?_⟩
      intro msg hmsg
      simp only at hmsg
      split at hmsg <;> simp at hmsg)
    (by
      intro p n st A hT
      rw [walkFn_eq, if_neg (by simp)]
      split
      · rename_i ht
        exact ⟨0, Nat.zero_le _, by simpa using hT, by simp,
          fun _ _ => Or.inr (Or.inl ⟨_, ht⟩)⟩
      split
      · rename_i hc
        exact ⟨0, Nat.zero_le _, by simpa using hT, by simp, fun _ _ => Or.inl hc⟩
      rw [if_neg (by simp)]
      split
      · rename_i hel
        refine ⟨0, Nat.zero_le _, by simpa using hT, ?_, by simp⟩
        intro _
        rw [eligible, hel]
        rfl
      rename_i hel
      have hel2 : eligibleFile env cfg p n = true := by simpa using hel
      have hL : eligible env cfg p (.file n) = [fileResultOf env cfg p n] := by
        rw [eligible, hel2]
        rfl
      rw [hL]
      obtain ⟨hcount, hsmall⟩ := hT
      split
      · refine ⟨1, le_refl _, ⟨?_, ?_⟩, by simp, by simp⟩
        · simp only [List.take_one, List.head?_cons, Option.toList_some, List.length_append,
            List.length_singleton]
          rw [hcount]
          push_cast
          ring
        · intro hlt
          simp only [List.take_one, List.head?_cons, Option.toList_some, List.length_append,
            List.length_singleton] at hlt ⊢
          push_cast at hlt
          obtain ⟨h1, h2, h3⟩ := hsmall (by omega)
          exact ⟨h1, h2, by rw [h3]⟩
      · rename_i hfull
        have hge : ((A.length : Int) + 1) ≥ cfg.chunkSize := by
          by_contra hcon
          obtain ⟨_, _, h3⟩ := hsmall (by omega)
          rw [h3] at hfull
          apply hfull
          simp only [List.length_append, List.length_singleton]
          push_cast
          omega
        refine ⟨1, le_refl _, ⟨?_, ?_⟩, by simp, ?_⟩
        · simp only [List.take_one, List.head?_cons, Option.toList_some, List.length_append,
            List.length_singleton]
          rw [hcount]
          push_cast
          ring
        · intro hlt
          simp only [List.take_one, List.head?_cons, Option.toList_some, List.length_append,
            List.length_singleton] at hlt
          push_cast at hlt
          omega
        · intro _ _
          right
          right
          simp only []
          rw [hcount]
          exact hge)
    root cfg.projectPath initState [] ⟨by simp [initState], fun _ => by simp [initState]⟩).1
  rw [hE] at hadv
  unfold filepathWalk
  generalize walk env cfg cfg.projectPath root initState = res at hadv
  obtain ⟨st, werr⟩ := res
  obtain ⟨k, hk, ⟨hcount, hsmall⟩, hall, hstop⟩ := hadv
  simp only [List.nil_append] at hcount hsmall hall hstop
  have hlen : (E.take k).length = k := by
    rw [List.length_take]
    omega
  rw [hlen] at hcount hsmall
  have hnoerr : ∀ msg, werr ≠ some (.error msg) := by
    intro msg hmsg
    rcases hstop msg hmsg with h | h | h
    · rw [hcount] at h
      omega
    · obtain ⟨j, hj⟩ := h
      exact absurd (hclock j) (not_le.2 hj)
    · rw [hcount] at h
      omega
  have hkE : k = E.length := by
    apply hall
    cases werr with
    | none => exact Or.inl rfl
    | some w =>
      cases w with
      | skipDir => exact Or.inr rfl
      | error msg => exact absurd rfl (hnoerr msg)
  rw [hkE, List.take_length] at hsmall
  obtain ⟨h1, h2, h3⟩ := hsmall (by omega)
  have hfin : finishScan env st none
      = { out := [{ Files := env.sortSlice E, Count := (env.sortSlice E).length,
                    Partial := false, Complete := true, Error := "" }],
          err := env.sink 0 } := by
    simp only [finishScan, outputJSON, h1, h2, h3, List.nil_append, List.length_nil]
    cases E with
    | nil => simp
    | cons x xs => simp
  cases werr with
  | none => simp only [hfin]
  | some w =>
    cases w with
    | skipDir => simp only [hfin]
    | error msg => exact absurd rfl (hnoerr msg)

/-! ### The scenario of the specification -/

/-- C14, as stated, fails: in the scenario `foo.txt`, `bar/foo2.txt`, `.git/secret.txt` with
query `foo` the name `foo2.txt` starts with the query, so rule 3 gives it the score `800`, not
`600`; the only response holds both files with score `800`. -/
theorem scenario_foo2_scores_800 :
    calculateScore asciiToLower (ascii "foo2.txt") (ascii "bar/foo2.txt") (ascii "foo") = 800 ∧
    scanDirectory demoEnv demoTree (ascii "/proj") (ascii "foo") [] 0 0 0
      = some
        { out := [{ Files := [foo2Hit, fooHit], Count := 2, Partial := false,
                    Complete := true, Error := "" }],
          err := none } := by
  constructor <;> decide!

/-- C14, amended: in the scenario, with default limits, a clock that stays within the 10 second
budget and any sort that meets the contract of `sort.Slice`, `scanDirectory` hands out one
response, the final one: its files are `foo.txt` (relative path `foo.txt`) and `foo2.txt`
(relative path `bar/foo2.txt`), both with score `800`, in the order the sort leaves them;
count `2`, `complete = true`, `partial = false`, no error; `.git/secret.txt` is not among
them. -/
theorem scenario_foo (sortSlice : List FileResult → List FileResult)
    (hsort : SortsDescending sortSlice) (elapsed : Nat → Int)
    (hclock : ∀ j, elapsed j ≤ 10000000000) (sink : Nat → Option String) :
    ∃ files : List FileResult,
      scanDirectory (scenarioEnv sortSlice elapsed sink) demoTree (ascii "/proj") (ascii "foo")
          [] 0 0 0
        = some
          { out := [{ Files := files, Count := 2, Partial := false, Complete := true,
                      Error := "" }],
            err := sink 0 } ∧
      files.Perm [fooHit, foo2Hit] := by
  have hE : eligible (scenarioEnv sortSlice elapsed sink)
      (scanConfig (ascii "/proj") (ascii "foo") [] 0 0 0) (ascii "/proj") demoTree
      = [foo2Hit, fooHit] := by
    have h : eligible (scenarioEnv sortSlice elapsed sink)
        (scanConfig (ascii "/proj") (ascii "foo") [] 0 0 0) (ascii "/proj") demoTree
        = eligible demoEnv (scanConfig (ascii "/proj") (ascii "foo") [] 0 0 0) (ascii "/proj")
          demoTree := rfl
    rw [h]
    decide!
  have hrun := scanDirectory_small (scenarioEnv sortSlice elapsed sink) demoTree (ascii "/proj")
    (ascii "foo") [] 0 0 0
    (fun j => by
      have hd : (scanConfig (ascii "/proj") (ascii "foo") [] 0 0 0).maxDuration
          = 10000000000 := by decide
      rw [hd]
      exact hclock j)
    (by rw [hE]; decide) (by rw [hE]; decide) (by decide)
  rw [hE] at hrun
  have hss : (scenarioEnv sortSlice elapsed sink).sortSlice = sortSlice := rfl
  have hsk : (scenarioEnv sortSlice elapsed sink).sink = sink := rfl
  rw [hss, hsk] at hrun
  have hperm : (sortSlice [foo2Hit, fooHit]).Perm [fooHit, foo2Hit] :=
    (hsort _).1.trans (List.Perm.swap fooHit foo2Hit [])
  refine ⟨sortSlice [foo2Hit, fooHit], ?_, hperm⟩
  rw [hrun]
  have hlen : (sortSlice [foo2Hit, fooHit]).length = 2 := by
    rw [hperm.length_eq]
    rfl
  rw [hlen]
  rfl

/-- Witness of the amended C14: insertion sort, a clock that stands still, writes that
succeed. -/
theorem scenario_foo_witness :
    ∃ files : List FileResult,
      scanDirectory (scenarioEnv sortDesc (fun _ => 0) (fun _ => none)) demoTree (ascii "/proj")
          (ascii "foo") [] 0 0 0
        = some
          { out := [{ Files := files, Count := 2, Partial := false, Complete := true,
                      Error := "" }],
            err := none } ∧
      files.Perm [fooHit, foo2Hit] :=
  scenario_foo sortDesc sortDesc_sortsDescending (fun _ => 0)
    (fun _ => (by decide : (0 : Int) ≤ 10000000000)) (fun _ => none)

/-! ### Tracking the accepted files when every write succeeds -/

theorem tracks_dir (env : Env) (cfg : Config) (J : List FileResult → List FileResult → Prop)
    (p n : Str) (err : Bool) (st : ScanState) (A : List FileResult)
    (hT : Tracks cfg J st A) :
    Tracks cfg J (walkFn env cfg p n true err st).1 A ∧
      ∀ msg, (walkFn env cfg p n true err st).2 = some (.error msg) →
        StopReason env cfg (walkFn env cfg p n true err st).1 msg := by
  rw [walkFn_eq]
  split
  · exact ⟨hT, by simp⟩
  split
  · rename_i ht
    refine ⟨hT, fun msg hmsg => Or.inr ⟨?_, _, ht⟩⟩
    simp only [Option.some.injEq, WalkErr.error.injEq] at hmsg
    exact hmsg.symm
  split
  · rename_i hc
    refine ⟨hT, fun msg hmsg => Or.inl ⟨?_, hc⟩⟩
    simp only [Option.some.injEq, WalkErr.error.injEq] at hmsg
    exact hmsg.symm
  rw [if_pos rfl]
  refine ⟨hT, ?_⟩
  intro msg hmsg
  simp only at hmsg
  split at hmsg <;> simp at hmsg

theorem tracks_file (env : Env) (hsink : ∀ k, env.sink k = none) (cfg : Config)
    (J : List FileResult → List FileResult → Prop)
    (hsnoc : ∀ l A f, J l A → J (l ++ [f]) (A ++ [f]))
    (hsorts : ∀ l A, J l A → J (env.sortSlice l) A)
    (p n : Str) (st : ScanState) (A : List FileResult) (hT : Tracks cfg J st A) :
    Advances (Tracks cfg J) (StopReason env cfg) A (eligible env cfg p (.file n))
      (walkFn env cfg p n false false st) := by
  rw [walkFn_eq, if_neg (by simp)]
  split
  · rename_i ht
    refine ⟨0, Nat.zero_le _, by simpa using hT, by simp, fun msg hmsg => Or.inr ⟨?_, _, ht⟩⟩
    simp only [Option.some.injEq, WalkErr.error.injEq] at hmsg
    exact hmsg.symm
  split
  · rename_i hc
    refine ⟨0, Nat.zero_le _, by simpa using hT, by simp, fun msg hmsg => Or.inl ⟨?_, hc⟩⟩
    simp only [Option.some.injEq, WalkErr.error.injEq] at hmsg
    exact hmsg.symm
  rename_i hnc
  rw [if_neg (by simp)]
  split
  · rename_i hel
    refine ⟨0, Nat.zero_le _, by simpa using hT, ?_, by simp⟩
    intro _
    rw [eligible, hel]
    rfl
  rename_i hel
  have hel2 : eligibleFile env cfg p n = true := by simpa using hel
  have hL : eligible env cfg p (.file n) = [fileResultOf env cfg p n] := by
    rw [eligible, hel2]
    rfl
  rw [hL]
  obtain ⟨hcount, hcap, hJ, hout⟩ := hT
  have hcount2 : st.totalCount + 1 = ((A ++ [fileResultOf env cfg p n]).length : Int) := by
    rw [hcount, List.length_append, List.length_singleton]
    push_cast
    ring
  have hcap2 : ((A ++ [fileResultOf env cfg p n]).length : Int) ≤ Max.max cfg.maxResults 0 := by
    rw [← hcount2]
    have := le_max_left cfg.maxResults 0
    omega
  have hout2 : ∀ r ∈ st.out, ∃ j, j ≤ (A ++ [fileResultOf env cfg p n]).length ∧
      J r.Files ((A ++ [fileResultOf env cfg p n]).take j) := by
    intro r hr
    obtain ⟨j, hj, hJr⟩ := hout r hr
    refine ⟨j, ?_, ?_⟩
    · rw [List.length_append]
      omega
    · rw [List.take_append_of_le_length hj]
      exact hJr
  have hJ2 : J (st.allFiles ++ (st.currentChunk ++ [fileResultOf env cfg p n]))
      (A ++ [fileResultOf env cfg p n]) := by
    rw [← List.append_assoc]
    exact hsnoc _ _ _ hJ
  have htake : (A ++ [fileResultOf env cfg p n] : List FileResult)
      = A ++ List.take 1 [fileResultOf env cfg p n] := by simp
  split
  · refine ⟨1, le_refl _, ?_, by simp, by simp⟩
    rw [← htake]
    exact ⟨hcount2, hcap2, hJ2, hout2⟩
  · refine ⟨1, le_refl _, ?_, by simp, ?_⟩
    · rw [← htake]
      refine ⟨hcount2, hcap2, ?_, ?_⟩
      · simp only [hsink, if_true, List.append_nil]
        exact hsorts _ _ hJ2
      · intro r hr
        rcases List.mem_append.1 hr with h | h
        · exact hout2 r h
        · rw [List.mem_singleton.1 h]
          exact ⟨_, le_refl _, by
            rw [List.take_length]
            exact hsorts _ _ hJ2⟩
    · intro msg hmsg
      simp [hsink] at hmsg

/-- The responses of `scanDirectory` when every write succeeds, against the eligible files `E`
of the tree: the walk accepts the first `k` of them, never more than the result cap; every
partial response is related by `J` to a prefix of those and the final response to all `k`;
the error of the final response says whether the walk went through (`k` is all of `E`), hit
the cap (`k` has reached it) or ran out of time. -/
theorem scanDirectory_tracks (env : Env) (hsink : ∀ k, env.sink k = none)
    (J : List FileResult → List FileResult → Prop) (hnil : J [] [])
    (hsnoc : ∀ l A f, J l A → J (l ++ [f]) (A ++ [f]))
    (hsorts : ∀ l A, J l A → J (env.sortSlice l) A)
    (root : Entry) (projectPath query : Str) (skipDirs : List Str)
    (maxTime maxResults chunkSize : Int) (o : Outcome)
    (ho : scanDirectory env root projectPath query skipDirs maxTime maxResults chunkSize
      = some o) :
    ∃ (k : Nat) (init : List SearchResponse) (final : SearchResponse),
      k ≤ (eligible env (scanConfig projectPath query skipDirs maxTime maxResults chunkSize)
        projectPath root).length ∧
      (k : Int) ≤ Max.max
        (scanConfig projectPath query skipDirs maxTime maxResults chunkSize).maxResults 0 ∧
      o.out = init ++ [final] ∧
      J final.Files ((eligible env
        (scanConfig projectPath query skipDirs maxTime maxResults chunkSize)
        projectPath root).take k) ∧
      (∀ r ∈ init, ∃ j, j ≤ k ∧ J r.Files ((eligible env
        (scanConfig projectPath query skipDirs maxTime maxResults chunkSize)
        projectPath root).take j)) ∧
      ((final.Error = "" ∧ k = (eligible env
          (scanConfig projectPath query skipDirs maxTime maxResults chunkSize)
          projectPath root).length) ∨
        (final.Error = "max results reached" ∧ (k : Int)
          ≥ (scanConfig projectPath query skipDirs maxTime maxResults chunkSize).maxResults) ∨
        (final.Error = "search timeout exceeded" ∧ ∃ j, env.elapsed j
          > (scanConfig projectPath query skipDirs maxTime maxResults chunkSize).maxDuration))
      := by
  have hpp : (scanConfig projectPath query skipDirs maxTime maxResults chunkSize).projectPath
      = projectPath := rfl
  unfold scanDirectory at ho
  simp only [] at ho
  generalize scanConfig projectPath query skipDirs maxTime maxResults chunkSize = cfg
    at ho hpp ⊢
  rw [← hpp]
  generalize hE : eligible env cfg cfg.projectPath root = E
  split at ho
  · exact absurd ho (by simp)
  simp only [Option.some.injEq] at ho
  subst ho
  have hadv := (walk_advances env cfg (Tracks cfg J) (StopReason env cfg)
    (fun p n err st A hT => tracks_dir env cfg J p n err st A hT)
    (fun p n st A hT => tracks_file env hsink cfg J hsnoc hsorts p n st A hT)
    root cfg.projectPath initState []
    ⟨by simp [initState], by simp, by simpa [initState] using hnil,
      by simp [initState]⟩).1
  rw [hE] at hadv
  unfold filepathWalk
  generalize walk env cfg cfg.projectPath root initState = res at hadv
  obtain ⟨st, werr⟩ := res
  obtain ⟨k, hk, ⟨hcount, hcap, hJ, hout⟩, hall, hstop⟩ := hadv
  simp only [List.nil_append] at hcount hcap hJ hout hall hstop
  have hlen : (E.take k).length = k := by
    rw [List.length_take]
    omega
  rw [hlen] at hcount hcap hout
  have hJfin : J (env.sortSlice
      (if st.currentChunk.length > 0 then st.allFiles ++ st.currentChunk else st.allFiles))
      (E.take k) := by
    apply hsorts
    split
    · exact hJ
    · rename_i hz
      have hc : st.currentChunk = [] := by
        cases hcc : st.currentChunk with
        | nil => rfl
        | cons x xs =>
          rw [hcc] at hz
          simp at hz
      rw [hc, List.append_nil] at hJ
      exact hJ
  have hinit : ∀ r ∈ st.out, ∃ j, j ≤ k ∧ J r.Files (E.take j) := by
    intro r hr
    obtain ⟨j, hj, hJr⟩ := hout r hr
    refine ⟨j, hj, ?_⟩
    rw [List.take_take, min_eq_left hj] at hJr
    exact hJr
  have hfin : ∀ e : Option String,
      (finishScan env st e).out = st.out ++
        [{ Files := env.sortSlice
             (if st.currentChunk.length > 0 then st.allFiles ++ st.currentChunk
               else st.allFiles),
           Count := (env.sortSlice
             (if st.currentChunk.length > 0 then st.allFiles ++ st.currentChunk
               else st.allFiles)).length,
           Partial := false, Complete := true,
           Error := match e with
             | some msg => msg
             | none => "" }] := fun e => rfl
  cases werr with
  | none =>
    exact ⟨k, st.out, _, hk, hcap, hfin none, hJfin, hinit, Or.inl ⟨rfl, hall (Or.inl rfl)⟩⟩
  | some w =>
    cases w with
    | skipDir =>
      exact ⟨k, st.out, _, hk, hcap, hfin none, hJfin, hinit,
        Or.inl ⟨rfl, hall (Or.inr rfl)⟩⟩
    | error msg =>
      refine ⟨k, st.out, _, hk, hcap, hfin (some msg), hJfin, hinit, ?_⟩
      rcases hstop msg rfl with ⟨hm, hc⟩ | ⟨hm, ht⟩
      · right
        left
        refine ⟨hm, ?_⟩
        rw [← hcount]
        exact hc
      · right
        right
        exact ⟨hm, ht⟩

/-! ### The result cap -/

theorem perm_snoc (l A : List FileResult) (f : FileResult) (h : l.Perm A) :
    (l ++ [f]).Perm (A ++ [f]) := List.Perm.append_right [f] h

/-- Two splittings of a list into a front and a last element agree. -/
theorem last_unique (a b : List SearchResponse) (x y : SearchResponse)
    (h : a ++ [x] = b ++ [y]) : a = b ∧ x = y := by
  have h2 := List.append_inj' h rfl
  exact ⟨h2.1, by simpa using h2.2⟩

/-- C12 fails on the code when a write fails (the defect of C8): with `maxResults = 1`,
`chunkSize = 1`, one accepted file and an output stream whose first write fails, the chunk is
merged a second time and the final response has count `2`, above the cap. -/
theorem scanDirectory_count_exceeds_cap :
    scanDirectory (plainEnv (fun _ => 0) failFirstSink) oneFileTree (ascii "/proj") [] [] 0 1 1
      = some
        { out :=
            [{ Files := [oneFile], Count := 1, Partial := true, Complete := false, Error := "" },
             { Files := [oneFile, oneFile], Count := 2, Partial := false, Complete := true,
               Error := "write failed" }],
          err := none } := by
  decide!

/-- The cap holds when every write succeeds: then, for `maxResults = N ≥ 1`, no
response, partial or final, has more than `N` files or a count above `N`. -/
theorem scanDirectory_cap_of_writes_ok (env : Env) (hsort : SortsDescending env.sortSlice)
    (hsink : ∀ k, env.sink k = none) (root : Entry) (projectPath query : Str)
    (skipDirs : List Str) (maxTime maxResults chunkSize : Int) (hN : 1 ≤ maxResults)
    (o : Outcome)
    (ho : scanDirectory env root projectPath query skipDirs maxTime maxResults chunkSize
      = some o)
    (r : SearchResponse) (hr : r ∈ o.out) :
    r.Count ≤ maxResults ∧ (r.Files.length : Int) ≤ maxResults := by
  obtain ⟨k, init, final, _, hcap, hout, hfin, hinit, _⟩ :=
    scanDirectory_tracks env hsink (fun l A => l.Perm A) (List.Perm.refl _) perm_snoc
      (fun l A h => ((hsort l).1).trans h) root projectPath query skipDirs maxTime maxResults
      chunkSize o ho
  obtain ⟨_, _, _, _, _, _, hall, _⟩ :=
    scanDirectory_out env root projectPath query skipDirs maxTime maxResults chunkSize
      (fun _ => True) (fun _ => True) trivial
      (fun _ _ _ _ => trivial) (fun _ _ _ _ => trivial)
      (fun _ _ => ⟨trivial, trivial⟩) o ho
  have hmr : (scanConfig projectPath query skipDirs maxTime maxResults chunkSize).maxResults
      = maxResults := by
    unfold scanConfig
    simp only []
    rw [if_neg (by omega)]
  rw [hmr, max_eq_left (by omega)] at hcap
  have hlen : (r.Files.length : Int) ≤ maxResults := by
    rw [hout] at hr
    rcases List.mem_append.1 hr with h | h
    · obtain ⟨j, hj, hp⟩ := hinit r h
      have := hp.length_eq
      rw [List.length_take] at this
      omega
    · rw [List.mem_singleton.1 h]
      have := hfin.length_eq
      rw [List.length_take] at this
      omega
  exact ⟨by rw [(hall r hr).2]; exact hlen, hlen⟩

/-- C13, as stated, fails when a write fails: for `a.txt` and `b.txt`, `maxResults = 1` and
`chunkSize = 1` the walk would accept two files, but the first write fails, the walk ends with
the write error, and the final response carries that error (and lists `a.txt` twice, the
defect of C8), not `max results reached`. -/
theorem cap_not_reported_after_failed_write :
    eligible (plainEnv (fun _ => 0) failFirstSink) (scanConfig (ascii "/proj") [] [] 0 1 1)
        (ascii "/proj") twoFileTree = [oneFile, otherFile] ∧
    scanDirectory (plainEnv (fun _ => 0) failFirstSink) twoFileTree (ascii "/proj") [] [] 0 1 1
      = some
        { out :=
            [{ Files := [oneFile], Count := 1, Partial := true, Complete := false, Error := "" },
             { Files := [oneFile, oneFile], Count := 2, Partial := false, Complete := true,
               Error := "write failed" }],
          err := none } := by
  constructor <;> decide!

/-- C13, amended: for `maxResults = N ≥ 1` and `chunkSize` between `0` and `maxCap` (so `make`
does not panic), when every write succeeds, the time budget is never exceeded and the tree has
more than `N` eligible files (outside pruned directories), the final response holds exactly
the first `N` eligible files in traversal order, sorted by score, has count `N`,
`complete = true` and the error `max results reached`. -/
theorem scanDirectory_cap_reported (env : Env) (hsort : SortsDescending env.sortSlice)
    (hsink : ∀ k, env.sink k = none) (root : Entry) (projectPath query : Str)
    (skipDirs : List Str) (maxTime maxResults chunkSize : Int) (hN : 1 ≤ maxResults)
    (hchunk : 0 ≤ chunkSize) (hmake : chunkSize ≤ maxCap)
    (hclock : ∀ j, env.elapsed j
      ≤ (scanConfig projectPath query skipDirs maxTime maxResults chunkSize).maxDuration)
    (hmore : maxResults < ((eligible env
      (scanConfig projectPath query skipDirs maxTime maxResults chunkSize)
      projectPath root).length : Int)) :
    ∃ (init : List SearchResponse) (final : SearchResponse),
      scanDirectory env root projectPath query skipDirs maxTime maxResults chunkSize
        = some { out := init ++ [final], err := none } ∧
      final.Files.Perm ((eligible env
        (scanConfig projectPath query skipDirs maxTime maxResults chunkSize)
        projectPath root).take maxResults.toNat) ∧
      final.Files.Pairwise (fun a b => a.Score ≥ b.Score) ∧
      final.Count = maxResults ∧ final.Complete = true ∧ final.Partial = false ∧
      final.Error = "max results reached" := by
  have hsome : ∃ o, scanDirectory env root projectPath query skipDirs maxTime maxResults
      chunkSize = some o := by
    unfold scanDirectory
    simp only []
    rw [if_neg (scanConfig_not_makePanics projectPath query skipDirs maxTime maxResults
      chunkSize hchunk hmake)]
    exact ⟨_, rfl⟩
  obtain ⟨o, ho⟩ := hsome
  obtain ⟨k, init, final, hk, hcap, hout, hfin, _, herr⟩ :=
    scanDirectory_tracks env hsink (fun l A => l.Perm A) (List.Perm.refl _) perm_snoc
      (fun l A h => ((hsort l).1).trans h) root projectPath query skipDirs maxTime maxResults
      chunkSize o ho
  obtain ⟨init2, final2, hout2, hc2, hp2, _, hall, herr2⟩ :=
    scanDirectory_out env root projectPath query skipDirs maxTime maxResults chunkSize
      (fun _ => True) (fun l => l.Pairwise (fun a b => a.Score ≥ b.Score)) trivial
      (fun _ _ _ _ => trivial) (fun _ _ _ _ => trivial)
      (fun l _ => ⟨trivial, (hsort l).2⟩) o ho
  have hsame := last_unique init init2 final final2 (hout.symm.trans hout2)
  rw [← hsame.2] at hc2 hp2
  have hmr : (scanConfig projectPath query skipDirs maxTime maxResults chunkSize).maxResults
      = maxResults := by
    unfold scanConfig
    simp only []
    rw [if_neg (by omega)]
  rw [hmr, max_eq_left (by omega)] at hcap
  rw [hmr] at herr
  have hfinal := hall final (by rw [hout]; simp)
  have hkN : (k : Int) = maxResults ∧ final.Error = "max results reached" := by
    rcases herr with ⟨_, hkE⟩ | ⟨hm, hge⟩ | ⟨_, j, hj⟩
    · omega
    · exact ⟨by omega, hm⟩
    · exact absurd (hclock j) (not_le.2 hj)
  have hk2 : maxResults.toNat = k := by omega
  refine ⟨init, final, ?_, ?_, hfinal.1, ?_, hc2, hp2, hkN.2⟩
  · rw [ho]
    obtain ⟨out, err⟩ := o
    simp only at hout herr2
    rw [hsink] at herr2
    rw [hout, herr2]
  · rw [hk2]
    exact hfin
  · rw [hfinal.2, hfin.length_eq, List.length_take]
    omega

/-- Witness of the amended C13: `a.txt` and `b.txt`, `maxResults = 1`, chunk size 1. -/
theorem scanDirectory_cap_reported_witness :
    ∃ (init : List SearchResponse) (final : SearchResponse),
      scanDirectory demoEnv twoFileTree (ascii "/proj") [] [] 0 1 1
        = some { out := init ++ [final], err := none } ∧
      final.Files.Perm ((eligible demoEnv (scanConfig (ascii "/proj") [] [] 0 1 1)
        (ascii "/proj") twoFileTree).take (1 : Int).toNat) ∧
      final.Files.Pairwise (fun a b => a.Score ≥ b.Score) ∧
      final.Count = 1 ∧ final.Complete = true ∧ final.Partial = false ∧
      final.Error = "max results reached" :=
  scanDirectory_cap_reported demoEnv sortDesc_sortsDescending (fun _ => rfl) twoFileTree
    (ascii "/proj") [] [] 0 1 1 (by decide) (by decide) (by decide)
    (fun _ => (by decide : (0 : Int) ≤ 10000000000)) (by decide!)

/-! ### Order among files of equal score -/

theorem insertDesc_filter (x : FileResult) (l : List FileResult) (q : ℚ) :
    (insertDesc x l).filter (fun f => decide (f.Score = q))
      = (x :: l).filter (fun f => decide (f.Score = q)) := by
  induction l with
  | nil => rfl
  | cons y ys ih =>
    unfold insertDesc
    split
    · rfl
    · rename_i hlt
      have hxy : x.Score < y.Score := not_le.1 hlt
      rw [List.filter_cons, ih]
      by_cases hx : x.Score = q
      · have hy : ¬ y.Score = q := fun h => by
          rw [hx, h] at hxy
          exact lt_irrefl _ hxy
        simp [List.filter_cons, hx, hy]
      · simp [List.filter_cons, hx]

/-- The insertion sort of the concrete runs is stable. -/
theorem sortDesc_stable (l : List FileResult) (q : ℚ) :
    (sortDesc l).filter (fun f => decide (f.Score = q))
      = l.filter (fun f => decide (f.Score = q)) := by
  induction l with
  | nil => rfl
  | cons x xs ih =>
    rw [sortDesc, insertDesc_filter, List.filter_cons, List.filter_cons, ih]

/-! #### Go's `sort.Slice` permutes the slice -/
theorem Swap_perm (data : List FileResult) (i j : Nat) : (Swap data i j).Perm data := by
  unfold Swap
  split
  · rename_i x y hx hy
    obtain ⟨hi, hxi⟩ := List.getElem?_eq_some_iff.1 hx
    obtain ⟨hj, hyj⟩ := List.getElem?_eq_some_iff.1 hy
    rw [List.perm_iff_count]
    intro b
    have hj2 : j < (data.set i y).length := by rw [List.length_set]; exact hj
    rw [List.count_set _ _ _ _ hj2, List.count_set _ _ _ _ hi]
    have hget : (data.set i y)[j] = y := by
      rw [List.getElem_set]
      split
      · rfl
      · exact hyj
    rw [hget, hxi]
    have hle : (if (x == b) = true then 1 else 0) ≤ List.count b data := by
      split
      · rename_i hb
        have hxb : x = b := by simpa using hb
        rw [← hxb]
        exact List.count_pos_iff.2 (hxi ▸ List.getElem_mem hi)
      · exact Nat.zero_le _
    omega
  · exact List.Perm.refl _

theorem insertionSortInner_perm (a j : Nat) (data : List FileResult) :
    (insertionSortInner a j data).Perm data := by
  induction j generalizing data with
  | zero => exact List.Perm.refl _
  | succ j ih =>
    unfold insertionSortInner
    split
    · exact (ih _).trans (Swap_perm _ _ _)
    · exact List.Perm.refl _

theorem insertionSortOuter_perm (a n i : Nat) (data : List FileResult) :
    (insertionSortOuter a n i data).Perm data := by
  induction n generalizing i data with
  | zero => exact List.Perm.refl _
  | succ n ih =>
    unfold insertionSortOuter
    exact (ih _ _).trans (insertionSortInner_perm _ _ _)

theorem insertionSort_func_perm (data : List FileResult) (a b : Nat) :
    (insertionSort_func data a b).Perm data :=
  insertionSortOuter_perm _ _ _ _

theorem siftDownLoop_perm (hi first n root : Nat) (data : List FileResult) :
    (siftDownLoop hi first n root data).Perm data := by
  induction n generalizing root data with
  | zero => exact List.Perm.refl _
  | succ n ih =>
    unfold siftDownLoop
    simp only []
    split
    · exact List.Perm.refl _
    · split <;> split <;>
        first | exact List.Perm.refl _ | exact (ih _ _).trans (Swap_perm _ _ _)

theorem siftDown_func_perm (data : List FileResult) (lo hi first : Nat) :
    (siftDown_func data lo hi first).Perm data :=
  siftDownLoop_perm _ _ _ _ _

theorem heapSortBuild_perm (hi first i : Nat) (data : List FileResult) :
    (heapSortBuild hi first i data).Perm data := by
  induction i generalizing data with
  | zero => exact List.Perm.refl _
  | succ i ih =>
    unfold heapSortBuild
    exact (ih _).trans (siftDown_func_perm _ _ _ _)

theorem heapSortPop_perm (first i : Nat) (data : List FileResult) :
    (heapSortPop first i data).Perm data := by
  induction i generalizing data with
  | zero => exact List.Perm.refl _
  | succ i ih =>
    unfold heapSortPop
    exact ((ih _).trans (siftDown_func_perm _ _ _ _)).trans (Swap_perm _ _ _)

theorem heapSort_func_perm (data : List FileResult) (a b : Nat) :
    (heapSort_func data a b).Perm data :=
  (heapSortPop_perm _ _ _).trans (heapSortBuild_perm _ _ _ _)

theorem reverseRangeLoop_perm (n i j : Nat) (data : List FileResult) :
    (reverseRangeLoop n i j data).Perm data := by
  induction n generalizing i j data with
  | zero => exact List.Perm.refl _
  | succ n ih =>
    unfold reverseRangeLoop
    split
    · exact (ih _ _ _).trans (Swap_perm _ _ _)
    · exact List.Perm.refl _

theorem reverseRange_func_perm (data : List FileResult) (a b : Nat) :
    (reverseRange_func data a b).Perm data :=
  reverseRangeLoop_perm _ _ _ _

theorem shiftLeft_perm (j : Nat) (data : List FileResult) : (shiftLeft j data).Perm data := by
  induction j generalizing data with
  | zero => exact List.Perm.refl _
  | succ j ih =>
    unfold shiftLeft
    split
    · exact List.Perm.refl _
    · exact (ih _).trans (Swap_perm _ _ _)

theorem shiftRight_perm (b n j : Nat) (data : List FileResult) :
    (shiftRight b n j data).Perm data := by
  induction n generalizing j data with
  | zero => exact List.Perm.refl _
  | succ n ih =>
    unfold shiftRight
    split
    · split
      · exact List.Perm.refl _
      · exact (ih _ _).trans (Swap_perm _ _ _)
    · exact List.Perm.refl _

theorem partialInsertionSortLoop_perm (a b steps i : Nat) (data : List FileResult) :
    (partialInsertionSortLoop a b steps i data).1.Perm data := by
  induction steps generalizing i data with
  | zero => exact List.Perm.refl _
  | succ steps ih =>
    unfold partialInsertionSortLoop
    simp only []
    split
    · exact List.Perm.refl _
    · split
      · exact List.Perm.refl _
      · refine (ih _ _).trans ?_
        have h1 : ∀ d : List FileResult, (if b - sortedRun data b (b - i) i ≥ 2 then
            shiftRight b (b - (sortedRun data b (b - i) i + 1)) (sortedRun data b (b - i) i + 1) d
            else d).Perm d := by
          intro d
          split
          · exact shiftRight_perm _ _ _ _
          · exact List.Perm.refl _
        have h2 : ∀ d : List FileResult, (if sortedRun data b (b - i) i - a ≥ 2 then
            shiftLeft (sortedRun data b (b - i) i - 1) d else d).Perm d := by
          intro d
          split
          · exact shiftLeft_perm _ _
          · exact List.Perm.refl _
        exact ((h1 _).trans (h2 _)).trans (Swap_perm _ _ _)

theorem partialInsertionSort_func_perm (data : List FileResult) (a b : Nat) :
    (partialInsertionSort_func data a b).1.Perm data :=
  partialInsertionSortLoop_perm _ _ _ _ _

theorem partitionLoop_perm (a n i j : Nat) (data : List FileResult) :
    (partitionLoop a n i j data).2.Perm data := by
  induction n generalizing i j data with
  | zero => exact List.Perm.refl _
  | succ n ih =>
    unfold partitionLoop
    simp only []
    split
    · exact List.Perm.refl _
    · exact (ih _ _ _).trans (Swap_perm _ _ _)

theorem partition_func_perm (data : List FileResult) (a b pivot : Nat) :
    (partition_func data a b pivot).2.2.Perm data := by
  unfold partition_func
  simp only []
  split
  · exact (Swap_perm _ _ _).trans (Swap_perm _ _ _)
  · exact (((Swap_perm _ _ _).trans (partitionLoop_perm _ _ _ _ _)).trans
      (Swap_perm _ _ _)).trans (Swap_perm _ _ _)

theorem partitionEqualLoop_perm (a n i j : Nat) (data : List FileResult) :
    (partitionEqualLoop a n i j data).2.Perm data := by
  induction n generalizing i j data with
  | zero => exact List.Perm.refl _
  | succ n ih =>
    unfold partitionEqualLoop
    simp only []
    split
    · exact List.Perm.refl _
    · exact (ih _ _ _).trans (Swap_perm _ _ _)

theorem partitionEqual_func_perm (data : List FileResult) (a b pivot : Nat) :
    (partitionEqual_func data a b pivot).2.Perm data :=
  (partitionEqualLoop_perm _ _ _ _ _).trans (Swap_perm _ _ _)

theorem breakPatternsLoop_perm (a length modulus idx n i random : Nat)
    (data : List FileResult) :
    (breakPatternsLoop a length modulus idx n i random data).Perm data := by
  induction n generalizing i random data with
  | zero => exact List.Perm.refl _
  | succ n ih =>
    unfold breakPatternsLoop
    exact (ih _ _ _).trans (Swap_perm _ _ _)

theorem breakPatterns_func_perm (data : List FileResult) (a b : Nat) :
    (breakPatterns_func data a b).Perm data := by
  unfold breakPatterns_func
  simp only []
  split
  · exact breakPatternsLoop_perm _ _ _ _ _ _ _ _
  · exact List.Perm.refl _

theorem pdqsort_func_perm (n : Nat) (data : List FileResult) (a b limit : Nat)
    (wasBalanced wasPartitioned : Bool) :
    (pdqsort_func n data a b limit wasBalanced wasPartitioned).Perm data := by
  induction n generalizing data a b limit wasBalanced wasPartitioned with
  | zero => exact List.Perm.refl _
  | succ n ih =>
    unfold pdqsort_func
    simp only []
    have h1 : (if wasBalanced = false then breakPatterns_func data a b else data).Perm data := by
      split
      · exact breakPatterns_func_perm _ _ _
      · exact List.Perm.refl _
    generalize (if wasBalanced = false then breakPatterns_func data a b else data) = d1 at h1 ⊢
    have h2 : (if (choosePivot_func d1 a b).2 = sortedHint.decreasingHint then
        reverseRange_func d1 a b else d1).Perm data := by
      split
      · exact (reverseRange_func_perm _ _ _).trans h1
      · exact h1
    generalize (if (choosePivot_func d1 a b).2 = sortedHint.decreasingHint then
        reverseRange_func d1 a b else d1) = d2 at h2 ⊢
    generalize (if (choosePivot_func d1 a b).2 = sortedHint.decreasingHint then
        sortedHint.increasingHint else (choosePivot_func d1 a b).2) = hint
    generalize (if (choosePivot_func d1 a b).2 = sortedHint.decreasingHint then
        b - 1 - ((choosePivot_func d1 a b).1 - a) else (choosePivot_func d1 a b).1) = pivot
    have h3 : (if wasBalanced = true ∧ wasPartitioned = true ∧ hint = sortedHint.increasingHint
        then partialInsertionSort_func d2 a b else (d2, false)).1.Perm data := by
      split
      · exact (partialInsertionSort_func_perm _ _ _).trans h2
      · exact h2
    generalize (if wasBalanced = true ∧ wasPartitioned = true ∧ hint = sortedHint.increasingHint
        then partialInsertionSort_func d2 a b else (d2, false)) = ps at h3 ⊢
    split
    · exact insertionSort_func_perm _ _ _
    · split
      · exact heapSort_func_perm _ _ _
      · split
        · exact h3
        · split
          · exact (ih _ _ _ _ _ _).trans ((partitionEqual_func_perm _ _ _ _).trans h3)
          · split
            · exact (ih _ _ _ _ _ _).trans ((ih _ _ _ _ _ _).trans
                ((partition_func_perm _ _ _ _).trans h3))
            · exact (ih _ _ _ _ _ _).trans ((ih _ _ _ _ _ _).trans
                ((partition_func_perm _ _ _ _).trans h3))

theorem sort_Slice_perm (data : List FileResult) : (sort_Slice data).Perm data :=
  pdqsort_func_perm _ _ _ _ _ _ _

/-! #### Slices of at most twelve elements, and slices of one score -/

/-- A swap of two neighbours of which the right one has the strictly larger score keeps, for
every score, the files of that score in their order. -/
theorem Swap_adjacent_filter (data : List FileResult) (j : Nat)
    (h : Less data (j + 1) j = true) (q : ℚ) :
    (Swap data (j + 1) j).filter (fun f => decide (f.Score = q))
      = data.filter (fun f => decide (f.Score = q)) := by
  induction j generalizing data with
  | zero =>
    match data, h with
    | [], h => simp [Less] at h
    | [_], h => simp [Less] at h
    | y :: x :: t, h =>
      have hxy : y.Score < x.Score := by simpa [Less] using h
      have hs : Swap (y :: x :: t) 1 0 = x :: y :: t := by simp [Swap]
      rw [hs]
      by_cases hx : x.Score = q
      · have hy : ¬ y.Score = q := fun e => by
          rw [hx, e] at hxy
          exact lt_irrefl _ hxy
        simp [List.filter_cons, hx, hy]
      · simp [List.filter_cons, hx]
  | succ j ih =>
    match data, h with
    | [], h => simp [Less] at h
    | x :: t, h =>
      have hl : Less t (j + 1) j = true := by simpa [Less] using h
      have hs : Swap (x :: t) (j + 1 + 1) (j + 1) = x :: Swap t (j + 1) j := by
        unfold Swap
        simp only [List.getElem?_cons_succ]
        split <;> simp
      rw [hs, List.filter_cons, List.filter_cons, ih t hl]

theorem insertionSortInner_filter (a j : Nat) (data : List FileResult) (q : ℚ) :
    (insertionSortInner a j data).filter (fun f => decide (f.Score = q))
      = data.filter (fun f => decide (f.Score = q)) := by
  induction j generalizing data with
  | zero => rfl
  | succ j ih =>
    unfold insertionSortInner
    split
    · rename_i hc
      rw [ih, Swap_adjacent_filter data j hc.2 q]
    · rfl

theorem insertionSortOuter_filter (a n i : Nat) (data : List FileResult) (q : ℚ) :
    (insertionSortOuter a n i data).filter (fun f => decide (f.Score = q))
      = data.filter (fun f => decide (f.Score = q)) := by
  induction n generalizing i data with
  | zero => rfl
  | succ n ih =>
    unfold insertionSortOuter
    rw [ih, insertionSortInner_filter]

/-- Slices of at most twelve elements are sorted by insertion. -/
theorem sort_Slice_small (data : List FileResult) (h : data.length ≤ 12) :
    sort_Slice data = insertionSort_func data 0 data.length := by
  unfold sort_Slice pdqsort_func
  simp only []
  rw [if_pos (by omega)]

/-- On a slice of at most twelve elements `sort.Slice` is stable: for every score, the files of
that score keep their order. -/
theorem sort_Slice_small_stable (data : List FileResult) (h : data.length ≤ 12) (q : ℚ) :
    (sort_Slice data).filter (fun f => decide (f.Score = q))
      = data.filter (fun f => decide (f.Score = q)) := by
  rw [sort_Slice_small data h]
  exact insertionSortOuter_filter _ _ _ _ _

theorem Less_false_of_equal (data : List FileResult)
    (h : ∀ f ∈ data, ∀ g ∈ data, f.Score = g.Score) (i j : Nat) : Less data i j = false := by
  unfold Less
  split
  · rename_i x y hx hy
    obtain ⟨hi, hxi⟩ := List.getElem?_eq_some_iff.1 hx
    obtain ⟨hj, hyj⟩ := List.getElem?_eq_some_iff.1 hy
    have hxy := h x (hxi ▸ List.getElem_mem hi) y (hyj ▸ List.getElem_mem hj)
    simp [hxy]
  · rfl

theorem insertionSortInner_of_noLess (a j : Nat) (data : List FileResult)
    (h : ∀ i j, Less data i j = false) : insertionSortInner a j data = data := by
  cases j with
  | zero => rfl
  | succ j =>
    unfold insertionSortInner
    rw [if_neg]
    rw [h]
    simp

theorem insertionSortOuter_of_noLess (a n i : Nat) (data : List FileResult)
    (h : ∀ i j, Less data i j = false) : insertionSortOuter a n i data = data := by
  induction n generalizing i with
  | zero => rfl
  | succ n ih =>
    unfold insertionSortOuter
    rw [insertionSortInner_of_noLess a i data h]
    exact ih _

theorem choosePivot_func_of_noLess (data : List FileResult) (a b : Nat)
    (h : ∀ i j, Less data i j = false) :
    (choosePivot_func data a b).2 = sortedHint.increasingHint := by
  have hm : ∀ x y z s, median_func data x y z s = (y, s) := by
    intro x y z s
    simp [median_func, order2_func, h]
  unfold choosePivot_func medianAdjacent_func
  simp only [hm]
  split <;> [split; skip] <;> simp

theorem sortedRun_of_noLess (data : List FileResult) (b n i : Nat)
    (h : ∀ i j, Less data i j = false) (hb : i + n ≤ b) : sortedRun data b n i = i + n := by
  induction n generalizing i with
  | zero => rfl
  | succ n ih =>
    unfold sortedRun
    rw [if_pos ⟨by omega, h _ _⟩, ih (i + 1) (by omega)]
    omega

theorem partialInsertionSort_func_of_noLess (data : List FileResult) (a b : Nat)
    (h : ∀ i j, Less data i j = false) (hab : a + 1 ≤ b) :
    partialInsertionSort_func data a b = (data, true) := by
  unfold partialInsertionSort_func partialInsertionSortLoop
  simp only []
  rw [sortedRun_of_noLess data b (b - (a + 1)) (a + 1) h (by omega)]
  rw [if_pos (by omega)]

/-- A slice whose files all have the same score is left as it is. -/
theorem sort_Slice_of_equal (data : List FileResult)
    (h : ∀ f ∈ data, ∀ g ∈ data, f.Score = g.Score) : sort_Slice data = data := by
  have hl := Less_false_of_equal data h
  unfold sort_Slice pdqsort_func
  simp only []
  split
  · exact insertionSortOuter_of_noLess _ _ _ _ hl
  · rename_i hlen
    have hlim : ¬ bitsLen data.length = 0 := by
      unfold bitsLen
      rw [if_neg (by omega)]
      omega
    rw [if_neg hlim]
    have hne : (sortedHint.increasingHint = sortedHint.decreasingHint) = False := by simp
    simp only [Bool.true_eq_false, if_false, choosePivot_func_of_noLess data 0 data.length hl,
      true_and, if_true, hne]
    rw [partialInsertionSort_func_of_noLess data 0 data.length hl (by omega)]
    simp

/-- Go's `sort.Slice` has the three properties of `SortsLikeSlice`. -/
theorem sort_Slice_sortsLikeSlice : SortsLikeSlice sort_Slice :=
  ⟨sort_Slice_perm, sort_Slice_small_stable, sort_Slice_of_equal⟩

mutual
/-- Under the empty query every accepted file has the score `1.0`. -/
theorem eligible_score_one (env : Env) (cfg : Config) (hq : cfg.query = []) :
    ∀ (e : Entry) (path : Str), ∀ f ∈ eligible env cfg path e, f.Score = 1
  | .file name, path => by
    intro f hf
    rw [eligible] at hf
    split at hf
    · rw [List.mem_singleton.1 hf]
      unfold fileResultOf calculateScore
      simp only []
      rw [if_pos hq]
    · exact absurd hf (List.not_mem_nil _)
  | .lstatErr _, path => by
    intro f hf
    rw [eligible] at hf
    exact absurd hf (List.not_mem_nil _)
  | .dir name readErr children, path => by
    intro f hf
    rw [eligible] at hf
    split at hf
    · exact absurd hf (List.not_mem_nil _)
    · exact eligibleList_score_one env cfg hq children path f hf
termination_by structural e => e
/-- Under the empty query every file accepted below a directory has the score `1.0`. -/
theorem eligibleList_score_one (env : Env) (cfg : Config) (hq : cfg.query = []) :
    ∀ (es : List Entry) (path : Str), ∀ f ∈ eligibleList env cfg path es, f.Score = 1
  | [], path => by
    intro f hf
    rw [eligibleList] at hf
    exact absurd hf (List.not_mem_nil _)
  | e :: rest, path => by
    intro f hf
    rw [eligibleList] at hf
    rcases List.mem_append.1 hf with h | h
    · exact eligible_score_one env cfg hq e _ f h
    · exact eligibleList_score_one env cfg hq rest path f h
termination_by structural es => es
end

/-- C15, as stated, fails: `sort.Slice` is not stable.  For the thirteen files `a.txt`, ...,
`l.txt`, `x.txt` and the query `x` the walk reaches the files in this order and scores the
first twelve `600` and `x.txt` `800`; the only response lists, after `x.txt`, the twelve files
of score `600` as `g, c, d, e, f, a, h, i, j, k, l, b`: the partition step of `sort.Slice` has
moved `g.txt` before `a.txt` and `b.txt` behind `l.txt`. -/
theorem ties_reordered_by_sort_Slice :
    eligible sliceEnv (scanConfig (ascii "/proj") (ascii "x") [] 0 0 0) (ascii "/proj") tieTree
      = tieWalk ∧
    scanDirectory sliceEnv tieTree (ascii "/proj") (ascii "x") [] 0 0 0
      = some
        { out := [{ Files := tieSorted, Count := 13, Partial := false, Complete := true,
                    Error := "" }],
          err := none } ∧
    tieSorted.filter (fun f => decide (f.Score = 600))
      ≠ tieWalk.filter (fun f => decide (f.Score = 600)) := by
  refine ⟨?_, ?_, ?_⟩
  · decide!
  · decide!
  · decide!

/-- C15, amended: when every write succeeds and the sort behaves as `sort.Slice` does
(`SortsLikeSlice`), every response of `scanDirectory` holds the first `j` eligible files of the
tree, for some `j`; if it holds at most twelve files, the files of any one score stand in the
order in which the walk reached them; and with an empty query, where every score is `1.0`, its
files are exactly those first `j` eligible files in traversal order, however many. -/
theorem scanDirectory_ties (env : Env) (hslice : SortsLikeSlice env.sortSlice)
    (hsink : ∀ k, env.sink k = none)
    (root : Entry) (projectPath query : Str) (skipDirs : List Str)
    (maxTime maxResults chunkSize : Int) (o : Outcome)
    (ho : scanDirectory env root projectPath query skipDirs maxTime maxResults chunkSize
      = some o)
    (r : SearchResponse) (hr : r ∈ o.out) :
    ∃ j : Nat,
      r.Files.Perm ((eligible env
        (scanConfig projectPath query skipDirs maxTime maxResults chunkSize)
        projectPath root).take j) ∧
      (r.Files.length ≤ 12 → ∀ q : ℚ, r.Files.filter (fun f => decide (f.Score = q))
        = ((eligible env (scanConfig projectPath query skipDirs maxTime maxResults chunkSize)
            projectPath root).take j).filter (fun f => decide (f.Score = q))) ∧
      (query = [] → r.Files
        = (eligible env (scanConfig projectPath query skipDirs maxTime maxResults chunkSize)
            projectPath root).take j) := by
  obtain ⟨hperm, hsmall, hequal⟩ := hslice
  obtain ⟨k, init, final, _, _, hout, hfin, hinit, _⟩ :=
    scanDirectory_tracks env hsink
      (fun l A => l.Perm A ∧
        (A.length ≤ 12 → ∀ q : ℚ, l.filter (fun f => decide (f.Score = q))
          = A.filter (fun f => decide (f.Score = q))) ∧
        ((∀ f ∈ A, ∀ g ∈ A, f.Score = g.Score) → l = A))
      ⟨List.Perm.refl _, fun _ _ => rfl, fun _ => rfl⟩
      (fun l A f h => ⟨perm_snoc l A f h.1,
        fun hlen q => by
          rw [List.length_append, List.length_singleton] at hlen
          rw [List.filter_append, List.filter_append, h.2.1 (by omega) q],
        fun heq => by
          rw [h.2.2 (fun a ha b hb =>
            heq a (List.mem_append_left _ ha) b (List.mem_append_left _ hb))]⟩)
      (fun l A h => ⟨(hperm l).trans h.1,
        fun hlen q => by
          rw [hsmall l (by rw [h.1.length_eq]; exact hlen) q, h.2.1 hlen q],
        fun heq => by
          rw [h.2.2 heq]
          exact hequal A heq⟩)
      root projectPath query skipDirs maxTime maxResults chunkSize o ho
  have hJ : ∃ j : Nat, r.Files.Perm ((eligible env
        (scanConfig projectPath query skipDirs maxTime maxResults chunkSize)
        projectPath root).take j) ∧
      (((eligible env (scanConfig projectPath query skipDirs maxTime maxResults chunkSize)
            projectPath root).take j).length ≤ 12 →
        ∀ q : ℚ, r.Files.filter (fun f => decide (f.Score = q))
          = ((eligible env (scanConfig projectPath query skipDirs maxTime maxResults chunkSize)
            projectPath root).take j).filter (fun f => decide (f.Score = q))) ∧
      ((∀ f ∈ (eligible env (scanConfig projectPath query skipDirs maxTime maxResults chunkSize)
            projectPath root).take j,
          ∀ g ∈ (eligible env (scanConfig projectPath query skipDirs maxTime maxResults chunkSize)
            projectPath root).take j, f.Score = g.Score) →
        r.Files = (eligible env (scanConfig projectPath query skipDirs maxTime maxResults
          chunkSize) projectPath root).take j) := by
    rw [hout] at hr
    rcases List.mem_append.1 hr with h | h
    · obtain ⟨j, _, hp⟩ := hinit r h
      exact ⟨j, hp⟩
    · rw [List.mem_singleton.1 h]
      exact ⟨k, hfin⟩
  obtain ⟨j, hp, hties, hall⟩ := hJ
  refine ⟨j, hp, fun hlen => hties (by rw [← hp.length_eq]; exact hlen), fun hq => hall ?_⟩
  have hone := eligible_score_one env
    (scanConfig projectPath query skipDirs maxTime maxResults chunkSize) hq root projectPath
  intro f hf g hg
  rw [hone f (List.mem_of_mem_take hf), hone g (List.mem_of_mem_take hg)]

/-- Witness of the amended C15: Go's `sort.Slice` on the thirteen files of `tieTree` under the
empty query; the only response lists them in traversal order. -/
theorem scanDirectory_ties_witness :
    ∃ j : Nat,
      tieWalkOne.Perm ((eligible sliceEnv (scanConfig (ascii "/proj") [] [] 0 0 0)
        (ascii "/proj") tieTree).take j) ∧
      (tieWalkOne.length ≤ 12 → ∀ q : ℚ, tieWalkOne.filter (fun f => decide (f.Score = q))
        = ((eligible sliceEnv (scanConfig (ascii "/proj") [] [] 0 0 0)
            (ascii "/proj") tieTree).take j).filter (fun f => decide (f.Score = q))) ∧
      (([] : Str) = [] → tieWalkOne
        = (eligible sliceEnv (scanConfig (ascii "/proj") [] [] 0 0 0)
            (ascii "/proj") tieTree).take j) :=
  scanDirectory_ties sliceEnv sort_Slice_sortsLikeSlice (fun _ => rfl) tieTree
    (ascii "/proj") [] [] 0 0 0
    { out := [{ Files := tieWalkOne, Count := 13, Partial := false, Complete := true,
                Error := "" }],
      err := none }
    (by decide!)
    { Files := tieWalkOne, Count := 13, Partial := false, Complete := true, Error := "" }
    (List.mem_singleton.2 rfl)

/-! ### Chunk boundaries -/

/-- With chunk size `c ≥ 1` and writes that succeed the callback keeps: the chunk holds fewer
than `c` files, the accumulated list holds `c` files for each response sent, and the `i`-th
response sent (from `1`) has count `i * c`. -/
theorem walkFn_keeps_chunks (env : Env) (hsort : SortsDescending env.sortSlice)
    (hsink : ∀ k, env.sink k = none) (cfg : Config) (hc : 1 ≤ cfg.chunkSize)
    (p n : Str) (d err : Bool) (st : ScanState)
    (hinv : (st.currentChunk.length : Int) < cfg.chunkSize ∧
      (st.allFiles.length : Int) = (st.out.length : Int) * cfg.chunkSize ∧
      st.out.map (fun r => r.Count)
        = (List.range st.out.length).map (fun (i : Nat) => ((i : Int) + 1) * cfg.chunkSize)) :
    ((walkFn env cfg p n d err st).1.currentChunk.length : Int) < cfg.chunkSize ∧
      ((walkFn env cfg p n d err st).1.allFiles.length : Int)
        = ((walkFn env cfg p n d err st).1.out.length : Int) * cfg.chunkSize ∧
      (walkFn env cfg p n d err st).1.out.map (fun r => r.Count)
        = (List.range (walkFn env cfg p n d err st).1.out.length).map
            (fun (i : Nat) => ((i : Int) + 1) * cfg.chunkSize) := by
  obtain ⟨hchunk, hall, hout⟩ := hinv
  rw [walkFn_eq]
  split
  · exact ⟨hchunk, hall, hout⟩
  split
  · exact ⟨hchunk, hall, hout⟩
  split
  · exact ⟨hchunk, hall, hout⟩
  split
  · exact ⟨hchunk, hall, hout⟩
  split
  · exact ⟨hchunk, hall, hout⟩
  split
  · rename_i hlt
    exact ⟨hlt, hall, hout⟩
  · rename_i hfull
    simp only [List.length_append, List.length_singleton] at hfull
    push_cast at hfull
    have hlen : ((env.sortSlice
        (st.allFiles ++ (st.currentChunk ++ [fileResultOf env cfg p n]))).length : Int)
        = ((st.out.length : Int) + 1) * cfg.chunkSize := by
      rw [(hsort _).1.length_eq]
      simp only [List.length_append, List.length_singleton]
      push_cast
      rw [hall]
      have : (st.currentChunk.length : Int) + 1 = cfg.chunkSize := by omega
      linarith
    refine ⟨?_, ?_, ?_⟩
    · simp only [hsink, if_true, List.length_nil]
      push_cast
      omega
    · simp only [List.length_append, List.length_singleton]
      push_cast
      exact hlen
    · simp only [List.map_append, List.map_cons, List.map_nil, List.length_append,
        List.length_singleton, List.range_succ]
      rw [hout, hlen]

/-- C18: for an effective chunk size `c ≥ 1` and writes that succeed, the `i`-th partial
response (from `1`) has count exactly `i * c`, and the number of partial responses is
`floor(A / c)` for the count `A` of the final response: a partial response is sent exactly
when the number of accepted files reaches a positive multiple of `c`.  This is the whole
output for every `c` up to `maxCap`; for a larger `c` the scan panics in `make` and sends no
response, partial or final. -/
theorem scanDirectory_chunks (env : Env) (hsort : SortsDescending env.sortSlice)
    (hsink : ∀ k, env.sink k = none) (root : Entry) (projectPath query : Str)
    (skipDirs : List Str) (maxTime maxResults chunkSize : Int)
    (hc : 1 ≤ (scanConfig projectPath query skipDirs maxTime maxResults chunkSize).chunkSize) :
    ((scanConfig projectPath query skipDirs maxTime maxResults chunkSize).chunkSize ≤ maxCap →
      ∃ (init : List SearchResponse) (final : SearchResponse),
        scanDirectory env root projectPath query skipDirs maxTime maxResults chunkSize
          = some { out := init ++ [final], err := none } ∧
        (∀ r ∈ init, r.Partial = true) ∧ final.Partial = false ∧
        init.map (fun r => r.Count)
          = (List.range init.length).map (fun (i : Nat) => ((i : Int) + 1) *
              (scanConfig projectPath query skipDirs maxTime maxResults chunkSize).chunkSize) ∧
        (init.length : Int) = final.Count
          / (scanConfig projectPath query skipDirs maxTime maxResults chunkSize).chunkSize) ∧
    (maxCap < (scanConfig projectPath query skipDirs maxTime maxResults chunkSize).chunkSize →
      scanDirectory env root projectPath query skipDirs maxTime maxResults chunkSize
        = none) := by
  unfold scanDirectory
  simp only []
  generalize scanConfig projectPath query skipDirs maxTime maxResults chunkSize = cfg at hc ⊢
  refine ⟨fun hmake => ?_,
    fun hbig => by rw [if_pos ((makePanics_iff _).2 (Or.inr hbig))]⟩
  rw [if_neg (by rw [makePanics_iff]; omega)]
  have hwalk := walk_inv env cfg
    (fun st => ((st.currentChunk.length : Int) < cfg.chunkSize ∧
      (st.allFiles.length : Int) = (st.out.length : Int) * cfg.chunkSize ∧
      st.out.map (fun r => r.Count)
        = (List.range st.out.length).map (fun (i : Nat) => ((i : Int) + 1) * cfg.chunkSize)) ∧
      ∀ r ∈ st.out, r.Partial = true)
    (fun _ => True)
    (fun p n d err st _ hi =>
      ⟨walkFn_keeps_chunks env hsort hsink cfg hc p n d err st hi.1, by
        intro r hr
        rcases walkFn_cases env cfg p n d err st with ⟨_, _, h3⟩ | ⟨_, _, f, _, _, _, _, h⟩
        · rw [h3] at hr
          exact hi.2 r hr
        · rcases h with ⟨_, _, h3⟩ | ⟨_, h3, _⟩
          · rw [h3] at hr
            exact hi.2 r hr
          · rw [h3] at hr
            rcases List.mem_append.1 hr with h' | h'
            · exact hi.2 r h'
            · rw [List.mem_singleton.1 h']⟩)
    root cfg.projectPath initState (fun _ _ => trivial)
    ⟨⟨by simp only [initState, List.length_nil]; omega, by simp [initState],
      by simp [initState]⟩, by simp [initState]⟩
  unfold filepathWalk
  generalize walk env cfg cfg.projectPath root initState = res at hwalk
  obtain ⟨st, werr⟩ := res
  obtain ⟨⟨hchunk, hall, hout⟩, hpart⟩ := hwalk
  simp only at hchunk hall hout hpart
  have hcount : ((env.sortSlice
      (if st.currentChunk.length > 0 then st.allFiles ++ st.currentChunk
        else st.allFiles)).length : Int)
      = (st.out.length : Int) * cfg.chunkSize + (st.currentChunk.length : Int) := by
    rw [(hsort _).1.length_eq]
    split
    · rw [List.length_append]
      push_cast
      rw [hall]
    · rename_i hz
      have : st.currentChunk.length = 0 := by omega
      rw [this, hall]
      simp
  have hdiv : (st.out.length : Int)
      = ((st.out.length : Int) * cfg.chunkSize + (st.currentChunk.length : Int))
        / cfg.chunkSize := by
    have hpos : (0 : Int) < cfg.chunkSize := by omega
    rw [Int.add_comm, Int.add_mul_ediv_right _ _ (ne_of_gt hpos),
      Int.ediv_eq_zero_of_lt (by omega) hchunk]
    simp
  have hfin : ∀ e : Option String,
      ∃ (init : List SearchResponse) (final : SearchResponse),
        some (finishScan env st e) = some { out := init ++ [final], err := none } ∧
        (∀ r ∈ init, r.Partial = true) ∧ final.Partial = false ∧
        init.map (fun r => r.Count)
          = (List.range init.length).map (fun (i : Nat) => ((i : Int) + 1) * cfg.chunkSize) ∧
        (init.length : Int) = final.Count / cfg.chunkSize := by
    intro e
    refine ⟨st.out,
      { Files := env.sortSlice
          (if st.currentChunk.length > 0 then st.allFiles ++ st.currentChunk
            else st.allFiles),
        Count := (env.sortSlice
          (if st.currentChunk.length > 0 then st.allFiles ++ st.currentChunk
            else st.allFiles)).length,
        Partial := false, Complete := true,
        Error := match e with
          | some msg => msg
          | none => "" }, ?_, hpart, rfl, hout, ?_⟩
    · simp only [finishScan, outputJSON, hsink]
    · simp only []
      rw [hcount]
      exact hdiv
  cases werr with
  | none => exact hfin none
  | some w =>
    cases w with
    | skipDir => exact hfin none
    | error msg => exact hfin (some msg)

/-- Witness of C18: the demo run with chunk size 1 sends partial responses with counts 1 and 2
and a final response with count 2. -/
theorem scanDirectory_chunks_witness :
    ∃ (init : List SearchResponse) (final : SearchResponse),
      scanDirectory demoEnv demoTree (ascii "/proj") (ascii "foo.") [] 0 0 1
        = some { out := init ++ [final], err := none } ∧
      (∀ r ∈ init, r.Partial = true) ∧ final.Partial = false ∧
      init.map (fun r => r.Count)
        = (List.range init.length).map (fun (i : Nat) => ((i : Int) + 1) *
            (scanConfig (ascii "/proj") (ascii "foo.") [] 0 0 1).chunkSize) ∧
      (init.length : Int) = final.Count
        / (scanConfig (ascii "/proj") (ascii "foo.") [] 0 0 1).chunkSize :=
  (scanDirectory_chunks demoEnv sortDesc_sortsDescending (fun _ => rfl) demoTree (ascii "/proj")
    (ascii "foo.") [] 0 0 1 (by decide)).1 (by decide)

end LvimSpace
